import Mathlib

/-!
Verification of the p2p request/response layer: a shallow embedding of the
request-manager state machine (`src/behaviour/request_manager.rs`) and of the
wire-protocol handlers (`src/behaviour/handler/protocol.rs`), together with
theorems about the behaviour claimed in the specification.

Conventions of the embedding:
* `PeerId`, `ConnectionId` and `RequestId` are opaque orderable handles and are
  modelled as `Nat`.
* Rust `HashMap`s are modelled as association lists with `mapGet` / `mapInsert`
  / `mapRemove` / `mapModify` (the code never iterates over a `HashMap`, so the
  unspecified iteration order is irrelevant).
* `SmallVec` / `Vec` are `List`s (`push` appends at the end).
* The `VecDeque` of actions is a list plus an explicit capacity counter, so the
  `shrink_to_fit` behaviour of `take_next_action` is observable.
* The single-shot `response_tx` channel in `RequestMessage` carries no
  state that the manager can observe (it is moved or dropped), so it is not a
  field of the model; dropping it is a no-op on manager state.
-/

abbrev PeerId := Nat
abbrev ConnectionId := Nat
abbrev RequestId := Nat

/-- Association-list lookup: value of the first entry with the given key. -/
def mapGet {α β : Type} [DecidableEq α] : List (α × β) → α → Option β
  | [], _ => none
  | e :: m, k => if e.1 = k then some e.2 else mapGet m k

/-- Association-list removal of every entry with the given key
(Rust `HashMap::remove`; well-formed lists hold a key at most once). -/
def mapRemove {α β : Type} [DecidableEq α] : List (α × β) → α → List (α × β)
  | [], _ => []
  | e :: m, k => if e.1 = k then mapRemove m k else e :: mapRemove m k

/-- Association-list insert: replace the first entry with the key in place, or
append a new entry (Rust `HashMap::insert`). -/
def mapInsert {α β : Type} [DecidableEq α] : List (α × β) → α → β → List (α × β)
  | [], k, v => [(k, v)]
  | e :: m, k, v => if e.1 = k then (k, v) :: m else e :: mapInsert m k v

/-- Association-list in-place update with default (Rust
`HashMap::entry(k).or_insert_with(d)` followed by a mutation `f`). -/
def mapModify {α β : Type} [DecidableEq α] : List (α × β) → α → β → (β → β) → List (α × β)
  | [], k, d, f => [(k, f d)]
  | e :: m, k, d, f => if e.1 = k then (k, f e.2) :: m else e :: mapModify m k d f

/-- Direction of a request (`RequestDirection` in `lib.rs`). -/
inductive RequestDirection : Type
  | inbound
  | outbound
deriving DecidableEq, Repr

/-- Modelled from the spec: `RuleDirection` (`Inbound | Outbound | Both`) lives
in the firewall module, which is not part of the sources under verification. -/
inductive RuleDirection : Type
  | inbound
  | outbound
  | both
deriving DecidableEq, Repr

def RuleDirection.is_inbound : RuleDirection → Bool
  | .inbound => true
  | .both => true
  | .outbound => false

def RuleDirection.is_outbound : RuleDirection → Bool
  | .outbound => true
  | .both => true
  | .inbound => false

/-- Modelled from the spec: `ProtocolSupport` (`Inbound | Outbound | Both |
None`), defined outside the verified sources. -/
inductive ProtocolSupport : Type
  | inbound
  | outbound
  | both
  | neither
deriving DecidableEq, Repr

/-- Modelled from the spec: a firewall `Rule` is `Ask` or `Permission(P)` where
the permission is a bitmask predicate over the request's permission value. -/
inductive Rule : Type
  | ask
  | permission (mask : Nat)
deriving DecidableEq, Repr

/-- Modelled from the spec: `Permission::permits` checks the request's
permission value against the bitmask. -/
def permits (mask v : Nat) : Bool := mask &&& v == v

/-- Modelled from the spec: `FirewallRules` is a pair of optional rules, one
per direction. -/
structure FirewallRules : Type where
  inbound : Option Rule
  outbound : Option Rule
deriving DecidableEq, Repr

/-- Modelled from the spec: kinds of inbound failures. -/
inductive InboundFailure : Type
  | notPermitted
  | connectionClosed
  | timeout
  | unsupportedProtocols
deriving DecidableEq, Repr

/-- Modelled from the spec: kinds of outbound failures. -/
inductive OutboundFailure : Type
  | notPermitted
  | connectionClosed
  | dialFailure
  | timeout
  | unsupportedProtocols
deriving DecidableEq, Repr

/-- A request message: the payload `data` doubles as the permission value
(`to_permissioned` / `permission_value` are modelled as the identity on it).
The single-shot response channel is not manager-observable state. -/
structure RequestMessage : Type where
  data : Nat
deriving DecidableEq, Repr

/-- The output alphabet of the request manager (`BehaviourAction`). -/
inductive BehaviourAction : Type
  | inboundReady (request_id : RequestId) (peer : PeerId) (request : RequestMessage)
  | outboundReady (request_id : RequestId) (peer : PeerId) (connection : ConnectionId)
      (request : RequestMessage)
  | requireDialAttempt (peer : PeerId)
  | setProtocolSupport (peer : PeerId) (connection : ConnectionId) (support : ProtocolSupport)
  | outboundFailure (peer : PeerId) (request_id : RequestId) (reason : OutboundFailure)
  | inboundFailure (peer : PeerId) (request_id : RequestId) (reason : InboundFailure)
deriving DecidableEq, Repr

/-- Approval status of a newly admitted request (`ApprovalStatus`). -/
inductive ApprovalStatus : Type
  | missingRule
  | missingApproval
  | approved
  | rejected
deriving DecidableEq, Repr

/-- The in-flight request ids of one connection, per direction (the
`PendingResponses` pair of sets of the connection sub-component). -/
structure PendingResponses : Type where
  outbound_requests : List RequestId
  inbound_requests : List RequestId
deriving DecidableEq, Repr

/-- Modelled from the spec: the per-peer connection bookkeeping sub-component
(`connections.rs` is not among the sources). It keeps, per peer, the ordered
list of live connections, and per connection the two in-flight id sets. -/
structure PeerConnectionManager : Type where
  peer_connections : List (PeerId × List ConnectionId)
  pending_responses : List (ConnectionId × PendingResponses)
deriving DecidableEq, Repr

def PeerConnectionManager.new : PeerConnectionManager := ⟨[], []⟩

/-- Modelled from the spec: register a new connection with empty in-flight
sets. -/
def PeerConnectionManager.add_connection (pcm : PeerConnectionManager) (peer : PeerId)
    (conn : ConnectionId) : PeerConnectionManager :=
  { peer_connections := mapModify pcm.peer_connections peer [] (· ++ [conn]),
    pending_responses := mapInsert pcm.pending_responses conn ⟨[], []⟩ }

def PeerConnectionManager.get_connections (pcm : PeerConnectionManager) (peer : PeerId) :
    List ConnectionId :=
  (mapGet pcm.peer_connections peer).getD []

/-- Modelled from the spec: a peer is connected iff at least one live
connection to it exists. -/
def PeerConnectionManager.is_connected (pcm : PeerConnectionManager) (peer : PeerId) : Bool :=
  !(pcm.get_connections peer).isEmpty

def PeerConnectionManager.get_connected_peers (pcm : PeerConnectionManager) : List PeerId :=
  pcm.peer_connections.map Prod.fst

def pushPending (dir : RequestDirection) (rid : RequestId) (p : PendingResponses) :
    PendingResponses :=
  match dir with
  | .inbound => { p with inbound_requests := p.inbound_requests ++ [rid] }
  | .outbound => { p with outbound_requests := p.outbound_requests ++ [rid] }

/-- Modelled from the spec: attach a request to some connection of the peer.
Returns the chosen connection iff the peer has at least one connection;
tie-breaking is first-by-insertion-order as the spec recommends. -/
def PeerConnectionManager.add_request (pcm : PeerConnectionManager) (peer : PeerId)
    (rid : RequestId) (dir : RequestDirection) : Option (ConnectionId × PeerConnectionManager) :=
  match mapGet pcm.peer_connections peer with
  | none => none
  | some [] => none
  | some (c :: _) =>
    some (c, { pcm with
      pending_responses := mapModify pcm.pending_responses c ⟨[], []⟩ (pushPending dir rid) })

/-- Modelled from the spec: drop one connection of a peer, handing back its
in-flight sets; a peer entry left without connections is pruned, so that
disconnecting a peer wholesale and closing its connections one by one are
interchangeable. -/
def PeerConnectionManager.remove_connection (pcm : PeerConnectionManager) (peer : PeerId)
    (conn : ConnectionId) : PeerConnectionManager × Option PendingResponses :=
  let pcs :=
    match mapGet pcm.peer_connections peer with
    | none => pcm.peer_connections
    | some l =>
      let l' := l.erase conn
      if l'.isEmpty then mapRemove pcm.peer_connections peer
      else mapInsert pcm.peer_connections peer l'
  (⟨pcs, mapRemove pcm.pending_responses conn⟩, mapGet pcm.pending_responses conn)

/-- Modelled from the spec: drop a peer entirely, handing back every
`ConnectionId` that was live for it. -/
def PeerConnectionManager.remove_all_connections (pcm : PeerConnectionManager) (peer : PeerId) :
    PeerConnectionManager × Option (List ConnectionId) :=
  match mapGet pcm.peer_connections peer with
  | none => (pcm, none)
  | some l => ({ pcm with peer_connections := mapRemove pcm.peer_connections peer }, some l)

/-- Modelled from the spec: remove one in-flight request id of a connection. -/
def PeerConnectionManager.remove_request (pcm : PeerConnectionManager) (conn : ConnectionId)
    (rid : RequestId) (dir : RequestDirection) : PeerConnectionManager :=
  let pending :=
    match mapGet pcm.pending_responses conn with
    | none => pcm.pending_responses
    | some p =>
      let p' := match dir with
        | .inbound => { p with inbound_requests := p.inbound_requests.erase rid }
        | .outbound => { p with outbound_requests := p.outbound_requests.erase rid }
      mapInsert pcm.pending_responses conn p'
  { pcm with pending_responses := pending }

/-- Modelled from the spec: the `actions` FIFO shrink threshold
(`EMPTY_QUEUE_SHRINK_THRESHOLD` is declared outside the verified sources; the
spec's reference value 100 is used). -/
def EMPTY_QUEUE_SHRINK_THRESHOLD : Nat := 100

/-- A `VecDeque` of actions together with its capacity, which `shrink_to_fit`
can reduce. -/
structure ActionQueue : Type where
  items : List BehaviourAction
  cap : Nat
deriving DecidableEq, Repr

def ActionQueue.push_back (q : ActionQueue) (a : BehaviourAction) : ActionQueue :=
  ⟨q.items ++ [a], max q.cap (q.items.length + 1)⟩

/-- Push a whole batch of actions (`VecDeque::extend`). -/
def ActionQueue.pushAll (q : ActionQueue) (l : List BehaviourAction) : ActionQueue :=
  l.foldl ActionQueue.push_back q

def ActionQueue.shrink_to_fit (q : ActionQueue) : ActionQueue :=
  ⟨q.items, q.items.length⟩

/-- The request-manager state (`RequestManager`). -/
structure RequestManager : Type where
  inbound_request_store : List (RequestId × PeerId × RequestMessage)
  outbound_request_store : List (RequestId × PeerId × RequestMessage)
  connections : PeerConnectionManager
  awaiting_connection : List (PeerId × List RequestId)
  awaiting_peer_rule : List (PeerId × List (RequestDirection × List RequestId))
  awaiting_approval : List (RequestId × RequestDirection)
  actions : ActionQueue
deriving DecidableEq, Repr

def RequestManager.new : RequestManager :=
  { inbound_request_store := [], outbound_request_store := [],
    connections := PeerConnectionManager.new, awaiting_connection := [],
    awaiting_peer_rule := [], awaiting_approval := [], actions := ⟨[], 0⟩ }

/-- Cache a request until it is approved or a connection exists
(`store_request`). -/
def store_request (s : RequestManager) (peer : PeerId) (request_id : RequestId)
    (request : RequestMessage) (direction : RequestDirection) : RequestManager :=
  match direction with
  | .inbound =>
    { s with inbound_request_store := mapInsert s.inbound_request_store request_id (peer, request) }
  | .outbound =>
    { s with outbound_request_store := mapInsert s.outbound_request_store request_id (peer, request) }

/-- Remove a cached request from the store and return it
(`take_stored_request`). -/
def take_stored_request (s : RequestManager) (request_id : RequestId)
    (direction : RequestDirection) : RequestManager × Option (PeerId × RequestMessage) :=
  match direction with
  | .inbound =>
    ({ s with inbound_request_store := mapRemove s.inbound_request_store request_id },
      mapGet s.inbound_request_store request_id)
  | .outbound =>
    ({ s with outbound_request_store := mapRemove s.outbound_request_store request_id },
      mapGet s.outbound_request_store request_id)

/-- Queue a dial attempt for a peer with a pending outbound request
(`add_dial_attempt`). -/
def add_dial_attempt (s : RequestManager) (peer : PeerId) (request_id : RequestId) :
    RequestManager :=
  { s with
    awaiting_connection := mapModify s.awaiting_connection peer [] (· ++ [request_id]),
    actions := s.actions.push_back (.requireDialAttempt peer) }

/-- Queue the ready action for an approved, attached request
(`add_ready_request`). -/
def add_ready_request (s : RequestManager) (peer : PeerId) (request_id : RequestId)
    (connection : ConnectionId) (request : RequestMessage) (direction : RequestDirection) :
    RequestManager :=
  let event : BehaviourAction :=
    match direction with
    | .inbound => .inboundReady request_id peer request
    | .outbound => .outboundReady request_id peer connection request
  { s with actions := s.actions.push_back event }

/-- Peer id of a stored request (`get_request_peer_ref`); the inbound store is
consulted first. -/
def get_request_peer_ref (s : RequestManager) (request_id : RequestId) : Option PeerId :=
  ((mapGet s.inbound_request_store request_id).or
    (mapGet s.outbound_request_store request_id)).map Prod.fst

/-- Payload of a stored request (`get_request_value_ref`). -/
def get_request_value_ref (s : RequestManager) (request_id : RequestId) : Option Nat :=
  ((mapGet s.inbound_request_store request_id).or
    (mapGet s.outbound_request_store request_id)).map (fun pr => pr.2.data)

/-- Approval or rejection of an individual request
(`handle_request_approval`); `none` models the `?` early returns. -/
def handle_request_approval (s : RequestManager) (request_id : RequestId)
    (direction : RequestDirection) (is_allowed : Bool) : RequestManager × Option Unit :=
  if !is_allowed then
    match take_stored_request s request_id direction with
    | (s', none) => (s', none)
    | (s', some (peer, _req)) =>
      let action : BehaviourAction :=
        match direction with
        | .outbound => .outboundFailure peer request_id .notPermitted
        | .inbound => .inboundFailure peer request_id .notPermitted
      ({ s' with actions := s'.actions.push_back action }, some ())
  else
    match get_request_peer_ref s request_id with
    | none => (s, none)
    | some peer =>
      match s.connections.add_request peer request_id direction with
      | some (connection, conns') =>
        let s := { s with connections := conns' }
        match take_stored_request s request_id direction with
        | (s', none) => (s', none)
        | (s', some (peer2, request)) =>
          (add_ready_request s' peer2 request_id connection request direction, some ())
      | none =>
        match direction with
        | .inbound =>
          match take_stored_request s request_id .inbound with
          | (s', none) => (s', none)
          | (s', some _) =>
            let acts := s'.actions.push_back (.inboundFailure peer request_id .connectionClosed)
            ({ s' with actions := acts }, some ())
        | .outbound => (add_dial_attempt s peer request_id, some ())

/-- Admission of a new request (`on_new_request`). -/
def on_new_request (s : RequestManager) (peer : PeerId) (request_id : RequestId)
    (request : RequestMessage) (approval_status : ApprovalStatus)
    (direction : RequestDirection) : RequestManager :=
  match approval_status with
  | .missingRule =>
    let s := store_request s peer request_id request direction
    let apr := mapModify s.awaiting_peer_rule peer []
      (fun await_rule => mapModify await_rule direction [] (· ++ [request_id]))
    { s with awaiting_peer_rule := apr }
  | .missingApproval =>
    let s := store_request s peer request_id request direction
    { s with awaiting_approval := s.awaiting_approval ++ [(request_id, direction)] }
  | .approved =>
    match s.connections.add_request peer request_id direction with
    | some (connection, conns') =>
      add_ready_request { s with connections := conns' } peer request_id connection request
        direction
    | none =>
      match direction with
      | .outbound =>
        let s := store_request s peer request_id request .outbound
        add_dial_attempt s peer request_id
      | .inbound =>
        let acts := s.actions.push_back (.inboundFailure peer request_id .connectionClosed)
        { s with actions := acts }
  | .rejected =>
    let action : BehaviourAction :=
      match direction with
      | .outbound => .outboundFailure peer request_id .notPermitted
      | .inbound => .inboundFailure peer request_id .notPermitted
    { s with actions := s.actions.push_back action }

/-- One iteration of the flush loop of `on_peer_connected`: take the stored
request (skipping the id if it is gone, as `unwrap_or_return` does inside the
closure), attach it, and emit `OutboundReady`; `none` models the
`expect("Peer is connected")` panic. -/
def flushPending (s : RequestManager) : List RequestId → Option RequestManager
  | [] => some s
  | request_id :: rest =>
    match take_stored_request s request_id .outbound with
    | (s', none) => flushPending s' rest
    | (s', some (peer, request)) =>
      match s'.connections.add_request peer request_id .outbound with
      | none => none
      | some (connection, conns') =>
        flushPending
          { s' with
            connections := conns',
            actions := s'.actions.push_back (.outboundReady request_id peer connection request) }
          rest

/-- Flush of requests awaiting a connection when a peer becomes connected
(`on_peer_connected`); `none` models the `expect` panic. -/
def on_peer_connectedCore (s : RequestManager) (peer : PeerId) : Option RequestManager :=
  if !s.connections.is_connected peer then some s
  else
    match mapGet s.awaiting_connection peer with
    | none => some s
    | some requests =>
      flushPending { s with awaiting_connection := mapRemove s.awaiting_connection peer } requests

/-- Close one connection and fail its in-flight requests
(`on_connection_closed`): outbound failures are queued before inbound ones, in
stored order. -/
def on_connection_closed (s : RequestManager) (peer : PeerId) (conn : ConnectionId) :
    RequestManager :=
  match s.connections.remove_connection peer conn with
  | (conns', none) => { s with connections := conns' }
  | (conns', some pending_res) =>
    let closed_out := pending_res.outbound_requests.map
      (fun request_id => BehaviourAction.outboundFailure peer request_id .connectionClosed)
    let closed_in := pending_res.inbound_requests.map
      (fun request_id => BehaviourAction.inboundFailure peer request_id .connectionClosed)
    { s with
      connections := conns',
      actions := (s.actions.pushAll closed_out).pushAll closed_in }

/-- Full disconnect of a peer (`on_peer_disconnected`). -/
def on_peer_disconnected (s : RequestManager) (peer : PeerId) : RequestManager :=
  match s.connections.remove_all_connections peer with
  | (conns', none) => { s with connections := conns' }
  | (conns', some conns) =>
    conns.foldl (fun s c => on_connection_closed s peer c) { s with connections := conns' }

/-- Registration of a new connection (`on_connection_established`). -/
def on_connection_established (s : RequestManager) (peer : PeerId) (conn : ConnectionId) :
    RequestManager :=
  { s with connections := s.connections.add_connection peer conn }

/-- Body of the loop of `on_dial_failure`: drop and fail one outbound request
that was awaiting the connection. -/
def failDialStep (peer : PeerId) (s : RequestManager) (request_id : RequestId) :
    RequestManager :=
  let s := (take_stored_request s request_id .outbound).1
  let acts := s.actions.push_back (.outboundFailure peer request_id .dialFailure)
  { s with actions := acts }

/-- Failure of a dial attempt (`on_dial_failure`): fail every outbound request
awaiting the connection. -/
def on_dial_failure (s : RequestManager) (peer : PeerId) : RequestManager :=
  match mapGet s.awaiting_connection peer with
  | none => s
  | some requests =>
    requests.foldl (failDialStep peer)
      { s with awaiting_connection := mapRemove s.awaiting_connection peer }

/-- Handling of the requests awaiting a rule, in stored order, once the rule
arrives (the eager `filter_map` inside `on_peer_rule`); returns the updated
state and the `require_ask` sublist. -/
def processRequests (s : RequestManager) (rules : FirewallRules) :
    List (RequestId × RequestDirection) →
      RequestManager × List (RequestId × Nat × RequestDirection)
  | [] => (s, [])
  | (request_id, dir) :: rest =>
    let rule := match dir with
      | .inbound => rules.inbound
      | .outbound => rules.outbound
    let step : RequestManager × Option (RequestId × Nat × RequestDirection) :=
      match rule with
      | some .ask =>
        match get_request_value_ref s request_id with
        | none => (s, none)
        | some rq =>
          ({ s with awaiting_approval := s.awaiting_approval ++ [(request_id, dir)] },
            some (request_id, rq, dir))
      | some (.permission mask) =>
        match get_request_value_ref s request_id with
        | none => (s, none)
        | some rq => ((handle_request_approval s request_id dir (permits mask rq)).1, none)
      | none => ((handle_request_approval s request_id dir false).1, none)
    let rec2 := processRequests step.1 rules rest
    (rec2.1, match step.2 with
      | some e => e :: rec2.2
      | none => rec2.2)

/-- Arrival of a firewall rule for a peer (`on_peer_rule`): drain the affected
direction lists, handle each request, and keep unaffected directions. -/
def on_peer_rule (s : RequestManager) (peer : PeerId) (rules : FirewallRules)
    (direction : RuleDirection) :
    RequestManager × Option (List (RequestId × Nat × RequestDirection)) :=
  match mapGet s.awaiting_peer_rule peer with
  | none => (s, none)
  | some await_rule0 =>
    let s := { s with awaiting_peer_rule := mapRemove s.awaiting_peer_rule peer }
    let inIds := if direction.is_inbound then (mapGet await_rule0 .inbound).getD [] else []
    let await_rule1 :=
      if direction.is_inbound then mapRemove await_rule0 .inbound else await_rule0
    let outIds := if direction.is_outbound then (mapGet await_rule1 .outbound).getD [] else []
    let await_rule2 :=
      if direction.is_outbound then mapRemove await_rule1 .outbound else await_rule1
    let requests :=
      inIds.map (fun rq => (rq, RequestDirection.inbound)) ++
        outIds.map (fun rq => (rq, RequestDirection.outbound))
    let res := processRequests s rules requests
    let s' :=
      if await_rule2.isEmpty then res.1
      else { res.1 with awaiting_peer_rule := mapInsert res.1.awaiting_peer_rule peer await_rule2 }
    (s', some res.2)

/-- Body of the loops of `on_no_peer_rule`: drop one stored request of the
given direction and fail it with `NotPermitted`. -/
def failNoRuleStep (peer : PeerId) (d : RequestDirection) (s : RequestManager)
    (request_id : RequestId) : RequestManager :=
  let s := (take_stored_request s request_id d).1
  let action : BehaviourAction := match d with
    | .inbound => .inboundFailure peer request_id .notPermitted
    | .outbound => .outboundFailure peer request_id .notPermitted
  { s with actions := s.actions.push_back action }

/-- Denial or absence of a rule for a peer (`on_no_peer_rule`): fail the
waiting requests of the affected directions with `NotPermitted`. -/
def on_no_peer_rule (s : RequestManager) (peer : PeerId) (direction : RuleDirection) :
    RequestManager :=
  match mapGet s.awaiting_peer_rule peer with
  | none => s
  | some await_rule0 =>
    let s := { s with awaiting_peer_rule := mapRemove s.awaiting_peer_rule peer }
    let s :=
      if direction.is_inbound then
        match mapGet await_rule0 .inbound with
        | some requests => requests.foldl (failNoRuleStep peer .inbound) s
        | none => s
      else s
    let await_rule1 :=
      if direction.is_inbound then mapRemove await_rule0 .inbound else await_rule0
    let s :=
      if direction.is_outbound then
        match mapGet await_rule1 .outbound with
        | some requests => requests.foldl (failNoRuleStep peer .outbound) s
        | none => s
      else s
    let await_rule2 :=
      if direction.is_outbound then mapRemove await_rule1 .outbound else await_rule1
    if await_rule2.isEmpty then s
    else { s with awaiting_peer_rule := mapInsert s.awaiting_peer_rule peer await_rule2 }

/-- Rust `slice::binary_search_by`, specialised to searching a request id in
`awaiting_approval`: classic halving loop; `Except.error` carries the
insertion point. The fuel argument bounds the iteration count and never runs
out when started at `l.length + 1`. -/
def binarySearchGo (l : List (RequestId × RequestDirection)) (target : RequestId) :
    Nat → Nat → Nat → Except Nat Nat
  | 0, left, _ => .error left
  | n + 1, left, right =>
    if left < right then
      match l.get? (left + (right - left) / 2) with
      | none => .error left
      | some e =>
        match compare e.1 target with
        | .lt => binarySearchGo l target n (left + (right - left) / 2 + 1) right
        | .gt => binarySearchGo l target n left (left + (right - left) / 2)
        | .eq => .ok (left + (right - left) / 2)
    else .error left

def binary_search_by (l : List (RequestId × RequestDirection)) (target : RequestId) :
    Except Nat Nat :=
  binarySearchGo l target (l.length + 1) 0 l.length

/-- Resolution of one entry of `awaiting_approval` (`on_request_approval`):
binary-search the id, remove the entry, and route through
`handle_request_approval`. -/
def on_request_approval (s : RequestManager) (request_id : RequestId) (is_allowed : Bool) :
    RequestManager × Option Unit :=
  match binary_search_by s.awaiting_approval request_id with
  | .error _ => (s, none)
  | .ok index =>
    match s.awaiting_approval.get? index with
    | none => (s, none)
    | some (rid, direction) =>
      handle_request_approval { s with awaiting_approval := s.awaiting_approval.eraseIdx index }
        rid direction is_allowed

/-- Placeholder installation so the facade deduplicates rule queries
(`add_pending_rule_requests`). -/
def add_pending_rule_requests (s : RequestManager) (peer : PeerId)
    (direction : RuleDirection) : RequestManager :=
  let pending := (mapGet s.awaiting_peer_rule peer).getD []
  let pending :=
    if direction.is_inbound && !(mapGet pending RequestDirection.inbound).isSome then
      mapInsert pending RequestDirection.inbound []
    else pending
  let pending :=
    if direction.is_outbound && !(mapGet pending RequestDirection.outbound).isSome then
      mapInsert pending RequestDirection.outbound []
    else pending
  { s with awaiting_peer_rule := mapInsert s.awaiting_peer_rule peer pending }

/-- Enqueue protocol-support reconfiguration actions (`set_protocol_support`):
one action for the given connection, or one per live connection of the peer. -/
def set_protocol_support (s : RequestManager) (peer : PeerId)
    (connection : Option ConnectionId) (protocol_support : ProtocolSupport) : RequestManager :=
  let conns :=
    match connection with
    | some c => [c]
    | none => s.connections.get_connections peer
  conns.foldl
    (fun s conn =>
      { s with actions := s.actions.push_back (.setProtocolSupport peer conn protocol_support) })
    s

/-- Pop the next action; shrink the queue capacity whenever it exceeds the
threshold (`take_next_action`). -/
def take_next_action (s : RequestManager) : Option BehaviourAction × RequestManager :=
  let next := s.actions.items.head?
  let q : ActionQueue := ⟨s.actions.items.tail, s.actions.cap⟩
  let q := if q.cap > EMPTY_QUEUE_SHRINK_THRESHOLD then q.shrink_to_fit else q
  (next, { s with actions := q })

/-! ### Wire codec and protocol handlers (`handler/protocol.rs`)

The substream, the oneshot channels and the libp2p `read_one` / `write_one`
primitives are external collaborators; their observable outcomes are inputs of
the embedding, so that the handler's control flow over them is verified. -/

/-- Kinds of `io::Error` relevant to the codec. -/
inductive ErrorKind : Type
  | invalidData
  | other
  | brokenPipe
  | unexpectedEof
deriving DecidableEq, Repr

/-- An `io::Error`: its kind plus an opaque payload standing for the wrapped
source error. -/
structure IOErr : Type where
  kind : ErrorKind
  code : Nat
deriving DecidableEq, Repr

/-- Error type of libp2p `read_one`: an I/O error, or a message whose length
prefix exceeds the permitted maximum. -/
inductive ReadOneError : Type
  | ioError (e : IOErr)
  | tooLarge (requested : Nat) (maxAllowed : Nat)
deriving DecidableEq, Repr

/-- What the substream yields to the reader: an I/O error while reading, or a
length-prefixed frame. -/
inductive SubstreamRead : Type
  | ioErr (e : IOErr)
  | frame (len : Nat) (bytes : List Nat)
deriving DecidableEq, Repr

/-- The platform's largest size word (`usize::MAX` on a 64-bit platform), the
maximum message size the reader passes to `read_one`. -/
def USIZE_MAX : Nat := 2 ^ 64 - 1

/-- Contract of libp2p `read_one`: reject a frame whose declared length
exceeds the maximum, otherwise yield the frame's bytes. -/
def read_one (maxSize : Nat) (input : SubstreamRead) : Except ReadOneError (List Nat) :=
  match input with
  | .ioErr e => .error (.ioError e)
  | .frame len bytes => if len > maxSize then .error (.tooLarge len maxSize) else .ok bytes

/-- Read from the substream and deserialize (`read_and_parse`): decode
failures become `InvalidData`, I/O errors are passed through, an over-long
message (a `ReadOneError::TooLarge`) is wrapped with kind `Other`. -/
def read_and_parse {T : Type} (decode : List Nat → Except String T)
    (input : SubstreamRead) : Except IOErr T :=
  match read_one USIZE_MAX input with
  | .ok bytes =>
    match decode bytes with
    | .ok v => .ok v
    | .error _ => .error ⟨.invalidData, 0⟩
  | .error (.ioError io_err) => .error io_err
  | .error (.tooLarge _ _) => .error ⟨.other, 0⟩

/-- Environment of one run of the inbound response handler: outcome of the
request read, outcome of the response oneshot (`some` = a response was
supplied, `none` = the sink was dropped), serializer behaviour, and outcomes
of the write and close primitives. -/
structure InboundEnv (Rq Rs : Type) : Type where
  readResult : Except IOErr Rq
  sink : Option Rs
  encode : Rs → Except String (List Nat)
  writeResult : List Nat → Except IOErr Unit
  closeResult : Except IOErr Unit

/-- Serialize and write one message, then close (`parse_and_write`); the
second component records the byte buffers written to the substream. -/
def parse_and_write {Rq Rs : Type} (env : InboundEnv Rq Rs) (data : Rs) :
    Except IOErr Unit × List (List Nat) :=
  match env.encode data with
  | .error _ => (.error ⟨.invalidData, 0⟩, [])
  | .ok buf =>
    match env.writeResult buf with
    | .error e => (.error e, [buf])
    | .ok _ =>
      match env.closeResult with
      | .error e => (.error e, [buf])
      | .ok _ => (.ok (), [buf])

/-- The inbound response protocol upgrade (`ResponseProtocol::upgrade_inbound`):
read one request, forward it, await the response oneshot; on a value, write it
back and return `true`; on a dropped sink, close without writing and return
`false`. The second component records the buffers written. -/
def upgrade_inbound {Rq Rs : Type} (env : InboundEnv Rq Rs) :
    Except IOErr Bool × List (List Nat) :=
  match env.readResult with
  | .error e => (.error e, [])
  | .ok _request =>
    match env.sink with
    | some response =>
      let res := parse_and_write env response
      (res.1.map (fun _ => true), res.2)
    | none =>
      match env.closeResult with
      | .ok _ => (.ok false, [])
      | .error e => (.error e, [])

/-! ### Association-list lemmas -/

theorem mapGet_mapInsert_self {α β : Type} [DecidableEq α] (m : List (α × β)) (k : α) (v : β) :
    mapGet (mapInsert m k v) k = some v := by
  induction m with
  | nil => simp [mapGet, mapInsert]
  | cons e m ih =>
    by_cases h : e.1 = k
    · simp [mapGet, mapInsert, h]
    · simp [mapGet, mapInsert, h, ih]

theorem mapGet_mapInsert_ne {α β : Type} [DecidableEq α] (m : List (α × β)) (k k' : α) (v : β)
    (h : k' ≠ k) : mapGet (mapInsert m k v) k' = mapGet m k' := by
  induction m with
  | nil => simp [mapGet, mapInsert, Ne.symm h]
  | cons e m ih =>
    by_cases he : e.1 = k
    · simp [mapGet, mapInsert, he, Ne.symm h]
    · simp [mapGet, mapInsert, he, ih]

theorem mapInsert_mapInsert {α β : Type} [DecidableEq α] (m : List (α × β)) (k : α) (v w : β) :
    mapInsert (mapInsert m k v) k w = mapInsert m k w := by
  induction m with
  | nil => simp [mapInsert]
  | cons e m ih =>
    by_cases h : e.1 = k
    · simp [mapInsert, h]
    · simp [mapInsert, h, ih]

theorem mapGet_mapRemove_self {α β : Type} [DecidableEq α] (m : List (α × β)) (k : α) :
    mapGet (mapRemove m k) k = none := by
  induction m with
  | nil => simp [mapGet, mapRemove]
  | cons e m ih =>
    by_cases h : e.1 = k
    · simp [mapRemove, h, ih]
    · simp [mapGet, mapRemove, h, ih]

theorem mapGet_mapRemove_ne {α β : Type} [DecidableEq α] (m : List (α × β)) (k k' : α)
    (h : k' ≠ k) : mapGet (mapRemove m k) k' = mapGet m k' := by
  induction m with
  | nil => simp [mapRemove]
  | cons e m ih =>
    by_cases he : e.1 = k
    · simp [mapGet, mapRemove, he, Ne.symm h, ih]
    · simp [mapGet, mapRemove, he, ih]

theorem mapRemove_mapInsert_self {α β : Type} [DecidableEq α] (m : List (α × β)) (k : α) (v : β) :
    mapRemove (mapInsert m k v) k = mapRemove m k := by
  induction m with
  | nil => simp [mapInsert, mapRemove]
  | cons e m ih =>
    by_cases h : e.1 = k
    · simp [mapInsert, mapRemove, h]
    · simp [mapInsert, mapRemove, h, ih]

theorem mapGet_mapModify_self {α β : Type} [DecidableEq α] (m : List (α × β)) (k : α) (d : β)
    (f : β → β) : mapGet (mapModify m k d f) k = some (f ((mapGet m k).getD d)) := by
  induction m with
  | nil => simp [mapGet, mapModify]
  | cons e m ih =>
    by_cases h : e.1 = k
    · simp [mapGet, mapModify, h]
    · simp [mapGet, mapModify, h, ih]

theorem mapGet_mapModify_ne {α β : Type} [DecidableEq α] (m : List (α × β)) (k k' : α) (d : β)
    (f : β → β) (h : k' ≠ k) : mapGet (mapModify m k d f) k' = mapGet m k' := by
  induction m with
  | nil => simp [mapGet, mapModify, Ne.symm h]
  | cons e m ih =>
    by_cases he : e.1 = k
    · simp [mapGet, mapModify, he, Ne.symm h]
    · simp [mapGet, mapModify, he, ih]

/-! ### Claim C3: `take_next_action` -/

/-- Normal form of `take_next_action`: pop the front; the capacity shrinks to
the remaining length whenever it exceeds the threshold, and is kept otherwise. -/
theorem take_next_action_eq (s : RequestManager) :
    take_next_action s =
      (s.actions.items.head?,
        { s with actions :=
            ⟨s.actions.items.tail,
              if EMPTY_QUEUE_SHRINK_THRESHOLD < s.actions.cap then s.actions.items.tail.length
              else s.actions.cap⟩ }) := by
  by_cases h : EMPTY_QUEUE_SHRINK_THRESHOLD < s.actions.cap
  · simp [take_next_action, ActionQueue.shrink_to_fit, h]
  · simp [take_next_action, ActionQueue.shrink_to_fit, h]

/-- C3 counterexample: a queue holding two actions with capacity 200 is still
non-empty after the pop, yet its capacity is shrunk (to 1), contradicting the
claim that capacity is only shrunk when the queue is empty. -/
theorem c3_counterexample :
    ((take_next_action
        { RequestManager.new with
          actions := ⟨[.requireDialAttempt 0, .requireDialAttempt 1], 200⟩ }).2.actions.items ≠ [])
      ∧ ((take_next_action
        { RequestManager.new with
          actions := ⟨[.requireDialAttempt 0, .requireDialAttempt 1], 200⟩ }).2.actions.cap ≠ 200) := by
  constructor
  · decide
  · decide

/-- C3 (amended): `take_next_action` pops and returns the front of the queue;
it shrinks the capacity to fit whenever the capacity exceeds
`EMPTY_QUEUE_SHRINK_THRESHOLD`, regardless of whether the queue is empty, and
leaves the capacity unchanged otherwise. Nothing else of the state changes. -/
theorem c3_take_next_action (s : RequestManager) :
    (take_next_action s).1 = s.actions.items.head? ∧
    (take_next_action s).2.actions.items = s.actions.items.tail ∧
    ((take_next_action s).2.actions.cap =
      if EMPTY_QUEUE_SHRINK_THRESHOLD < s.actions.cap then s.actions.items.tail.length
      else s.actions.cap) ∧
    (take_next_action s).2.inbound_request_store = s.inbound_request_store ∧
    (take_next_action s).2.outbound_request_store = s.outbound_request_store ∧
    (take_next_action s).2.connections = s.connections ∧
    (take_next_action s).2.awaiting_connection = s.awaiting_connection ∧
    (take_next_action s).2.awaiting_peer_rule = s.awaiting_peer_rule ∧
    (take_next_action s).2.awaiting_approval = s.awaiting_approval := by
  rw [take_next_action_eq]
  by_cases h : EMPTY_QUEUE_SHRINK_THRESHOLD < s.actions.cap <;> simp [h]

/-! ### Claim C10: `set_protocol_support` -/

/-- The support-configuration fold only appends the mapped actions to the
queue and leaves every other field alone. -/
theorem set_protocol_support_foldl (peer : PeerId) (sup : ProtocolSupport) :
    ∀ (l : List ConnectionId) (s : RequestManager),
      ((l.foldl
        (fun s conn =>
          { s with actions := s.actions.push_back (.setProtocolSupport peer conn sup) })
        s).actions.items
          = s.actions.items ++ l.map (fun c => BehaviourAction.setProtocolSupport peer c sup))
      ∧ ((l.foldl
        (fun s conn =>
          { s with actions := s.actions.push_back (.setProtocolSupport peer conn sup) })
        s)
          = { s with actions :=
              ⟨s.actions.items ++ l.map (fun c => BehaviourAction.setProtocolSupport peer c sup),
                ((l.foldl
                  (fun s conn =>
                    { s with actions := s.actions.push_back (.setProtocolSupport peer conn sup) })
                  s).actions.cap)⟩ }) := by
  intro l
  induction l with
  | nil => intro s; simp
  | cons c l ih =>
    intro s
    have h := ih { s with actions := s.actions.push_back (.setProtocolSupport peer c sup) }
    constructor
    · simp only [List.foldl_cons]
      rw [h.1]
      simp [ActionQueue.push_back]
    · simp only [List.foldl_cons]
      rw [h.2]
      simp [ActionQueue.push_back]

/-- C10 (confirmed): with a given connection, `set_protocol_support` appends
exactly one `SetProtocolSupport` action naming that connection — whether or
not the connection is registered for the peer — and only the actions queue
changes; with no connection it appends one such action per currently
registered connection of the peer, in stored order. -/
theorem c10_set_protocol_support (s : RequestManager) (peer : PeerId) (c : ConnectionId)
    (sup : ProtocolSupport) :
    (set_protocol_support s peer (some c) sup
      = { s with actions := s.actions.push_back (.setProtocolSupport peer c sup) })
    ∧ ((set_protocol_support s peer none sup).actions.items
      = s.actions.items
          ++ (s.connections.get_connections peer).map
            (fun c => BehaviourAction.setProtocolSupport peer c sup))
    ∧ (set_protocol_support s peer none sup).inbound_request_store = s.inbound_request_store
    ∧ (set_protocol_support s peer none sup).outbound_request_store = s.outbound_request_store
    ∧ (set_protocol_support s peer none sup).connections = s.connections
    ∧ (set_protocol_support s peer none sup).awaiting_connection = s.awaiting_connection
    ∧ (set_protocol_support s peer none sup).awaiting_peer_rule = s.awaiting_peer_rule
    ∧ (set_protocol_support s peer none sup).awaiting_approval = s.awaiting_approval := by
  have h := set_protocol_support_foldl peer sup (s.connections.get_connections peer) s
  refine ⟨by simp [set_protocol_support], ?_, ?_, ?_, ?_, ?_, ?_, ?_⟩
  · simpa [set_protocol_support] using h.1
  all_goals
    show _ = _
    rw [show set_protocol_support s peer none sup
        = (s.connections.get_connections peer).foldl
            (fun s conn =>
              { s with actions := s.actions.push_back (.setProtocolSupport peer conn sup) })
            s from rfl]
    rw [h.2]

/-! ### Claim C8: `add_pending_rule_requests` idempotence -/

/-- C8 (confirmed): installing the rule-request placeholder twice for the same
peer and direction gives exactly the state of installing it once; moreover a
single call never clobbers an existing direction entry — each direction entry
is either kept verbatim or created empty. -/
theorem c8_add_pending_rule_requests_idem (s : RequestManager) (peer : PeerId)
    (direction : RuleDirection) :
    (add_pending_rule_requests (add_pending_rule_requests s peer direction) peer direction
      = add_pending_rule_requests s peer direction)
    ∧ (∀ d : RequestDirection,
        mapGet ((mapGet (add_pending_rule_requests s peer direction).awaiting_peer_rule
            peer).getD []) d
          = mapGet ((mapGet s.awaiting_peer_rule peer).getD []) d
        ∨ (mapGet ((mapGet s.awaiting_peer_rule peer).getD []) d = none
            ∧ mapGet ((mapGet (add_pending_rule_requests s peer direction).awaiting_peer_rule
                peer).getD []) d = some [])) := by
  constructor
  · unfold add_pending_rule_requests
    simp only [mapGet_mapInsert_self, Option.getD_some]
    rw [mapInsert_mapInsert]
    cases direction <;>
      · simp only [RuleDirection.is_inbound, RuleDirection.is_outbound, Bool.true_and,
          Bool.false_and, if_neg, Bool.false_eq_true, if_false]
        by_cases hin : (mapGet ((mapGet s.awaiting_peer_rule peer).getD [])
            RequestDirection.inbound).isSome <;>
          by_cases hout : (mapGet ((mapGet s.awaiting_peer_rule peer).getD [])
              RequestDirection.outbound).isSome <;>
            simp [hin, hout, mapGet_mapInsert_self, mapGet_mapInsert_ne,
              (by decide : RequestDirection.outbound ≠ RequestDirection.inbound),
              (by decide : RequestDirection.inbound ≠ RequestDirection.outbound)]
  · intro d
    unfold add_pending_rule_requests
    simp only [mapGet_mapInsert_self, Option.getD_some]
    by_cases hin : mapGet ((mapGet s.awaiting_peer_rule peer).getD [])
        RequestDirection.inbound = none <;>
      by_cases hout : mapGet ((mapGet s.awaiting_peer_rule peer).getD [])
          RequestDirection.outbound = none <;>
        cases direction <;> cases d <;>
          simp [hin, hout, mapGet_mapInsert_self, mapGet_mapInsert_ne,
            RuleDirection.is_inbound, RuleDirection.is_outbound,
            (by decide : RequestDirection.outbound ≠ RequestDirection.inbound),
            (by decide : RequestDirection.inbound ≠ RequestDirection.outbound),
            Option.isSome_iff_ne_none]

/-! ### Claim C4: wire-codec reader errors -/

/-- C4 counterexample: a frame whose declared length exceeds the reader's
maximum size cap is rejected with error kind `Other` (the wrapped
`ReadOneError::TooLarge`), not `InvalidData` as claimed. -/
theorem c4_counterexample :
    read_and_parse (fun _ => Except.ok (0 : Nat)) (.frame (2 ^ 64) [])
        = Except.error ⟨.other, 0⟩
      ∧ ErrorKind.other ≠ ErrorKind.invalidData := by
  constructor
  · norm_num [read_and_parse, read_one, USIZE_MAX]
  · decide

/-- C4 (amended): in the reader, I/O errors are surfaced unchanged and payload
decoding failures are surfaced with kind `InvalidData`; but a message whose
length exceeds the reader's maximum size cap is rejected with kind `Other`
(the `TooLarge` error is wrapped via `io::Error::new(ErrorKind::Other, e)`),
not `InvalidData`. -/
theorem c4_read_and_parse {T : Type} (decode : List Nat → Except String T) (e : IOErr)
    (len : Nat) (bytes : List Nat) :
    (read_and_parse decode (.ioErr e) = .error e)
    ∧ (len ≤ USIZE_MAX → ∀ msg, decode bytes = .error msg →
        read_and_parse decode (.frame len bytes) = .error ⟨.invalidData, 0⟩)
    ∧ (len > USIZE_MAX → read_and_parse decode (.frame len bytes) = .error ⟨.other, 0⟩) := by
  refine ⟨rfl, ?_, ?_⟩
  · intro hle msg hdec
    have hnot : ¬len > USIZE_MAX := Nat.not_lt.mpr hle
    simp [read_and_parse, read_one, hnot, hdec]
  · intro hgt
    simp [read_and_parse, read_one, hgt]

/-- C4 witness: the amended behaviour at concrete inputs — a broken-pipe I/O
error is passed through, a two-byte frame that fails decoding yields
`InvalidData`, and an over-long frame yields `Other`. -/
theorem c4_read_and_parse_witness :
    (read_and_parse (fun _ => (Except.error "bad" : Except String Nat)) (.ioErr ⟨.brokenPipe, 7⟩)
        = Except.error (⟨.brokenPipe, 7⟩ : IOErr))
    ∧ (read_and_parse (fun _ => (Except.error "bad" : Except String Nat)) (.frame 2 [1, 2])
        = Except.error ⟨.invalidData, 0⟩)
    ∧ (read_and_parse (fun _ => (Except.ok 0 : Except String Nat)) (.frame (2 ^ 64) [])
        = Except.error ⟨.other, 0⟩) :=
  ⟨(c4_read_and_parse (fun _ => (Except.error "bad" : Except String Nat)) ⟨.brokenPipe, 7⟩ 2
      [1, 2]).1,
    (c4_read_and_parse (fun _ => (Except.error "bad" : Except String Nat)) ⟨.brokenPipe, 7⟩ 2
        [1, 2]).2.1 (by decide) "bad" rfl,
    (c4_read_and_parse (fun _ => (Except.ok 0 : Except String Nat)) ⟨.brokenPipe, 7⟩ (2 ^ 64)
        []).2.2 (by decide)⟩

/-! ### Claim C7: the inbound response handler -/

/-- C7 (confirmed): the inbound response upgrade returns `Ok true` exactly
when the read succeeded, the response sink was signaled with a payload, the
payload was encoded and written, and the close succeeded — and then exactly
that encoded buffer was written; it returns `Ok false` exactly when the read
succeeded, the sink was dropped before a response, and the close succeeded —
and whenever the sink was dropped, nothing at all is written. -/
theorem c7_upgrade_inbound {Rq Rs : Type} (env : InboundEnv Rq Rs) :
    ((upgrade_inbound env).1 = .ok true ↔
      (∃ rq r buf, env.readResult = .ok rq ∧ env.sink = some r ∧ env.encode r = .ok buf
        ∧ env.writeResult buf = .ok () ∧ env.closeResult = .ok ()))
    ∧ ((upgrade_inbound env).1 = .ok true →
        ∃ r buf, env.sink = some r ∧ env.encode r = .ok buf ∧ (upgrade_inbound env).2 = [buf])
    ∧ ((upgrade_inbound env).1 = .ok false ↔
      (∃ rq, env.readResult = .ok rq ∧ env.sink = none ∧ env.closeResult = .ok ()))
    ∧ (env.sink = none → (upgrade_inbound env).2 = []) := by
  rcases hread : env.readResult with er | rq
  · refine ⟨?_, ?_, ?_, ?_⟩ <;> simp [upgrade_inbound, hread]
  · rcases hsink : env.sink with _ | r
    · rcases hclose : env.closeResult with ec | u
      · refine ⟨?_, ?_, ?_, ?_⟩ <;> simp [upgrade_inbound, hread, hsink, hclose]
      · refine ⟨?_, ?_, ?_, ?_⟩ <;> simp [upgrade_inbound, hread, hsink, hclose]
    · rcases henc : env.encode r with es | buf
      · refine ⟨?_, ?_, ?_, ?_⟩ <;>
          simp [upgrade_inbound, parse_and_write, Except.map, hread, hsink, henc]
      · rcases hw : env.writeResult buf with ew | uw
        · refine ⟨?_, ?_, ?_, ?_⟩ <;>
            simp [upgrade_inbound, parse_and_write, Except.map, hread, hsink, henc, hw]
        · rcases hclose : env.closeResult with ec | uc
          · refine ⟨?_, ?_, ?_, ?_⟩ <;>
              simp [upgrade_inbound, parse_and_write, Except.map, hread, hsink, henc, hw, hclose]
          · refine ⟨?_, ?_, ?_, ?_⟩ <;>
              simp [upgrade_inbound, parse_and_write, Except.map, hread, hsink, henc, hw, hclose]

/-! ### Claim C9: unknown approval ids are silent no-ops -/

/-- A successful probe of the binary search always lands on an element whose
id equals the searched id (independently of sortedness). -/
theorem binarySearchGo_ok_mem (l : List (RequestId × RequestDirection)) (target : RequestId) :
    ∀ (fuel left right i : Nat), binarySearchGo l target fuel left right = .ok i →
      ∃ e, l.get? i = some e ∧ e.1 = target := by
  intro fuel
  induction fuel with
  | zero =>
    intro left right i h
    simp [binarySearchGo] at h
  | succ n ih =>
    intro left right i h
    rw [binarySearchGo] at h
    by_cases hlr : left < right
    · rw [if_pos hlr] at h
      rcases hget : l.get? (left + (right - left) / 2) with _ | e
      · rw [hget] at h
        cases h
      · rw [hget] at h
        have h' : (match compare e.1 target with
            | Ordering.lt => binarySearchGo l target n (left + (right - left) / 2 + 1) right
            | Ordering.gt => binarySearchGo l target n left (left + (right - left) / 2)
            | Ordering.eq => Except.ok (left + (right - left) / 2)) = Except.ok i := h
        rcases hcmp : compare e.1 target with _ | _ | _ <;> rw [hcmp] at h'
        · exact ih _ _ _ h'
        · cases h'
          exact ⟨e, hget, Nat.compare_eq_eq.mp hcmp⟩
        · exact ih _ _ _ h'
    · rw [if_neg hlr] at h
      cases h

/-- C9 (confirmed): resolving an approval for an id that is not present in
`awaiting_approval` returns `None`, emits nothing and leaves the whole state
unchanged. -/
theorem c9_on_request_approval_noop (s : RequestManager) (request_id : RequestId)
    (is_allowed : Bool) (h : ∀ e ∈ s.awaiting_approval, e.1 ≠ request_id) :
    on_request_approval s request_id is_allowed = (s, none) := by
  unfold on_request_approval
  rcases hbs : binary_search_by s.awaiting_approval request_id with i | i
  · rfl
  · obtain ⟨e, hget, heq⟩ := binarySearchGo_ok_mem s.awaiting_approval request_id _ _ _ _ hbs
    exact absurd heq (h e (List.get?_mem hget))

/-- C9 witness: at a concrete state holding approvals for ids 2 and 4, asking
about id 5 is a silent no-op. -/
theorem c9_witness :
    on_request_approval
        { RequestManager.new with
          awaiting_approval := [(2, RequestDirection.inbound), (4, RequestDirection.outbound)] }
        5 true
      = ({ RequestManager.new with
          awaiting_approval := [(2, RequestDirection.inbound), (4, RequestDirection.outbound)] },
          none) :=
  c9_on_request_approval_noop _ 5 true (by decide)

/-! ### Claim C2: sortedness of `awaiting_approval` -/

/-- The `awaiting_approval` sequence is sorted by RequestId ascending. -/
def approvalSorted (s : RequestManager) : Prop :=
  s.awaiting_approval.Pairwise (fun a b => a.1 ≤ b.1)

instance approvalSortedDecidable (s : RequestManager) : Decidable (approvalSorted s) :=
  inferInstanceAs
    (Decidable (s.awaiting_approval.Pairwise
      (fun (a b : RequestId × RequestDirection) => a.1 ≤ b.1)))

theorem take_stored_request_inbound (s : RequestManager) (rid : RequestId) :
    take_stored_request s rid .inbound
      = ({ s with inbound_request_store := mapRemove s.inbound_request_store rid },
          mapGet s.inbound_request_store rid) := rfl

theorem take_stored_request_outbound (s : RequestManager) (rid : RequestId) :
    take_stored_request s rid .outbound
      = ({ s with outbound_request_store := mapRemove s.outbound_request_store rid },
          mapGet s.outbound_request_store rid) := rfl

theorem take_stored_request_approval (s : RequestManager) (rid : RequestId)
    (dir : RequestDirection) :
    ((take_stored_request s rid dir).1).awaiting_approval = s.awaiting_approval := by
  cases dir <;> rfl

theorem handle_request_approval_approval (s : RequestManager) (rid : RequestId)
    (dir : RequestDirection) (b : Bool) :
    ((handle_request_approval s rid dir b).1).awaiting_approval = s.awaiting_approval := by
  rw [handle_request_approval]
  cases b
  · cases dir
    · rcases hm : mapGet s.inbound_request_store rid with _ | pr <;>
        simp [take_stored_request_inbound, hm]
    · rcases hm : mapGet s.outbound_request_store rid with _ | pr <;>
        simp [take_stored_request_outbound, hm]
  · rcases hp : get_request_peer_ref s rid with _ | peer
    · cases dir <;> rfl
    · dsimp only
      cases dir
      · rcases har : s.connections.add_request peer rid .inbound with _ | cpair
        · rcases hm : mapGet s.inbound_request_store rid with _ | pr <;>
            simp [take_stored_request_inbound, hm]
        · rcases cpair with ⟨conn, conns'⟩
          rcases hm : mapGet s.inbound_request_store rid with _ | pr <;>
            simp [take_stored_request_inbound, hm, add_ready_request]
      · rcases har : s.connections.add_request peer rid .outbound with _ | cpair
        · rfl
        · rcases cpair with ⟨conn, conns'⟩
          rcases hm : mapGet s.outbound_request_store rid with _ | pr <;>
            simp [take_stored_request_outbound, hm, add_ready_request]

theorem flushPending_approval :
    ∀ (rids : List RequestId) (s s' : RequestManager), flushPending s rids = some s' →
      s'.awaiting_approval = s.awaiting_approval := by
  intro rids
  induction rids with
  | nil =>
    intro s s' h
    simp [flushPending] at h
    rw [← h]
  | cons rid rest ih =>
    intro s s' h
    rw [flushPending, take_stored_request_outbound] at h
    rcases hm : mapGet s.outbound_request_store rid with _ | pr <;> rw [hm] at h
    · have hx := ih { s with outbound_request_store := mapRemove s.outbound_request_store rid }
        s' h
      simpa using hx
    · rcases pr with ⟨peer, request⟩
      have h' : (match s.connections.add_request peer rid RequestDirection.outbound with
          | none => (none : Option RequestManager)
          | some (connection, conns') =>
            flushPending
              { s with
                outbound_request_store := mapRemove s.outbound_request_store rid,
                connections := conns',
                actions :=
                  s.actions.push_back (.outboundReady rid peer connection request) }
              rest) = some s' := h
      rcases har : s.connections.add_request peer rid RequestDirection.outbound
          with _ | ⟨connection, conns'⟩ <;> rw [har] at h'
      · cases h'
      · have hx := ih
          { s with
            outbound_request_store := mapRemove s.outbound_request_store rid,
            connections := conns',
            actions := s.actions.push_back (.outboundReady rid peer connection request) }
          s' h'
        simpa using hx

theorem failNoRuleStep_approval (peer : PeerId) (d : RequestDirection) (s : RequestManager)
    (rid : RequestId) : (failNoRuleStep peer d s rid).awaiting_approval = s.awaiting_approval := by
  cases d <;> rfl

theorem foldl_failNoRuleStep_approval (peer : PeerId) (d : RequestDirection) :
    ∀ (l : List RequestId) (s : RequestManager),
      (l.foldl (failNoRuleStep peer d) s).awaiting_approval = s.awaiting_approval := by
  intro l
  induction l with
  | nil => intro s; rfl
  | cons rid rest ih =>
    intro s
    rw [List.foldl_cons, ih, failNoRuleStep_approval]

theorem on_no_peer_rule_approval (s : RequestManager) (peer : PeerId) (dir : RuleDirection) :
    (on_no_peer_rule s peer dir).awaiting_approval = s.awaiting_approval := by
  unfold on_no_peer_rule
  rcases hm : mapGet s.awaiting_peer_rule peer with _ | m
  · rfl
  · repeat (any_goals split)
    all_goals try (rw [apply_ite RequestManager.awaiting_approval]; dsimp only; rw [ite_self])
    repeat (any_goals split)
    all_goals simp [foldl_failNoRuleStep_approval]

theorem failDialStep_approval (peer : PeerId) (s : RequestManager) (rid : RequestId) :
    (failDialStep peer s rid).awaiting_approval = s.awaiting_approval := rfl

theorem foldl_failDialStep_approval (peer : PeerId) :
    ∀ (l : List RequestId) (s : RequestManager),
      (l.foldl (failDialStep peer) s).awaiting_approval = s.awaiting_approval := by
  intro l
  induction l with
  | nil => intro s; rfl
  | cons rid rest ih =>
    intro s
    rw [List.foldl_cons, ih, failDialStep_approval]

theorem on_dial_failure_approval (s : RequestManager) (peer : PeerId) :
    (on_dial_failure s peer).awaiting_approval = s.awaiting_approval := by
  unfold on_dial_failure
  rcases hm : mapGet s.awaiting_connection peer with _ | l
  · rfl
  · simp [foldl_failDialStep_approval]

theorem on_connection_closed_approval (s : RequestManager) (peer : PeerId)
    (conn : ConnectionId) :
    (on_connection_closed s peer conn).awaiting_approval = s.awaiting_approval := by
  unfold on_connection_closed
  repeat' split
  all_goals rfl

theorem on_peer_disconnected_approval (s : RequestManager) (peer : PeerId) :
    (on_peer_disconnected s peer).awaiting_approval = s.awaiting_approval := by
  have main : ∀ (l : List ConnectionId) (t : RequestManager),
      (l.foldl (fun s c => on_connection_closed s peer c) t).awaiting_approval
        = t.awaiting_approval := by
    intro l
    induction l with
    | nil => intro t; rfl
    | cons c rest ih =>
      intro t
      rw [List.foldl_cons, ih, on_connection_closed_approval]
  unfold on_peer_disconnected
  rcases hr : PeerConnectionManager.remove_all_connections s.connections peer with ⟨conns', o⟩
  rcases o with _ | conns
  · rfl
  · exact main conns { s with connections := conns' }

theorem processRequests_approval_aux (rules : FirewallRules) :
    ∀ (l : List (RequestId × RequestDirection)) (s : RequestManager),
      ∃ extra, ((processRequests s rules l).1).awaiting_approval
        = s.awaiting_approval ++ extra := by
  intro l
  induction l with
  | nil => intro s; exact ⟨[], by simp [processRequests]⟩
  | cons e rest ih =>
    intro s
    rcases e with ⟨rid, dir⟩
    simp only [processRequests]
    rcases hrule : (match dir with
        | RequestDirection.inbound => rules.inbound
        | RequestDirection.outbound => rules.outbound) with _ | r
    · simp only [hrule]
      obtain ⟨extra, hx⟩ := ih ((handle_request_approval s rid dir false).1)
      exact ⟨extra, by rw [hx, handle_request_approval_approval]⟩
    · rcases r with _ | mask
      · simp only [hrule]
        rcases hv : get_request_value_ref s rid with _ | v
        · simp only
          exact ih s
        · simp only
          obtain ⟨extra, hx⟩ :=
            ih { s with awaiting_approval := s.awaiting_approval ++ [(rid, dir)] }
          exact ⟨(rid, dir) :: extra, by rw [hx]; simp⟩
      · simp only [hrule]
        rcases hv : get_request_value_ref s rid with _ | v
        · simp only
          exact ih s
        · simp only
          obtain ⟨extra, hx⟩ := ih ((handle_request_approval s rid dir (permits mask v)).1)
          exact ⟨extra, by rw [hx, handle_request_approval_approval]⟩

theorem on_new_request_approval (s : RequestManager) (peer : PeerId) (rid : RequestId)
    (req : RequestMessage) (st : ApprovalStatus) (dir : RequestDirection) :
    (on_new_request s peer rid req st dir).awaiting_approval
      = if st = ApprovalStatus.missingApproval then s.awaiting_approval ++ [(rid, dir)]
        else s.awaiting_approval := by
  cases st
  · cases dir <;> rfl
  · cases dir <;> simp [on_new_request, store_request]
  · simp only [on_new_request]
    rcases har : s.connections.add_request peer rid dir with _ | cpair
    · cases dir <;> simp [store_request, add_dial_attempt]
    · simp [add_ready_request]
  · cases dir <;> rfl

/-- C2 counterexample: admit id 3 with `MissingRule` and id 5 with
`MissingApproval` (ids monotonically increasing), then let the rule for the
peer arrive as `Ask`: `on_peer_rule` appends id 3 behind id 5, so
`awaiting_approval` is `[(5,·),(3,·)]` — not sorted ascending. -/
theorem c2_counterexample :
    ¬ approvalSorted
        (on_peer_rule
          (on_new_request (on_new_request RequestManager.new 0 3 ⟨9⟩ .missingRule .inbound)
            0 5 ⟨9⟩ .missingApproval .inbound)
          0 ⟨some .ask, none⟩ .inbound).1 := by
  decide

/-- C2 (amended): `awaiting_approval` stays sorted by RequestId ascending
under every manager operation except `on_peer_rule`: the `MissingApproval`
push of `on_new_request` preserves sortedness whenever the admitted id is
larger than every id already waiting (which monotonic id assignment
guarantees), and every other operation either removes one entry or leaves the
sequence unchanged. The `Rule::Ask` push inside `on_peer_rule` is the
exception: it appends previously admitted (hence possibly smaller) ids, which
can break sortedness, so the binary search of `on_request_approval` may then
miss entries. -/
theorem c2_sorted_preserved (s : RequestManager) (h : approvalSorted s) :
    (∀ peer rid req st dir, (∀ e ∈ s.awaiting_approval, e.1 < rid) →
        approvalSorted (on_new_request s peer rid req st dir))
    ∧ (∀ rid b, approvalSorted (on_request_approval s rid b).1)
    ∧ (∀ peer dir, approvalSorted (on_no_peer_rule s peer dir))
    ∧ (∀ peer s', on_peer_connectedCore s peer = some s' → approvalSorted s')
    ∧ (∀ peer, approvalSorted (on_dial_failure s peer))
    ∧ (∀ peer conn, approvalSorted (on_connection_closed s peer conn))
    ∧ (∀ peer, approvalSorted (on_peer_disconnected s peer))
    ∧ (∀ peer conn, approvalSorted (on_connection_established s peer conn))
    ∧ (∀ peer dir, approvalSorted (add_pending_rule_requests s peer dir))
    ∧ (∀ peer oc sup, approvalSorted (set_protocol_support s peer oc sup))
    ∧ approvalSorted (take_next_action s).2 := by
  refine ⟨?_, ?_, ?_, ?_, ?_, ?_, ?_, ?_, ?_, ?_, ?_⟩
  · intro peer rid req st dir hlt
    rw [approvalSorted, on_new_request_approval]
    by_cases hst : st = ApprovalStatus.missingApproval
    · rw [if_pos hst, List.pairwise_append]
      refine ⟨h, List.pairwise_singleton _ _, ?_⟩
      intro a ha b hb
      rw [List.mem_singleton] at hb
      subst hb
      exact Nat.le_of_lt (hlt a ha)
    · rw [if_neg hst]
      exact h
  · intro rid b
    rw [on_request_approval]
    rcases hbs : binary_search_by s.awaiting_approval rid with i | i
    · exact h
    · dsimp only
      rcases hg : s.awaiting_approval.get? i with _ | e
      · exact h
      · rcases e with ⟨rid', dir'⟩
        dsimp only
        rw [approvalSorted, handle_request_approval_approval]
        dsimp only
        exact List.Pairwise.sublist (List.eraseIdx_sublist _ _) h
  · intro peer dir
    rw [approvalSorted, on_no_peer_rule_approval]
    exact h
  · intro peer s' hs'
    rw [on_peer_connectedCore] at hs'
    by_cases hb : s.connections.is_connected peer
    · rw [if_neg (by simp [hb])] at hs'
      rcases hm : mapGet s.awaiting_connection peer with _ | rids <;> rw [hm] at hs'
      · cases hs'
        exact h
      · rw [approvalSorted, flushPending_approval _ _ _ hs']
        exact h
    · rw [if_pos (by simp [Bool.not_eq_true] at hb; simp [hb])] at hs'
      cases hs'
      exact h
  · intro peer
    rw [approvalSorted, on_dial_failure_approval]
    exact h
  · intro peer conn
    rw [approvalSorted, on_connection_closed_approval]
    exact h
  · intro peer
    rw [approvalSorted, on_peer_disconnected_approval]
    exact h
  · intro peer conn
    exact h
  · intro peer dir
    exact h
  · intro peer oc sup
    rcases oc with _ | c
    · rw [approvalSorted, show set_protocol_support s peer none sup
          = (s.connections.get_connections peer).foldl
              (fun s conn =>
                { s with actions := s.actions.push_back (.setProtocolSupport peer conn sup) })
              s from rfl,
        (set_protocol_support_foldl peer sup _ s).2]
      exact h
    · exact h
  · rw [take_next_action_eq]
    exact h

/-- C2 witness: from a state whose approval queue holds id 1, admitting id 5
with `MissingApproval` keeps the queue sorted, and resolving the approval of
id 1 keeps it sorted. -/
theorem c2_witness :
    approvalSorted
        (on_new_request
          { RequestManager.new with awaiting_approval := [(1, RequestDirection.inbound)] }
          0 5 ⟨9⟩ .missingApproval .inbound)
    ∧ approvalSorted
        (on_request_approval
          { RequestManager.new with awaiting_approval := [(1, RequestDirection.inbound)] }
          1 true).1 :=
  ⟨(c2_sorted_preserved _ (by decide)).1 0 5 ⟨9⟩ .missingApproval .inbound (by decide),
    (c2_sorted_preserved _ (by decide)).2.1 1 true⟩

/-! ### Claim C6: `on_peer_disconnected` vs closing each connection -/

/-- The update `remove_connection` applies to the per-peer connection list:
drop the connection, pruning the peer entry once no connection remains. -/
def pcsUpdate (m : List (PeerId × List ConnectionId)) (peer : PeerId) (conn : ConnectionId) :
    List (PeerId × List ConnectionId) :=
  match mapGet m peer with
  | none => m
  | some l =>
    let l' := l.erase conn
    if l'.isEmpty then mapRemove m peer else mapInsert m peer l'

/-- The actions appended when a connection closes: one `ConnectionClosed`
failure per in-flight id, outbound first. -/
def closeActions (peer : PeerId) (q : ActionQueue) (o : Option PendingResponses) : ActionQueue :=
  match o with
  | none => q
  | some pr =>
    (q.pushAll (pr.outbound_requests.map
        (fun rid => BehaviourAction.outboundFailure peer rid .connectionClosed))).pushAll
      (pr.inbound_requests.map
        (fun rid => BehaviourAction.inboundFailure peer rid .connectionClosed))

/-- Normal form of `on_connection_closed`. -/
theorem on_connection_closed_eq (s : RequestManager) (peer : PeerId) (conn : ConnectionId) :
    on_connection_closed s peer conn
      = { s with
          connections :=
            ⟨pcsUpdate s.connections.peer_connections peer conn,
              mapRemove s.connections.pending_responses conn⟩,
          actions := closeActions peer s.actions (mapGet s.connections.pending_responses conn) } := by
  rw [on_connection_closed, PeerConnectionManager.remove_connection]
  rcases ho : mapGet s.connections.pending_responses conn with _ | pr <;>
    simp [closeActions, pcsUpdate, ho]

/-- Closing the connections of a list one by one gives the same result whether
or not the peer's (now stale) connection-list entry was dropped up front. -/
theorem close_fold_removeKey (peer : PeerId) :
    ∀ (l : List ConnectionId) (s : RequestManager),
      mapGet s.connections.peer_connections peer = some l → l ≠ [] →
      l.foldl (fun s c => on_connection_closed s peer c) s
        = l.foldl (fun s c => on_connection_closed s peer c)
            { s with connections :=
                { s.connections with
                  peer_connections := mapRemove s.connections.peer_connections peer } } := by
  intro l
  induction l with
  | nil => intro s _ hne; exact absurd rfl hne
  | cons c t ih =>
    intro s hm _
    rw [List.foldl_cons, List.foldl_cons, on_connection_closed_eq, on_connection_closed_eq]
    dsimp only
    rw [show pcsUpdate s.connections.peer_connections peer c
        = (if t.isEmpty then mapRemove s.connections.peer_connections peer
            else mapInsert s.connections.peer_connections peer t) from by
      rw [pcsUpdate, hm]
      simp [List.erase_cons_head]]
    rw [show pcsUpdate (mapRemove s.connections.peer_connections peer) peer c
        = mapRemove s.connections.peer_connections peer from by
      rw [pcsUpdate, mapGet_mapRemove_self]]
    by_cases ht : t.isEmpty
    · rw [if_pos ht]
    · rw [if_neg ht]
      have hte : t ≠ [] := fun h0 => ht (by simp [h0])
      have step := ih
        { s with
          connections :=
            ⟨mapInsert s.connections.peer_connections peer t,
              mapRemove s.connections.pending_responses c⟩,
          actions := closeActions peer s.actions (mapGet s.connections.pending_responses c) }
        (by simpa using mapGet_mapInsert_self s.connections.peer_connections peer t) hte
      rw [step]
      rw [show mapRemove (mapInsert s.connections.peer_connections peer t) peer
          = mapRemove s.connections.peer_connections peer from
        mapRemove_mapInsert_self _ _ _]

/-- C6 (confirmed): disconnecting a peer is the same — final state and emitted
actions — as closing each of its live connections in stored order. Degenerate
states that map the peer to an explicitly empty connection list (which no
reachable state produces, since the last `remove_connection` prunes the
entry) are excluded. -/
theorem c6_on_peer_disconnected (s : RequestManager) (peer : PeerId)
    (h : mapGet s.connections.peer_connections peer ≠ some []) :
    on_peer_disconnected s peer
      = (s.connections.get_connections peer).foldl
          (fun s c => on_connection_closed s peer c) s := by
  rw [on_peer_disconnected, PeerConnectionManager.remove_all_connections,
    PeerConnectionManager.get_connections]
  rcases hm : mapGet s.connections.peer_connections peer with _ | l
  · rfl
  · have hl : l ≠ [] := fun h0 => h (h0 ▸ hm)
    dsimp only [Option.getD_some]
    exact (close_fold_removeKey peer l s hm hl).symm

/-- C6 witness: a peer with two live connections carrying in-flight requests. -/
theorem c6_witness :
    on_peer_disconnected
        (on_new_request
          (on_connection_established (on_connection_established RequestManager.new 0 4) 0 5)
          0 1 ⟨9⟩ .approved .outbound)
        0
      = ((on_new_request
          (on_connection_established (on_connection_established RequestManager.new 0 4) 0 5)
          0 1 ⟨9⟩ .approved .outbound).connections.get_connections 0).foldl
          (fun s c => on_connection_closed s 0 c)
          (on_new_request
            (on_connection_established (on_connection_established RequestManager.new 0 4) 0 5)
            0 1 ⟨9⟩ .approved .outbound) :=
  c6_on_peer_disconnected _ 0 (by decide)

/-! ### Claim C5: the `expect` in `on_peer_connected` never fires -/

/-- Successful attach when the peer has a connection: the first connection is
chosen and the id is recorded in its in-flight set. -/
theorem add_request_of_conn (pcm : PeerConnectionManager) (p : PeerId) (rid : RequestId)
    (dir : RequestDirection) (c : ConnectionId) (cs : List ConnectionId)
    (hc : mapGet pcm.peer_connections p = some (c :: cs)) :
    pcm.add_request p rid dir
      = some (c,
          { pcm with
            pending_responses :=
              mapModify pcm.pending_responses c ⟨[], []⟩ (pushPending dir rid) }) := by
  rw [PeerConnectionManager.add_request, hc]

/-- C5 (confirmed): whenever every id waiting in `awaiting_connection[peer]`
whose stored request still exists is stored under that same peer — which holds
in every reachable state, because each push into `awaiting_connection[peer]`
stores the request under `peer` — `on_peer_connected` never panics: having
checked `is_connected`, every `add_request` in the flush loop succeeds. -/
theorem c5_on_peer_connected_no_panic (s : RequestManager) (peer : PeerId)
    (h : ∀ rid, rid ∈ (mapGet s.awaiting_connection peer).getD [] →
      ∀ pr, mapGet s.outbound_request_store rid = some pr → pr.1 = peer) :
    (on_peer_connectedCore s peer).isSome := by
  rw [on_peer_connectedCore]
  by_cases hb : s.connections.is_connected peer
  · rw [if_neg (by simp [hb])]
    rcases hm : mapGet s.awaiting_connection peer with _ | rids
    · simp
    · rw [hm] at h
      obtain ⟨c, cs, hc⟩ :
          ∃ c cs, mapGet s.connections.peer_connections peer = some (c :: cs) := by
        rw [PeerConnectionManager.is_connected, PeerConnectionManager.get_connections] at hb
        rcases hg2 : mapGet s.connections.peer_connections peer with _ | l2
        · rw [hg2] at hb
          simp at hb
        · rcases l2 with _ | ⟨c, cs⟩
          · rw [hg2] at hb
            simp at hb
          · exact ⟨c, cs, rfl⟩
      have flush : ∀ (l : List RequestId) (t : RequestManager),
          t.connections.peer_connections = s.connections.peer_connections →
          (∀ rid ∈ l, ∀ pr, mapGet t.outbound_request_store rid = some pr → pr.1 = peer) →
          (flushPending t l).isSome := by
        intro l
        induction l with
        | nil => intro t _ _; simp [flushPending]
        | cons rid rest ih =>
          intro t hpc hcons
          rw [flushPending, take_stored_request_outbound]
          have storeRest : ∀ rid' ∈ rest, ∀ pr',
              mapGet (mapRemove t.outbound_request_store rid) rid' = some pr' →
                pr'.1 = peer := by
            intro rid' hmem pr' hpr'
            by_cases he : rid' = rid
            · subst he
              rw [mapGet_mapRemove_self] at hpr'
              cases hpr'
            · rw [mapGet_mapRemove_ne _ _ _ he] at hpr'
              exact hcons rid' (List.mem_cons_of_mem _ hmem) pr' hpr'
          rcases hg : mapGet t.outbound_request_store rid with _ | pr
          · dsimp only
            exact ih _ (by simpa using hpc) storeRest
          · dsimp only
            rcases pr with ⟨p, req⟩
            have hp : p = peer := hcons rid (List.mem_cons_self _ _) (p, req) hg
            subst hp
            have hct : mapGet t.connections.peer_connections p = some (c :: cs) := by
              rw [hpc]
              exact hc
            rw [add_request_of_conn t.connections p rid .outbound c cs hct]
            dsimp only
            exact ih _ (by simpa using hpc) storeRest
      exact flush rids _ rfl h
  · rw [if_pos (by simp [Bool.not_eq_true] at hb; simp [hb])]
    simp

/-- C5 witness: peer 0 is connected via connection 4 and id 5 awaits the
connection with its stored request held under peer 0; the flush succeeds. -/
theorem c5_witness :
    (on_peer_connectedCore
      { RequestManager.new with
        connections := ⟨[(0, [4])], [(4, ⟨[], []⟩)]⟩,
        awaiting_connection := [(0, [5])],
        outbound_request_store := [(5, (0, ⟨9⟩))] }
      0).isSome :=
  c5_on_peer_connected_no_panic _ 0 (by
    intro rid hmem pr hpr
    simp [mapGet] at hmem hpr
    subst hmem
    simp [mapGet] at hpr
    rw [← hpr])

/-- C7 witness: with a successful read and the response sink dropped, the
handler returns `false` and writes nothing. -/
theorem c7_witness :
    (upgrade_inbound
        (⟨.ok 1, none, fun r => .ok [r], fun _ => .ok (), .ok ()⟩ : InboundEnv Nat Nat)).1
        = .ok false
    ∧ (upgrade_inbound
        (⟨.ok 1, none, fun r => .ok [r], fun _ => .ok (), .ok ()⟩ : InboundEnv Nat Nat)).2
        = [] :=
  ⟨(c7_upgrade_inbound _).2.2.1.mpr ⟨1, rfl, rfl, rfl⟩, (c7_upgrade_inbound _).2.2.2 rfl⟩

/-! ### Claim C1: terminal actions per admitted request

The manager operations the claim ranges over are reified as `Op`; `stepOp`
runs one of them (`none` models the `on_peer_connected` panic). The
occurrences of one request id in the manager state are collected in `IdView`;
`Phase` states where the id currently lives, and `InvC1` ties the two
together. -/

/-- Does this action report the given request id as ready? -/
def isReadyFor (id : RequestId) : BehaviourAction → Bool
  | .inboundReady rid _ _ => rid == id
  | .outboundReady rid _ _ _ => rid == id
  | _ => false

/-- Does this action report a failure of the given request id? -/
def isFailureFor (id : RequestId) : BehaviourAction → Bool
  | .outboundFailure _ rid _ => rid == id
  | .inboundFailure _ rid _ => rid == id
  | _ => false

/-- Terminal outcome action for the given request id. -/
def isTerminalFor (id : RequestId) (a : BehaviourAction) : Bool :=
  isReadyFor id a || isFailureFor id a

/-- The manager operations that may follow an admission (the claim's list). -/
inductive Op : Type
  | peerRule (peer : PeerId) (rules : FirewallRules) (direction : RuleDirection)
  | noPeerRule (peer : PeerId) (direction : RuleDirection)
  | requestApproval (request_id : RequestId) (is_allowed : Bool)
  | peerConnected (peer : PeerId)
  | dialFailure (peer : PeerId)
  | connectionClosed (peer : PeerId) (conn : ConnectionId)

/-- One manager operation; `none` models the `expect` panic inside
`on_peer_connected`. -/
def stepOp (s : RequestManager) : Op → Option RequestManager
  | .peerRule p r d => some (on_peer_rule s p r d).1
  | .noPeerRule p d => some (on_no_peer_rule s p d)
  | .requestApproval rid b => some (on_request_approval s rid b).1
  | .peerConnected p => on_peer_connectedCore s p
  | .dialFailure p => some (on_dial_failure s p)
  | .connectionClosed p c => some (on_connection_closed s p c)

/-- Run a sequence of manager operations. -/
def runOps : RequestManager → List Op → Option RequestManager
  | s, [] => some s
  | s, op :: rest =>
    match stepOp s op with
    | none => none
    | some s' => runOps s' rest

/-- Everything the manager state records about one request id: its store
entries, its occurrences in each waiting structure, and the terminal actions
already queued for it. -/
structure IdView : Type where
  inStore : Option (PeerId × RequestMessage)
  outStore : Option (PeerId × RequestMessage)
  app : List (RequestId × RequestDirection)
  connAt : PeerId → Nat
  connTotal : Nat
  ruleAt : PeerId → RequestDirection → Nat
  ruleTotal : Nat
  inflightAt : ConnectionId → Nat
  inflightTotal : Nat
  tr : List BehaviourAction

/-- In-flight occurrences of an id in one connection's pending sets. -/
def occPend (id : RequestId) (pr : PendingResponses) : Nat :=
  pr.outbound_requests.count id + pr.inbound_requests.count id

/-- Occurrences of an id in one peer's inner rule-waiting map. -/
def occRuleInner (id : RequestId) (m : List (RequestDirection × List RequestId)) : Nat :=
  (m.map (fun f => f.2.count id)).sum

/-- Project the manager state onto one request id. -/
def idView (id : RequestId) (s : RequestManager) : IdView :=
  { inStore := mapGet s.inbound_request_store id
    outStore := mapGet s.outbound_request_store id
    app := s.awaiting_approval.filter (fun e => e.1 == id)
    connAt := fun p => ((mapGet s.awaiting_connection p).getD []).count id
    connTotal := (s.awaiting_connection.map (fun e => e.2.count id)).sum
    ruleAt := fun p d => ((mapGet ((mapGet s.awaiting_peer_rule p).getD []) d).getD []).count id
    ruleTotal := (s.awaiting_peer_rule.map (fun e => occRuleInner id e.2)).sum
    inflightAt := fun c => occPend id ((mapGet s.connections.pending_responses c).getD ⟨[], []⟩)
    inflightTotal := (s.connections.pending_responses.map (fun e => occPend id e.2)).sum
    tr := s.actions.items.filter (isTerminalFor id) }

/-- Where the tracked request currently lives. -/
inductive Phase : Type
  | inRule (peer : PeerId) (dir : RequestDirection)
  | inApproval (dir : RequestDirection)
  | inConn (peer : PeerId)
  | inflight
  | closed

/-- Stored exactly in the store of the given direction. -/
def StoredIn (d : RequestDirection) (v : IdView) : Prop :=
  match d with
  | .inbound => v.inStore.isSome ∧ v.outStore = none
  | .outbound => v.outStore.isSome ∧ v.inStore = none

/-- The invariant carried along every run, phrased on the id's view. -/
def InvView (id : RequestId) : Phase → IdView → Prop
  | .inRule p d, v =>
    v.ruleTotal = 1 ∧ v.ruleAt p d = 1 ∧ StoredIn d v
    ∧ v.app = [] ∧ v.connTotal = 0 ∧ v.inflightTotal = 0
  | .inApproval d, v =>
    v.app = [(id, d)] ∧ StoredIn d v
    ∧ v.ruleTotal = 0 ∧ v.connTotal = 0 ∧ v.inflightTotal = 0
  | .inConn p, v =>
    v.connTotal = 1 ∧ v.connAt p = 1 ∧ StoredIn .outbound v
    ∧ v.ruleTotal = 0 ∧ v.app = [] ∧ v.inflightTotal = 0
  | .inflight, v =>
    v.inflightTotal = 1 ∧ (∃ c, v.inflightAt c = 1)
    ∧ v.inStore = none ∧ v.outStore = none
    ∧ v.ruleTotal = 0 ∧ v.app = [] ∧ v.connTotal = 0
  | .closed, v =>
    v.inflightTotal = 0 ∧ v.inStore = none ∧ v.outStore = none
    ∧ v.ruleTotal = 0 ∧ v.app = [] ∧ v.connTotal = 0

def InvC1 (id : RequestId) (ph : Phase) (s : RequestManager) : Prop :=
  InvView id ph (idView id s)

def phaseClass : Phase → Nat
  | .inRule _ _ => 0
  | .inApproval _ => 0
  | .inConn _ => 0
  | .inflight => 1
  | .closed => 2

/-- The terminal actions a segment of a run may emit for the tracked id, by
its phase class at the segment's start and end. -/
def SegTrace (id : RequestId) : Nat → Nat → List BehaviourAction → Prop
  | 0, 0, tr => tr = []
  | 0, 1, tr => ∃ a, tr = [a] ∧ isReadyFor id a = true
  | 0, 2, tr =>
    (∃ a, tr = [a] ∧ isFailureFor id a = true)
    ∨ (∃ a b, tr = [a, b] ∧ isReadyFor id a = true ∧ isFailureFor id b = true)
  | 1, 1, tr => tr = []
  | 1, 2, tr => ∃ a, tr = [a] ∧ isFailureFor id a = true
  | 2, 2, tr => tr = []
  | _, _, _ => False

/-- The possible shapes of the whole terminal-action trace of one request:
nothing yet, one Ready, one Failure, or a Ready followed by one Failure. -/
def TraceShape (id : RequestId) (tr : List BehaviourAction) : Prop :=
  tr = []
  ∨ (∃ a, tr = [a] ∧ isReadyFor id a = true)
  ∨ (∃ a, tr = [a] ∧ isFailureFor id a = true)
  ∨ (∃ a b, tr = [a, b] ∧ isReadyFor id a = true ∧ isFailureFor id b = true)

/-- A request id unknown to the manager: in no store, no waiting structure,
no in-flight set, and with no terminal action queued. -/
def freshId (id : RequestId) (s : RequestManager) : Bool :=
  (mapGet s.inbound_request_store id).isNone
    && (mapGet s.outbound_request_store id).isNone
    && (s.awaiting_approval.all (fun e => !(e.1 == id)))
    && ((s.awaiting_connection.map (fun e => e.2.count id)).sum == 0)
    && ((s.awaiting_peer_rule.map (fun e => occRuleInner id e.2)).sum == 0)
    && ((s.connections.pending_responses.map (fun e => occPend id e.2)).sum == 0)
    && s.actions.items.all (fun a => !isTerminalFor id a)

theorem SegTrace_trans (id : RequestId) (c₁ c₂ c₃ : Nat) (δ₁ δ₂ : List BehaviourAction)
    (h₁ : SegTrace id c₁ c₂ δ₁) (h₂ : SegTrace id c₂ c₃ δ₂) :
    SegTrace id c₁ c₃ (δ₁ ++ δ₂) := by
  match c₁, c₂, c₃ with
  | 0, 0, 0 => rw [h₁, h₂]; rfl
  | 0, 0, 1 =>
    obtain ⟨a, ha, hr⟩ := h₂
    exact ⟨a, by rw [h₁, ha]; rfl, hr⟩
  | 0, 0, 2 =>
    rcases h₂ with ⟨a, ha, hf⟩ | ⟨a, b, hab, hr, hf⟩
    · exact Or.inl ⟨a, by rw [h₁, ha]; rfl, hf⟩
    · exact Or.inr ⟨a, b, by rw [h₁, hab]; rfl, hr, hf⟩
  | 0, 1, 1 =>
    obtain ⟨a, ha, hr⟩ := h₁
    exact ⟨a, by rw [ha, h₂]; rfl, hr⟩
  | 0, 1, 2 =>
    obtain ⟨a, ha, hr⟩ := h₁
    obtain ⟨b, hb, hf⟩ := h₂
    exact Or.inr ⟨a, b, by rw [ha, hb]; rfl, hr, hf⟩
  | 0, 2, 2 =>
    rcases h₁ with ⟨a, ha, hf⟩ | ⟨a, b, hab, hr, hf⟩
    · exact Or.inl ⟨a, by rw [ha, h₂]; simp, hf⟩
    · exact Or.inr ⟨a, b, by rw [hab, h₂]; simp, hr, hf⟩
  | 1, 1, 1 => rw [h₁, h₂]; rfl
  | 1, 1, 2 =>
    obtain ⟨a, ha, hf⟩ := h₂
    exact ⟨a, by rw [h₁, ha]; rfl, hf⟩
  | 1, 2, 2 =>
    obtain ⟨a, ha, hf⟩ := h₁
    exact ⟨a, by rw [ha, h₂]; simp, hf⟩
  | 2, 2, 2 => rw [h₁, h₂]; rfl
  | 1, 0, _ => cases h₁
  | 2, 0, _ => cases h₁
  | 2, 1, _ => cases h₁
  | 0, 1, 0 => cases h₂
  | 0, 2, 0 => cases h₂
  | 0, 2, 1 => cases h₂
  | 1, 2, 0 => cases h₂
  | 1, 2, 1 => cases h₂
  | 0, 0, n + 3 => cases h₂
  | 0, n + 3, _ => cases h₁
  | 1, 1, 0 => cases h₂
  | 1, 1, n + 3 => cases h₂
  | 1, n + 3, _ => cases h₁
  | 2, 2, 0 => cases h₂
  | 2, 2, 1 => cases h₂
  | 2, 2, n + 3 => cases h₂
  | 2, n + 3, _ => cases h₁
  | n + 3, _, _ => cases h₁

theorem SegTrace_shape (id : RequestId) (c : Nat) (δ : List BehaviourAction)
    (h : SegTrace id 0 c δ) : TraceShape id δ := by
  match c with
  | 0 => exact Or.inl h
  | 1 => exact Or.inr (Or.inl h)
  | 2 =>
    rcases h with h | h
    · exact Or.inr (Or.inr (Or.inl h))
    · exact Or.inr (Or.inr (Or.inr h))
  | n + 3 => cases h

/-! ### Generic counting lemmas for the C1 invariant -/

theorem sum_mapRemove_le {κ β : Type} [DecidableEq κ] (f : β → Nat) :
    ∀ (m : List (κ × β)) (k : κ),
      ((mapRemove m k).map (fun e => f e.2)).sum ≤ (m.map (fun e => f e.2)).sum := by
  intro m k
  induction m with
  | nil => simp [mapRemove]
  | cons e m ih =>
    by_cases he : e.1 = k
    · simp only [mapRemove, if_pos he, List.map_cons, List.sum_cons]
      exact Nat.le_trans ih (Nat.le_add_left _ _)
    · simp only [mapRemove, if_neg he, List.map_cons, List.sum_cons]
      exact Nat.add_le_add_left ih _

theorem mapGet_contrib {κ β : Type} [DecidableEq κ] (f : β → Nat) :
    ∀ (m : List (κ × β)) (k : κ) (v : β), mapGet m k = some v →
      f v + ((mapRemove m k).map (fun e => f e.2)).sum ≤ (m.map (fun e => f e.2)).sum := by
  intro m k
  induction m with
  | nil => intro v h; cases h
  | cons e m ih =>
    intro v h
    by_cases he : e.1 = k
    · rw [mapGet, if_pos he] at h
      cases h
      simp only [mapRemove, if_pos he, List.map_cons, List.sum_cons]
      exact Nat.add_le_add_left (sum_mapRemove_le f m k) _
    · rw [mapGet, if_neg he] at h
      simp only [mapRemove, if_neg he, List.map_cons, List.sum_cons]
      calc f v + (f e.2 + ((mapRemove m k).map (fun e => f e.2)).sum)
          = f e.2 + (f v + ((mapRemove m k).map (fun e => f e.2)).sum) := by omega
        _ ≤ f e.2 + (m.map (fun e => f e.2)).sum := Nat.add_le_add_left (ih v h) _

theorem mapGet_le_sum {κ β : Type} [DecidableEq κ] (f : β → Nat) (m : List (κ × β)) (k : κ)
    (v : β) (h : mapGet m k = some v) : f v ≤ (m.map (fun e => f e.2)).sum :=
  Nat.le_trans (Nat.le_add_right _ _) (mapGet_contrib f m k v h)

theorem sum_mapModify {κ β : Type} [DecidableEq κ] (f : β → Nat) (g : β → β) (inc : Nat)
    (hg : ∀ b, f (g b) = f b + inc) :
    ∀ (m : List (κ × β)) (k : κ) (d : β), f d = 0 →
      ((mapModify m k d g).map (fun e => f e.2)).sum = (m.map (fun e => f e.2)).sum + inc := by
  intro m k
  induction m with
  | nil =>
    intro d hd
    simp [mapModify, hg, hd]
  | cons e m ih =>
    intro d hd
    by_cases he : e.1 = k
    · simp only [mapModify, if_pos he, List.map_cons, List.sum_cons, hg]
      omega
    · simp only [mapModify, if_neg he, List.map_cons, List.sum_cons, ih d hd]
      omega

theorem mapInsert_of_get_none {κ β : Type} [DecidableEq κ] :
    ∀ (m : List (κ × β)) (k : κ) (v : β), mapGet m k = none → mapInsert m k v = m ++ [(k, v)] := by
  intro m k v
  induction m with
  | nil => intro _; rfl
  | cons e m ih =>
    intro h
    rw [mapGet] at h
    by_cases he : e.1 = k
    · rw [if_pos he] at h
      cases h
    · rw [if_neg he] at h
      rw [mapInsert, if_neg he, ih h]
      rfl

theorem filter_eraseIdx_not {α : Type} (p : α → Bool) :
    ∀ (l : List α) (i : Nat) (y : α), l.get? i = some y → p y = false →
      (l.eraseIdx i).filter p = l.filter p := by
  intro l
  induction l with
  | nil => intro i y h; cases h
  | cons a t ih =>
    intro i y h hp
    cases i with
    | zero =>
      rw [List.get?] at h
      cases h
      simp [List.eraseIdx, List.filter_cons, hp]
    | succ i =>
      rw [List.get?] at h
      rw [List.eraseIdx]
      rcases hpa : p a with _ | _ <;>
        simp [List.filter_cons, hpa, ih i y h hp]

theorem filter_eraseIdx_single {α : Type} (p : α → Bool) :
    ∀ (l : List α) (i : Nat) (y x : α), l.get? i = some y → p y = true → l.filter p = [x] →
      (l.eraseIdx i).filter p = [] := by
  intro l
  induction l with
  | nil => intro i y x h; cases h
  | cons a t ih =>
    intro i y x h hp hf
    cases i with
    | zero =>
      rw [List.get?] at h
      cases h
      rw [List.filter_cons, if_pos hp] at hf
      rw [List.eraseIdx]
      injection hf
    | succ i =>
      rw [List.get?] at h
      rcases hpa : p a with _ | _
      · rw [List.filter_cons, if_neg (by simp [hpa])] at hf
        rw [List.eraseIdx, List.filter_cons, if_neg (by simp [hpa])]
        exact ih i y x h hp hf
      · rw [List.filter_cons, if_pos hpa] at hf
        injection hf with hx h2
        have hy : y ∈ t.filter p := List.mem_filter.mpr ⟨List.get?_mem h, hp⟩
        rw [h2] at hy
        cases hy

theorem filter_map_comm {α β : Type} (f : α → β) (p : β → Bool) :
    ∀ l : List α, (l.map f).filter p = (l.filter (fun a => p (f a))).map f := by
  intro l
  induction l with
  | nil => rfl
  | cons a t ih =>
    rcases hp : p (f a) with _ | _ <;>
      simp [List.filter_cons, hp, ih]

theorem filter_beq_of_count_zero (id : RequestId) :
    ∀ l : List RequestId, l.count id = 0 → l.filter (fun x => x == id) = [] := by
  intro l h
  rw [List.filter_eq_nil_iff]
  intro a ha
  simp only [beq_iff_eq]
  intro hEq
  subst hEq
  rw [List.count_eq_zero] at h
  exact h ha

theorem filter_beq_of_count_one (id : RequestId) :
    ∀ l : List RequestId, l.count id = 1 → l.filter (fun x => x == id) = [id] := by
  intro l
  induction l with
  | nil => intro h; cases h
  | cons a t ih =>
    intro h
    rw [List.count_cons] at h
    by_cases ha : a = id
    · subst ha
      simp only [beq_self_eq_true, if_true] at h
      have ht : t.count a = 0 := by omega
      rw [List.filter_cons, if_pos (by simp)]
      rw [filter_beq_of_count_zero a t ht]
    · rw [if_neg (by simp [ha])] at h
      rw [List.filter_cons, if_neg (by simp [ha])]
      exact ih (by simpa using h)

theorem count_one_split (id : RequestId) :
    ∀ l : List RequestId, l.count id = 1 →
      ∃ l₁ l₂, l = l₁ ++ id :: l₂ ∧ l₁.count id = 0 ∧ l₂.count id = 0 := by
  intro l
  induction l with
  | nil => intro h; cases h
  | cons a t ih =>
    intro h
    rw [List.count_cons] at h
    by_cases ha : a = id
    · subst ha
      simp only [beq_self_eq_true, if_true] at h
      exact ⟨[], t, rfl, rfl, by omega⟩
    · rw [if_neg (by simp [ha])] at h
      obtain ⟨l₁, l₂, hl, h1, h2⟩ := ih (by simpa using h)
      exact ⟨a :: l₁, l₂, by rw [hl]; rfl, by simp [List.count_cons, ha, h1], h2⟩

theorem pushAll_items : ∀ (l : List BehaviourAction) (q : ActionQueue),
    (q.pushAll l).items = q.items ++ l := by
  intro l
  induction l with
  | nil => intro q; simp [ActionQueue.pushAll]
  | cons a t ih =>
    intro q
    show ((q.push_back a).pushAll t).items = _
    rw [ih]
    simp [ActionQueue.push_back]

/-! ### Frame lemmas: operations on other ids leave the tracked view alone -/

theorem IdView.ext' (v w : IdView)
    (h1 : v.inStore = w.inStore) (h2 : v.outStore = w.outStore) (h3 : v.app = w.app)
    (h4 : ∀ p, v.connAt p = w.connAt p) (h5 : v.connTotal = w.connTotal)
    (h6 : ∀ p d, v.ruleAt p d = w.ruleAt p d) (h7 : v.ruleTotal = w.ruleTotal)
    (h8 : ∀ c, v.inflightAt c = w.inflightAt c) (h9 : v.inflightTotal = w.inflightTotal)
    (h10 : v.tr = w.tr) : v = w := by
  cases v
  cases w
  simp only [IdView.mk.injEq]
  exact ⟨h1, h2, h3, funext h4, h5, funext fun p => funext (h6 p), h7, funext h8, h9, h10⟩

theorem view_take_stored (id rid : RequestId) (dir : RequestDirection) (s : RequestManager)
    (h : rid ≠ id) : idView id (take_stored_request s rid dir).1 = idView id s := by
  cases dir <;>
    · apply IdView.ext' <;>
        simp [idView, take_stored_request_inbound, take_stored_request_outbound,
          mapGet_mapRemove_ne _ _ _ (Ne.symm h)]

theorem filter_terminal_push (id : RequestId) (q : ActionQueue) (a : BehaviourAction) :
    (q.push_back a).items.filter (isTerminalFor id)
      = q.items.filter (isTerminalFor id)
        ++ (if isTerminalFor id a then [a] else []) := by
  rcases hp : isTerminalFor id a with _ | _ <;>
    simp [ActionQueue.push_back, List.filter_append, List.filter_cons, hp]

theorem isTerminal_dial (id : RequestId) (p : PeerId) :
    isTerminalFor id (.requireDialAttempt p) = false := rfl

theorem isTerminal_fail_ne (id rid : RequestId) (p : PeerId) (r : OutboundFailure)
    (r' : InboundFailure) (h : rid ≠ id) :
    isTerminalFor id (.outboundFailure p rid r) = false
    ∧ isTerminalFor id (.inboundFailure p rid r') = false := by
  constructor <;> simp [isTerminalFor, isReadyFor, isFailureFor, h]

theorem isTerminal_ready_ne (id rid : RequestId) (p : PeerId) (c : ConnectionId)
    (req : RequestMessage) (h : rid ≠ id) :
    isTerminalFor id (.inboundReady rid p req) = false
    ∧ isTerminalFor id (.outboundReady rid p c req) = false := by
  constructor <;> simp [isTerminalFor, isReadyFor, isFailureFor, h]

theorem view_add_dial (id rid : RequestId) (p : PeerId) (s : RequestManager) (h : rid ≠ id) :
    idView id (add_dial_attempt s p rid) = idView id s := by
  apply IdView.ext' <;>
    simp [idView, add_dial_attempt, filter_terminal_push, isTerminal_dial]
  · intro p'
    by_cases hp : p' = p
    · subst hp
      rw [mapGet_mapModify_self]
      rcases mapGet s.awaiting_connection p' with _ | l <;>
        simp [List.count_append, List.count_singleton', h]
    · rw [mapGet_mapModify_ne _ _ _ _ _ hp]
  · rw [sum_mapModify (fun l => l.count id) (· ++ [rid]) 0
      (by intro b; simp [List.count_append, List.count_singleton', h]) _ _ _ rfl]
    omega

theorem view_add_ready (id rid : RequestId) (p : PeerId) (c : ConnectionId)
    (req : RequestMessage) (dir : RequestDirection) (s : RequestManager) (h : rid ≠ id) :
    idView id (add_ready_request s p rid c req dir) = idView id s := by
  cases dir <;>
    · apply IdView.ext' <;>
        simp [idView, add_ready_request, filter_terminal_push,
          (isTerminal_ready_ne id rid p c req h).1, (isTerminal_ready_ne id rid p c req h).2]

theorem view_attach_frame (id rid : RequestId) (p : PeerId) (dir : RequestDirection)
    (s : RequestManager) (c : ConnectionId) (conns' : PeerConnectionManager) (h : rid ≠ id)
    (hatt : s.connections.add_request p rid dir = some (c, conns')) :
    idView id { s with connections := conns' } = idView id s := by
  rw [PeerConnectionManager.add_request] at hatt
  rcases hg : mapGet s.connections.peer_connections p with _ | l <;> rw [hg] at hatt
  · cases hatt
  · rcases l with _ | ⟨c0, cs⟩
    · cases hatt
    · cases hatt
      apply IdView.ext' <;>
        simp [idView]
      · intro c'
        by_cases hc : c' = c
        · subst hc
          rw [mapGet_mapModify_self]
          rcases mapGet s.connections.pending_responses c' with _ | pr <;>
            cases dir <;>
              simp [occPend, pushPending, List.count_append, List.count_singleton', h]
        · rw [mapGet_mapModify_ne _ _ _ _ _ hc]
      · rw [sum_mapModify (occPend id) (pushPending dir rid) 0
          (by
            intro b
            cases dir <;> simp [occPend, pushPending, List.count_append,
              List.count_singleton', h]) _ _ _ (by simp [occPend])]
        omega

theorem view_push_fail_out (id rid : RequestId) (p : PeerId) (r : OutboundFailure)
    (s : RequestManager) (h : rid ≠ id) :
    idView id { s with actions := s.actions.push_back (.outboundFailure p rid r) }
      = idView id s := by
  apply IdView.ext' <;>
    simp [idView, filter_terminal_push, (isTerminal_fail_ne id rid p r .notPermitted h).1]

theorem view_push_fail_in (id rid : RequestId) (p : PeerId) (r : InboundFailure)
    (s : RequestManager) (h : rid ≠ id) :
    idView id { s with actions := s.actions.push_back (.inboundFailure p rid r) }
      = idView id s := by
  apply IdView.ext' <;>
    simp [idView, filter_terminal_push, (isTerminal_fail_ne id rid p .notPermitted r h).2]

theorem view_push_ready_in (id rid : RequestId) (p : PeerId) (req : RequestMessage)
    (s : RequestManager) (h : rid ≠ id) :
    idView id { s with actions := s.actions.push_back (.inboundReady rid p req) }
      = idView id s := by
  apply IdView.ext' <;>
    simp [idView, filter_terminal_push, (isTerminal_ready_ne id rid p 0 req h).1]

theorem view_push_ready_out (id rid : RequestId) (p : PeerId) (c : ConnectionId)
    (req : RequestMessage) (s : RequestManager) (h : rid ≠ id) :
    idView id { s with actions := s.actions.push_back (.outboundReady rid p c req) }
      = idView id s := by
  apply IdView.ext' <;>
    simp [idView, filter_terminal_push, (isTerminal_ready_ne id rid p c req h).2]

theorem view_handle_frame (id rid : RequestId) (dir : RequestDirection) (b : Bool)
    (s : RequestManager) (h : rid ≠ id) :
    idView id (handle_request_approval s rid dir b).1 = idView id s := by
  rw [handle_request_approval]
  cases b
  · cases dir
    · rcases hm : mapGet s.inbound_request_store rid with _ | pr <;>
        rw [take_stored_request_inbound, hm]
      · exact view_take_stored id rid .inbound s h
      · exact (view_push_fail_in id rid pr.1 .notPermitted
            { s with inbound_request_store := mapRemove s.inbound_request_store rid } h).trans
          (view_take_stored id rid .inbound s h)
    · rcases hm : mapGet s.outbound_request_store rid with _ | pr <;>
        rw [take_stored_request_outbound, hm]
      · exact view_take_stored id rid .outbound s h
      · exact (view_push_fail_out id rid pr.1 .notPermitted
            { s with outbound_request_store := mapRemove s.outbound_request_store rid } h).trans
          (view_take_stored id rid .outbound s h)
  · simp only [Bool.not_true, Bool.false_eq_true, if_false]
    rcases hp : get_request_peer_ref s rid with _ | peer
    · rfl
    · dsimp only
      cases dir
      · rcases hatt : s.connections.add_request peer rid .inbound with _ | cpair
        · rcases hm : mapGet s.inbound_request_store rid with _ | pr <;>
            rw [take_stored_request_inbound, hm]
          · exact view_take_stored id rid .inbound s h
          · exact (view_push_fail_in id rid peer .connectionClosed
                { s with inbound_request_store := mapRemove s.inbound_request_store rid }
                h).trans
              (view_take_stored id rid .inbound s h)
        · rcases cpair with ⟨conn, conns'⟩
          dsimp only
          rcases hm : mapGet s.inbound_request_store rid with _ | pr
          · rw [take_stored_request_inbound]
            try dsimp only
            rw [hm]
            exact (view_take_stored id rid .inbound { s with connections := conns' } h).trans
              (view_attach_frame id rid peer .inbound s conn conns' h hatt)
          · rw [take_stored_request_inbound]
            try dsimp only
            rw [hm]
            exact (view_push_ready_in id rid pr.1 pr.2
                  { ({ s with connections := conns' } : RequestManager) with
                    inbound_request_store := mapRemove s.inbound_request_store rid } h).trans
              ((view_take_stored id rid .inbound { s with connections := conns' } h).trans
                (view_attach_frame id rid peer .inbound s conn conns' h hatt))
      · rcases hatt : s.connections.add_request peer rid .outbound with _ | cpair
        · exact view_add_dial id rid peer s h
        · rcases cpair with ⟨conn, conns'⟩
          dsimp only
          rcases hm : mapGet s.outbound_request_store rid with _ | pr
          · rw [take_stored_request_outbound]
            try dsimp only
            rw [hm]
            exact (view_take_stored id rid .outbound { s with connections := conns' } h).trans
              (view_attach_frame id rid peer .outbound s conn conns' h hatt)
          · rw [take_stored_request_outbound]
            try dsimp only
            rw [hm]
            exact (view_push_ready_out id rid pr.1 conn pr.2
                  { ({ s with connections := conns' } : RequestManager) with
                    outbound_request_store := mapRemove s.outbound_request_store rid } h).trans
              ((view_take_stored id rid .outbound { s with connections := conns' } h).trans
                (view_attach_frame id rid peer .outbound s conn conns' h hatt))

/-! ### View transformations at the tracked id itself -/

theorem view_take_stored_hit (id : RequestId) (dir : RequestDirection) (s : RequestManager) :
    idView id (take_stored_request s id dir).1
      = (match dir with
        | .inbound => { idView id s with inStore := none }
        | .outbound => { idView id s with outStore := none }) := by
  cases dir <;>
    · apply IdView.ext' <;>
        simp [idView, take_stored_request_inbound, take_stored_request_outbound,
          mapGet_mapRemove_self]

theorem view_push_hit (id : RequestId) (a : BehaviourAction) (s : RequestManager)
    (ha : isTerminalFor id a = true) :
    idView id { s with actions := s.actions.push_back a }
      = { idView id s with tr := (idView id s).tr ++ [a] } := by
  apply IdView.ext' <;> simp [idView, filter_terminal_push, ha]

theorem view_app_append (id rid : RequestId) (d : RequestDirection) (s : RequestManager) :
    idView id { s with awaiting_approval := s.awaiting_approval ++ [(rid, d)] }
      = { idView id s with
          app := (idView id s).app ++ if rid = id then [(rid, d)] else [] } := by
  apply IdView.ext' <;> simp [idView, List.filter_append]
  by_cases h : rid = id <;> simp [h, List.filter_cons]

theorem view_add_dial_hit (id : RequestId) (p : PeerId) (s : RequestManager) :
    idView id (add_dial_attempt s p id)
      = { idView id s with
          connAt := fun q =>
            if q = p then (idView id s).connAt q + 1 else (idView id s).connAt q,
          connTotal := (idView id s).connTotal + 1 } := by
  apply IdView.ext' <;>
    simp [idView, add_dial_attempt, filter_terminal_push, isTerminal_dial]
  · intro q
    by_cases hq : q = p
    · subst hq
      rw [mapGet_mapModify_self]
      rcases mapGet s.awaiting_connection q with _ | l <;>
        simp [List.count_append]
    · rw [mapGet_mapModify_ne _ _ _ _ _ hq]
      simp [hq]
  · rw [sum_mapModify (fun l => l.count id) (· ++ [id]) 1
      (by intro b; simp [List.count_append]) _ _ _ rfl]

theorem view_attach_hit (id : RequestId) (p : PeerId) (dir : RequestDirection)
    (s : RequestManager) (c : ConnectionId) (conns' : PeerConnectionManager)
    (hatt : s.connections.add_request p id dir = some (c, conns')) :
    idView id { s with connections := conns' }
      = { idView id s with
          inflightAt := fun c' =>
            if c' = c then (idView id s).inflightAt c' + 1 else (idView id s).inflightAt c',
          inflightTotal := (idView id s).inflightTotal + 1 } := by
  rw [PeerConnectionManager.add_request] at hatt
  rcases hg : mapGet s.connections.peer_connections p with _ | l <;> rw [hg] at hatt
  · cases hatt
  · rcases l with _ | ⟨c0, cs⟩
    · cases hatt
    · cases hatt
      apply IdView.ext' <;> simp [idView]
      · intro c'
        by_cases hc : c' = c
        · subst hc
          rw [mapGet_mapModify_self]
          rcases mapGet s.connections.pending_responses c' with _ | pr <;>
            cases dir <;>
              simp [occPend, pushPending, List.count_append] <;> omega
        · rw [mapGet_mapModify_ne _ _ _ _ _ hc]
          simp [hc]
      · rw [sum_mapModify (occPend id) (pushPending dir id) 1
          (by
            intro b
            cases dir <;> simp [occPend, pushPending, List.count_append] <;> omega) _ _ _
          (by simp [occPend])]

theorem view_conn_remove_zero (id : RequestId) (p : PeerId) (s : RequestManager)
    (h : (idView id s).connTotal = 0) :
    idView id { s with awaiting_connection := mapRemove s.awaiting_connection p }
      = idView id s := by
  simp only [idView] at h
  apply IdView.ext' <;> simp [idView]
  · intro q
    by_cases hq : q = p
    · subst hq
      rw [mapGet_mapRemove_self]
      rcases hg : mapGet s.awaiting_connection q with _ | l
      · simp
      · have h1 : l.count id ≤ (s.awaiting_connection.map (fun e => e.2.count id)).sum :=
          mapGet_le_sum (fun l => l.count id) s.awaiting_connection q l hg
        simp only [Option.getD_none, Option.getD_some, List.count_nil]
        omega
    · rw [mapGet_mapRemove_ne _ _ _ hq]
  · have h1 : ((mapRemove s.awaiting_connection p).map (fun e => e.2.count id)).sum
        ≤ (s.awaiting_connection.map (fun e => e.2.count id)).sum :=
      sum_mapRemove_le (fun l => l.count id) s.awaiting_connection p
    omega

theorem view_conn_remove_hit (id : RequestId) (p : PeerId) (s : RequestManager)
    (h1 : (idView id s).connTotal = 1) (h2 : (idView id s).connAt p = 1) :
    idView id { s with awaiting_connection := mapRemove s.awaiting_connection p }
      = { idView id s with
          connAt := fun q => if q = p then 0 else (idView id s).connAt q,
          connTotal := 0 } := by
  simp only [idView] at h1 h2
  apply IdView.ext' <;> simp [idView]
  · intro q
    by_cases hq : q = p
    · subst hq
      rw [mapGet_mapRemove_self]
      simp
    · rw [mapGet_mapRemove_ne _ _ _ hq]
      simp [hq]
  · rcases hg : mapGet s.awaiting_connection p with _ | l
    · rw [hg] at h2
      simp at h2
    · have hc : l.count id + ((mapRemove s.awaiting_connection p).map
            (fun e => e.2.count id)).sum
          ≤ (s.awaiting_connection.map (fun e => e.2.count id)).sum :=
        mapGet_contrib (fun l => l.count id) s.awaiting_connection p l hg
      rw [hg] at h2
      simp only [Option.getD_some] at h2
      omega

theorem view_rule_remove_zero (id : RequestId) (p : PeerId) (s : RequestManager)
    (h : (idView id s).ruleTotal = 0) :
    idView id { s with awaiting_peer_rule := mapRemove s.awaiting_peer_rule p }
      = idView id s := by
  simp only [idView] at h
  apply IdView.ext' <;> simp [idView]
  · intro q d
    by_cases hq : q = p
    · subst hq
      rw [mapGet_mapRemove_self]
      simp only [Option.getD_none, mapGet, List.count_nil]
      rcases hg : mapGet s.awaiting_peer_rule q with _ | ar
      · simp [mapGet]
      · have h1 : occRuleInner id ar
            ≤ (s.awaiting_peer_rule.map (fun e => occRuleInner id e.2)).sum :=
          mapGet_le_sum (occRuleInner id) s.awaiting_peer_rule q ar hg
        rcases hd : mapGet ar d with _ | l
        · simp [hd]
        · have h2 : l.count id ≤ (ar.map (fun e => e.2.count id)).sum :=
            mapGet_le_sum (fun l => l.count id) ar d l hd
          have h3 : (ar.map (fun e => e.2.count id)).sum = occRuleInner id ar := rfl
          simp only [hd, Option.getD_some]
          omega
    · rw [mapGet_mapRemove_ne _ _ _ hq]
  · have h1 : ((mapRemove s.awaiting_peer_rule p).map (fun e => occRuleInner id e.2)).sum
        ≤ (s.awaiting_peer_rule.map (fun e => occRuleInner id e.2)).sum :=
      sum_mapRemove_le (occRuleInner id) s.awaiting_peer_rule p
    omega

theorem view_rule_remove_hit (id : RequestId) (p : PeerId) (s : RequestManager)
    (ar : List (RequestDirection × List RequestId))
    (hg : mapGet s.awaiting_peer_rule p = some ar)
    (h1 : (idView id s).ruleTotal = 1) (ho : occRuleInner id ar = 1) :
    idView id { s with awaiting_peer_rule := mapRemove s.awaiting_peer_rule p }
      = { idView id s with
          ruleAt := fun q d => if q = p then 0 else (idView id s).ruleAt q d,
          ruleTotal := 0 } := by
  simp only [idView] at h1
  apply IdView.ext' <;> simp [idView]
  · intro q d
    by_cases hq : q = p
    · subst hq
      rw [mapGet_mapRemove_self]
      simp [mapGet]
    · rw [mapGet_mapRemove_ne _ _ _ hq]
      simp [hq]
  · have hc : occRuleInner id ar + ((mapRemove s.awaiting_peer_rule p).map
          (fun e => occRuleInner id e.2)).sum
        ≤ (s.awaiting_peer_rule.map (fun e => occRuleInner id e.2)).sum :=
      mapGet_contrib (occRuleInner id) s.awaiting_peer_rule p ar hg
    omega

theorem view_rule_insert (id : RequestId) (p : PeerId)
    (ar : List (RequestDirection × List RequestId)) (s : RequestManager)
    (hnone : mapGet s.awaiting_peer_rule p = none) :
    idView id { s with awaiting_peer_rule := mapInsert s.awaiting_peer_rule p ar }
      = { idView id s with
          ruleAt := fun q d =>
            if q = p then ((mapGet ar d).getD []).count id else (idView id s).ruleAt q d,
          ruleTotal := (idView id s).ruleTotal + occRuleInner id ar } := by
  apply IdView.ext' <;> simp [idView]
  · intro q d
    by_cases hq : q = p
    · subst hq
      rw [mapGet_mapInsert_self]
      simp
    · rw [mapGet_mapInsert_ne _ _ _ _ hq]
      simp [hq]
  · rw [mapInsert_of_get_none _ _ _ hnone]
    simp [occRuleInner]

/-! ### Frame and hit lemmas for the loop bodies -/

theorem failDialStep_frame (id rid : RequestId) (p : PeerId) (s : RequestManager)
    (h : rid ≠ id) : idView id (failDialStep p s rid) = idView id s :=
  (view_push_fail_out id rid p .dialFailure (take_stored_request s rid .outbound).1 h).trans
    (view_take_stored id rid .outbound s h)

theorem failDialStep_hit (id : RequestId) (p : PeerId) (s : RequestManager) :
    idView id (failDialStep p s id)
      = { idView id s with
          outStore := none,
          tr := (idView id s).tr ++ [.outboundFailure p id .dialFailure] } := by
  apply IdView.ext' <;>
    simp [idView, failDialStep, take_stored_request_outbound,
      filter_terminal_push, mapGet_mapRemove_self, isTerminalFor, isFailureFor, isReadyFor]

theorem failNoRuleStep_frame (id rid : RequestId) (p : PeerId) (d : RequestDirection)
    (s : RequestManager) (h : rid ≠ id) :
    idView id (failNoRuleStep p d s rid) = idView id s := by
  cases d
  · exact (view_push_fail_in id rid p .notPermitted
        (take_stored_request s rid .inbound).1 h).trans
      (view_take_stored id rid .inbound s h)
  · exact (view_push_fail_out id rid p .notPermitted
        (take_stored_request s rid .outbound).1 h).trans
      (view_take_stored id rid .outbound s h)

theorem failNoRuleStep_hit (id : RequestId) (p : PeerId) (d : RequestDirection)
    (s : RequestManager) :
    idView id (failNoRuleStep p d s id)
      = (match d with
        | .inbound => { idView id s with
            inStore := none,
            tr := (idView id s).tr ++ [.inboundFailure p id .notPermitted] }
        | .outbound => { idView id s with
            outStore := none,
            tr := (idView id s).tr ++ [.outboundFailure p id .notPermitted] }) := by
  cases d <;>
    · apply IdView.ext' <;>
        simp [idView, failNoRuleStep, take_stored_request_inbound, take_stored_request_outbound,
          filter_terminal_push, mapGet_mapRemove_self, isTerminalFor, isFailureFor, isReadyFor]

theorem foldl_view_frame (id : RequestId) (F : RequestManager → RequestId → RequestManager)
    (hF : ∀ s rid, rid ≠ id → idView id (F s rid) = idView id s) :
    ∀ (l : List RequestId) (s : RequestManager), l.count id = 0 →
      idView id (l.foldl F s) = idView id s := by
  intro l
  induction l with
  | nil => intro s _; rfl
  | cons a t ih =>
    intro s hc
    by_cases ha : a = id
    · subst ha
      simp [List.count_cons] at hc
    · rw [List.count_cons, if_neg (by simp [ha])] at hc
      rw [List.foldl_cons]
      exact (ih (F s a) (by omega)).trans (hF s a ha)

theorem flushPending_frame (id : RequestId) :
    ∀ (l : List RequestId) (s s' : RequestManager), l.count id = 0 →
      flushPending s l = some s' → idView id s' = idView id s := by
  intro l
  induction l with
  | nil =>
    intro s s' _ h
    cases h
    rfl
  | cons a t ih =>
    intro s s' hc h
    by_cases ha : a = id
    · subst ha
      simp [List.count_cons] at hc
    · have hc' : t.count id = 0 := by
        rw [List.count_cons, if_neg (by simp [ha])] at hc
        omega
      rw [flushPending, take_stored_request_outbound] at h
      rcases hm : mapGet s.outbound_request_store a with _ | pr <;> rw [hm] at h
      · exact (ih _ _ hc' h).trans (view_take_stored id a .outbound s ha)
      · rcases pr with ⟨peer, req⟩
        dsimp only at h
        rcases hatt : s.connections.add_request peer a .outbound
            with _ | ⟨conn, conns'⟩ <;> rw [hatt] at h
        · cases h
        · refine (ih _ _ hc' h).trans ?_
          refine (view_push_ready_out id a peer conn req
              { ({ s with outbound_request_store := mapRemove s.outbound_request_store a }
                  : RequestManager) with connections := conns' } ha).trans ?_
          refine (view_attach_frame id a peer .outbound
              { s with outbound_request_store := mapRemove s.outbound_request_store a }
              conn conns' ha hatt).trans ?_
          exact view_take_stored id a .outbound s ha

theorem flushPending_append :
    ∀ (l₁ l₂ : List RequestId) (s : RequestManager),
      flushPending s (l₁ ++ l₂)
        = (match flushPending s l₁ with
          | none => none
          | some t => flushPending t l₂) := by
  intro l₁
  induction l₁ with
  | nil => intro l₂ s; rfl
  | cons a t ih =>
    intro l₂ s
    rw [List.cons_append, flushPending, flushPending, take_stored_request_outbound]
    rcases hm : mapGet s.outbound_request_store a with _ | pr
    · exact ih l₂ _
    · rcases pr with ⟨peer, req⟩
      dsimp only
      rcases hatt : s.connections.add_request peer a .outbound with _ | ⟨conn, conns'⟩
      · rfl
      · exact ih l₂ _

theorem view_app_append_ne (id rid : RequestId) (d : RequestDirection) (s : RequestManager)
    (h : rid ≠ id) :
    idView id { s with awaiting_approval := s.awaiting_approval ++ [(rid, d)] }
      = idView id s := by
  have h1 := view_app_append id rid d s
  rw [if_neg h] at h1
  simpa using h1

theorem handle_request_approval_apr (s : RequestManager) (rid : RequestId)
    (dir : RequestDirection) (b : Bool) :
    ((handle_request_approval s rid dir b).1).awaiting_peer_rule = s.awaiting_peer_rule := by
  rw [handle_request_approval]
  cases b
  · cases dir
    · rcases hm : mapGet s.inbound_request_store rid with _ | pr <;>
        simp [take_stored_request_inbound, hm]
    · rcases hm : mapGet s.outbound_request_store rid with _ | pr <;>
        simp [take_stored_request_outbound, hm]
  · rcases hp : get_request_peer_ref s rid with _ | peer
    · cases dir <;> rfl
    · dsimp only
      cases dir
      · rcases har : s.connections.add_request peer rid .inbound with _ | cpair
        · rcases hm : mapGet s.inbound_request_store rid with _ | pr <;>
            simp [take_stored_request_inbound, hm]
        · rcases cpair with ⟨conn, conns'⟩
          rcases hm : mapGet s.inbound_request_store rid with _ | pr <;>
            simp [take_stored_request_inbound, hm, add_ready_request]
      · rcases har : s.connections.add_request peer rid .outbound with _ | cpair
        · simp [add_dial_attempt]
        · rcases cpair with ⟨conn, conns'⟩
          rcases hm : mapGet s.outbound_request_store rid with _ | pr <;>
            simp [take_stored_request_outbound, hm, add_ready_request]

theorem processRequests_apr (rules : FirewallRules) :
    ∀ (l : List (RequestId × RequestDirection)) (s : RequestManager),
      ((processRequests s rules l).1).awaiting_peer_rule = s.awaiting_peer_rule := by
  intro l
  induction l with
  | nil => intro s; simp [processRequests]
  | cons e rest ih =>
    intro s
    rcases e with ⟨rid, dir⟩
    simp only [processRequests]
    rcases hrule : (match dir with
        | RequestDirection.inbound => rules.inbound
        | RequestDirection.outbound => rules.outbound) with _ | r
    · simp only [hrule]
      rw [ih, handle_request_approval_apr]
    · rcases r with _ | mask
      · simp only [hrule]
        rcases hv : get_request_value_ref s rid with _ | v
        · simp only
          exact ih s
        · simp only
          exact ih _
      · simp only [hrule]
        rcases hv : get_request_value_ref s rid with _ | v
        · simp only
          exact ih s
        · simp only
          rw [ih, handle_request_approval_apr]

theorem processRequests_append (rules : FirewallRules) :
    ∀ (l₁ l₂ : List (RequestId × RequestDirection)) (s : RequestManager),
      (processRequests s rules (l₁ ++ l₂)).1
        = (processRequests (processRequests s rules l₁).1 rules l₂).1 := by
  intro l₁
  induction l₁ with
  | nil => intro l₂ s; rfl
  | cons e rest ih =>
    intro l₂ s
    rcases e with ⟨rid, dir⟩
    rw [List.cons_append]
    simp only [processRequests]
    rcases hrule : (match dir with
        | RequestDirection.inbound => rules.inbound
        | RequestDirection.outbound => rules.outbound) with _ | r
    · simp only [hrule]
      exact ih l₂ _
    · rcases r with _ | mask
      · simp only [hrule]
        rcases hv : get_request_value_ref s rid with _ | v <;> simp only
        · exact ih l₂ _
        · exact ih l₂ _
      · simp only [hrule]
        rcases hv : get_request_value_ref s rid with _ | v <;> simp only
        · exact ih l₂ _
        · exact ih l₂ _

theorem processRequests_frame (id : RequestId) (rules : FirewallRules) :
    ∀ (l : List (RequestId × RequestDirection)) (s : RequestManager),
      (∀ e ∈ l, e.1 ≠ id) →
      idView id (processRequests s rules l).1 = idView id s := by
  intro l
  induction l with
  | nil => intro s _; rfl
  | cons e rest ih =>
    intro s hl
    rcases e with ⟨rid, dir⟩
    have hrid : rid ≠ id := hl (rid, dir) (by simp)
    have hrest : ∀ e ∈ rest, e.1 ≠ id := fun e he => hl e (by simp [he])
    simp only [processRequests]
    rcases hrule : (match dir with
        | RequestDirection.inbound => rules.inbound
        | RequestDirection.outbound => rules.outbound) with _ | r
    · simp only [hrule]
      exact (ih _ hrest).trans (view_handle_frame id rid dir false s hrid)
    · rcases r with _ | mask
      · simp only [hrule]
        rcases hv : get_request_value_ref s rid with _ | v <;> simp only
        · exact ih s hrest
        · exact (ih _ hrest).trans (view_app_append_ne id rid dir s hrid)
      · simp only [hrule]
        rcases hv : get_request_value_ref s rid with _ | v <;> simp only
        · exact ih s hrest
        · exact (ih _ hrest).trans (view_handle_frame id rid dir (permits mask v) s hrid)

theorem view_connAt_le (id : RequestId) (s : RequestManager) (p : PeerId) :
    (idView id s).connAt p ≤ (idView id s).connTotal := by
  simp only [idView]
  rcases hg : mapGet s.awaiting_connection p with _ | l
  · simp
  · simpa using mapGet_le_sum (fun l => l.count id) s.awaiting_connection p l hg

theorem view_inflightAt_le (id : RequestId) (s : RequestManager) (c : ConnectionId) :
    (idView id s).inflightAt c ≤ (idView id s).inflightTotal := by
  simp only [idView]
  rcases hg : mapGet s.connections.pending_responses c with _ | pr
  · simp [occPend]
  · simpa using mapGet_le_sum (occPend id) s.connections.pending_responses c pr hg

theorem view_ruleAt_le (id : RequestId) (s : RequestManager) (p : PeerId)
    (d : RequestDirection) : (idView id s).ruleAt p d ≤ (idView id s).ruleTotal := by
  simp only [idView]
  rcases hg : mapGet s.awaiting_peer_rule p with _ | ar
  · simp [mapGet]
  · have h1 : occRuleInner id ar
        ≤ (s.awaiting_peer_rule.map (fun e => occRuleInner id e.2)).sum :=
      mapGet_le_sum (occRuleInner id) s.awaiting_peer_rule p ar hg
    rcases hd : mapGet ar d with _ | l
    · simp [hd]
    · have h2 : l.count id ≤ (ar.map (fun e => e.2.count id)).sum :=
        mapGet_le_sum (fun l => l.count id) ar d l hd
      have h3 : (ar.map (fun e => e.2.count id)).sum = occRuleInner id ar := rfl
      simp only [Option.getD_some, hd]
      omega

/-- The tracked id sits in the store of direction `d` and in no waiting
structure: the situation in which `handle_request_approval` is reached for
it. -/
def Bare (d : RequestDirection) (v : IdView) : Prop :=
  StoredIn d v ∧ v.app = [] ∧ v.ruleTotal = 0 ∧ v.connTotal = 0 ∧ v.inflightTotal = 0

theorem handle_hit (id : RequestId) (d : RequestDirection) (b : Bool) (s : RequestManager)
    (hb : Bare d (idView id s)) :
    ∃ ph δ, InvC1 id ph (handle_request_approval s id d b).1
      ∧ (idView id (handle_request_approval s id d b).1).tr = (idView id s).tr ++ δ
      ∧ SegTrace id 0 (phaseClass ph) δ
      ∧ (idView id (handle_request_approval s id d b).1).ruleTotal = 0 := by
  obtain ⟨hst, happ, hrule, hconn, hinf⟩ := hb
  cases b
  · cases d
    · obtain ⟨hin, hout⟩ := hst
      rcases hm : mapGet s.inbound_request_store id with _ | pr
      · rw [show (idView id s).inStore = mapGet s.inbound_request_store id from rfl, hm] at hin
        cases hin
      · rcases pr with ⟨peer, req⟩
        have e2 : idView id
            ({ s with inbound_request_store := mapRemove s.inbound_request_store id }
              : RequestManager)
            = { idView id s with inStore := none } := view_take_stored_hit id .inbound s
        have hv : idView id (handle_request_approval s id .inbound false).1
            = { idView id s with
                inStore := none,
                tr := (idView id s).tr ++ [.inboundFailure peer id .notPermitted] } := by
          rw [handle_request_approval, take_stored_request_inbound]
          try dsimp only
          rw [hm]
          exact (view_push_hit id (.inboundFailure peer id .notPermitted)
              { s with inbound_request_store := mapRemove s.inbound_request_store id }
              (by simp [isTerminalFor, isFailureFor])).trans (by rw [e2])
        refine ⟨.closed, [.inboundFailure peer id .notPermitted], ?_, by rw [hv], ?_,
          by rw [hv]; exact hrule⟩
        · simp only [InvC1]
          rw [hv]
          exact ⟨hinf, rfl, hout, hrule, happ, hconn⟩
        · exact Or.inl ⟨_, rfl, by simp [isFailureFor]⟩
    · obtain ⟨hout, hin⟩ := hst
      rcases hm : mapGet s.outbound_request_store id with _ | pr
      · rw [show (idView id s).outStore = mapGet s.outbound_request_store id from rfl, hm]
          at hout
        cases hout
      · rcases pr with ⟨peer, req⟩
        have e2 : idView id
            ({ s with outbound_request_store := mapRemove s.outbound_request_store id }
              : RequestManager)
            = { idView id s with outStore := none } := view_take_stored_hit id .outbound s
        have hv : idView id (handle_request_approval s id .outbound false).1
            = { idView id s with
                outStore := none,
                tr := (idView id s).tr ++ [.outboundFailure peer id .notPermitted] } := by
          rw [handle_request_approval, take_stored_request_outbound]
          try dsimp only
          rw [hm]
          exact (view_push_hit id (.outboundFailure peer id .notPermitted)
              { s with outbound_request_store := mapRemove s.outbound_request_store id }
              (by simp [isTerminalFor, isFailureFor])).trans (by rw [e2])
        refine ⟨.closed, [.outboundFailure peer id .notPermitted], ?_, by rw [hv], ?_,
          by rw [hv]; exact hrule⟩
        · simp only [InvC1]
          rw [hv]
          exact ⟨hinf, hin, rfl, hrule, happ, hconn⟩
        · exact Or.inl ⟨_, rfl, by simp [isFailureFor]⟩
  · cases d
    · obtain ⟨hin, hout⟩ := hst
      rcases hm : mapGet s.inbound_request_store id with _ | pr
      · rw [show (idView id s).inStore = mapGet s.inbound_request_store id from rfl, hm] at hin
        cases hin
      · rcases pr with ⟨peer, req⟩
        have hp : get_request_peer_ref s id = some peer := by
          simp [get_request_peer_ref, hm]
        rcases hatt : s.connections.add_request peer id .inbound with _ | cp
        · have e2 : idView id
              ({ s with inbound_request_store := mapRemove s.inbound_request_store id }
                : RequestManager)
              = { idView id s with inStore := none } := view_take_stored_hit id .inbound s
          have hv : idView id (handle_request_approval s id .inbound true).1
              = { idView id s with
                  inStore := none,
                  tr := (idView id s).tr ++ [.inboundFailure peer id .connectionClosed] } := by
            rw [handle_request_approval]
            simp only [Bool.not_true, Bool.false_eq_true, if_false]
            rw [hp]
            dsimp only
            rw [hatt]
            dsimp only
            rw [take_stored_request_inbound]
            try dsimp only
            rw [hm]
            exact (view_push_hit id (.inboundFailure peer id .connectionClosed)
                { s with inbound_request_store := mapRemove s.inbound_request_store id }
                (by simp [isTerminalFor, isFailureFor])).trans (by rw [e2])
          refine ⟨.closed, [.inboundFailure peer id .connectionClosed], ?_, by rw [hv], ?_,
            by rw [hv]; exact hrule⟩
          · simp only [InvC1]
            rw [hv]
            exact ⟨hinf, rfl, hout, hrule, happ, hconn⟩
          · exact Or.inl ⟨_, rfl, by simp [isFailureFor]⟩
        · rcases cp with ⟨conn, conns'⟩
          have e1 : idView id ({ s with connections := conns' } : RequestManager)
              = { idView id s with
                  inflightAt := fun c' =>
                    if c' = conn then (idView id s).inflightAt c' + 1
                    else (idView id s).inflightAt c',
                  inflightTotal := (idView id s).inflightTotal + 1 } :=
            view_attach_hit id peer .inbound s conn conns' hatt
          have e2 : idView id
              ({ ({ s with connections := conns' } : RequestManager) with
                inbound_request_store := mapRemove s.inbound_request_store id }
                : RequestManager)
              = { idView id ({ s with connections := conns' } : RequestManager) with
                  inStore := none } :=
            view_take_stored_hit id .inbound { s with connections := conns' }
          have hv : idView id (handle_request_approval s id .inbound true).1
              = { idView id s with
                  inStore := none,
                  inflightAt := fun c' =>
                    if c' = conn then (idView id s).inflightAt c' + 1
                    else (idView id s).inflightAt c',
                  inflightTotal := (idView id s).inflightTotal + 1,
                  tr := (idView id s).tr ++ [.inboundReady id peer req] } := by
            rw [handle_request_approval]
            simp only [Bool.not_true, Bool.false_eq_true, if_false]
            rw [hp]
            dsimp only
            rw [hatt]
            dsimp only
            rw [take_stored_request_inbound]
            try dsimp only
            rw [hm]
            exact ((view_push_hit id (.inboundReady id peer req)
                { ({ s with connections := conns' } : RequestManager) with
                  inbound_request_store := mapRemove s.inbound_request_store id }
                (by simp [isTerminalFor, isReadyFor])).trans (by rw [e2, e1]))
          refine ⟨.inflight, [.inboundReady id peer req], ?_, by rw [hv], ?_,
            by rw [hv]; exact hrule⟩
          · simp only [InvC1]
            rw [hv]
            refine ⟨by rw [hinf], ⟨conn, ?_⟩, rfl, hout, hrule, happ, hconn⟩
            have hle := view_inflightAt_le id s conn
            rw [hinf] at hle
            show (if conn = conn then (idView id s).inflightAt conn + 1
              else (idView id s).inflightAt conn) = 1
            rw [if_pos rfl]
            omega
          · exact ⟨_, rfl, by simp [isReadyFor]⟩
    · obtain ⟨hout, hin⟩ := hst
      rcases hm : mapGet s.outbound_request_store id with _ | pr
      · rw [show (idView id s).outStore = mapGet s.outbound_request_store id from rfl, hm]
          at hout
        cases hout
      · rcases pr with ⟨peer, req⟩
        have hmin : mapGet s.inbound_request_store id = none := hin
        have hp : get_request_peer_ref s id = some peer := by
          simp [get_request_peer_ref, hmin, hm]
        rcases hatt : s.connections.add_request peer id .outbound with _ | cp
        · have hv : idView id (handle_request_approval s id .outbound true).1
              = { idView id s with
                  connAt := fun q =>
                    if q = peer then (idView id s).connAt q + 1 else (idView id s).connAt q,
                  connTotal := (idView id s).connTotal + 1 } := by
            rw [handle_request_approval]
            simp only [Bool.not_true, Bool.false_eq_true, if_false]
            rw [hp]
            dsimp only
            rw [hatt]
            exact view_add_dial_hit id peer s
          refine ⟨.inConn peer, [], ?_, by rw [hv]; simp, ?_, by rw [hv]; exact hrule⟩
          · simp only [InvC1]
            rw [hv]
            refine ⟨by rw [hconn], ?_, ⟨hout, hin⟩, hrule, happ, hinf⟩
            have hle := view_connAt_le id s peer
            rw [hconn] at hle
            show (if peer = peer then (idView id s).connAt peer + 1
              else (idView id s).connAt peer) = 1
            rw [if_pos rfl]
            omega
          · rfl
        · rcases cp with ⟨conn, conns'⟩
          have e1 : idView id ({ s with connections := conns' } : RequestManager)
              = { idView id s with
                  inflightAt := fun c' =>
                    if c' = conn then (idView id s).inflightAt c' + 1
                    else (idView id s).inflightAt c',
                  inflightTotal := (idView id s).inflightTotal + 1 } :=
            view_attach_hit id peer .outbound s conn conns' hatt
          have e2 : idView id
              ({ ({ s with connections := conns' } : RequestManager) with
                outbound_request_store := mapRemove s.outbound_request_store id }
                : RequestManager)
              = { idView id ({ s with connections := conns' } : RequestManager) with
                  outStore := none } :=
            view_take_stored_hit id .outbound { s with connections := conns' }
          have hv : idView id (handle_request_approval s id .outbound true).1
              = { idView id s with
                  outStore := none,
                  inflightAt := fun c' =>
                    if c' = conn then (idView id s).inflightAt c' + 1
                    else (idView id s).inflightAt c',
                  inflightTotal := (idView id s).inflightTotal + 1,
                  tr := (idView id s).tr ++ [.outboundReady id peer conn req] } := by
            rw [handle_request_approval]
            simp only [Bool.not_true, Bool.false_eq_true, if_false]
            rw [hp]
            dsimp only
            rw [hatt]
            dsimp only
            rw [take_stored_request_outbound]
            try dsimp only
            rw [hm]
            exact ((view_push_hit id (.outboundReady id peer conn req)
                { ({ s with connections := conns' } : RequestManager) with
                  outbound_request_store := mapRemove s.outbound_request_store id }
                (by simp [isTerminalFor, isReadyFor])).trans (by rw [e2, e1]))
          refine ⟨.inflight, [.outboundReady id peer conn req], ?_, by rw [hv], ?_,
            by rw [hv]; exact hrule⟩
          · simp only [InvC1]
            rw [hv]
            refine ⟨by rw [hinf], ⟨conn, ?_⟩, hin, rfl, hrule, happ, hconn⟩
            have hle := view_inflightAt_le id s conn
            rw [hinf] at hle
            show (if conn = conn then (idView id s).inflightAt conn + 1
              else (idView id s).inflightAt conn) = 1
            rw [if_pos rfl]
            omega
          · exact ⟨_, rfl, by simp [isReadyFor]⟩

/-- The run invariant: the tracked id sits in a definite phase and the
terminal actions queued so far for it match that phase's class. -/
def Tracked (id : RequestId) (s : RequestManager) : Prop :=
  ∃ ph, InvC1 id ph s ∧ SegTrace id 0 (phaseClass ph) ((idView id s).tr)

theorem InvC1_of_view (id : RequestId) (ph : Phase) (s s' : RequestManager)
    (h : idView id s' = idView id s) (hInv : InvC1 id ph s) : InvC1 id ph s' := by
  simp only [InvC1] at hInv ⊢
  rw [h]
  exact hInv

theorem Tracked_of_view (id : RequestId) (s s' : RequestManager)
    (h : idView id s' = idView id s) (ht : Tracked id s) : Tracked id s' := by
  obtain ⟨ph, hI, hT⟩ := ht
  exact ⟨ph, InvC1_of_view id ph s s' h hI, by rw [h]; exact hT⟩

theorem view_eraseIdx_ne (id : RequestId) (i : Nat) (rid2 : RequestId) (d2 : RequestDirection)
    (s : RequestManager) (hgi : s.awaiting_approval.get? i = some (rid2, d2))
    (h : rid2 ≠ id) :
    idView id { s with awaiting_approval := s.awaiting_approval.eraseIdx i } = idView id s := by
  apply IdView.ext' <;> simp [idView]
  exact filter_eraseIdx_not _ _ _ _ hgi (by simp [h])

theorem view_eraseIdx_hit (id : RequestId) (i : Nat) (d2 : RequestDirection)
    (s : RequestManager) (hgi : s.awaiting_approval.get? i = some (id, d2))
    (happ : (idView id s).app = [(id, d2)]) :
    idView id { s with awaiting_approval := s.awaiting_approval.eraseIdx i }
      = { idView id s with app := [] } := by
  have h0 : (s.awaiting_approval.eraseIdx i).filter (fun e => e.1 == id) = [] :=
    filter_eraseIdx_single _ _ _ _ _ hgi (by simp) happ
  apply IdView.ext' <;> simp [idView]
  intro a b hab hEq
  have hmem : ((a, b) : RequestId × RequestDirection)
      ∈ (s.awaiting_approval.eraseIdx i).filter (fun e => e.1 == id) :=
    List.mem_filter.mpr ⟨hab, by simp [hEq]⟩
  rw [h0] at hmem
  cases hmem

theorem step_requestApproval (id : RequestId) (rid : RequestId) (b : Bool)
    (s : RequestManager) (ht : Tracked id s) :
    Tracked id (on_request_approval s rid b).1 := by
  obtain ⟨ph, hI, hT⟩ := ht
  rw [on_request_approval]
  rcases hbs : binary_search_by s.awaiting_approval rid with i | i
  · exact ⟨ph, hI, hT⟩
  · dsimp only
    rcases hgi : s.awaiting_approval.get? i with _ | e
    · exact ⟨ph, hI, hT⟩
    · rcases e with ⟨rid2, dir2⟩
      dsimp only
      have hrid2 : rid2 = rid := by
        obtain ⟨e, hge, he1⟩ := binarySearchGo_ok_mem s.awaiting_approval rid _ _ _ _ hbs
        rw [hgi] at hge
        cases hge
        exact he1
      by_cases hid : rid = id
      · subst hid
        subst hrid2
        have hmem : ((rid2, dir2) : RequestId × RequestDirection)
            ∈ s.awaiting_approval.filter (fun e => e.1 == rid2) :=
          List.mem_filter.mpr ⟨List.get?_mem hgi, by simp⟩
        cases ph with
        | inRule p d =>
          obtain ⟨_, _, _, happ, _, _⟩ := hI
          rw [show s.awaiting_approval.filter (fun e => e.1 == rid2)
              = (idView rid2 s).app from rfl, happ] at hmem
          cases hmem
        | inConn p =>
          obtain ⟨_, _, _, _, happ, _⟩ := hI
          rw [show s.awaiting_approval.filter (fun e => e.1 == rid2)
              = (idView rid2 s).app from rfl, happ] at hmem
          cases hmem
        | inflight =>
          obtain ⟨_, _, _, _, _, happ, _⟩ := hI
          rw [show s.awaiting_approval.filter (fun e => e.1 == rid2)
              = (idView rid2 s).app from rfl, happ] at hmem
          cases hmem
        | closed =>
          obtain ⟨_, _, _, _, happ, _⟩ := hI
          rw [show s.awaiting_approval.filter (fun e => e.1 == rid2)
              = (idView rid2 s).app from rfl, happ] at hmem
          cases hmem
        | inApproval d =>
          obtain ⟨happ, hst, hrule, hconn, hinf⟩ := hI
          have hd2 : dir2 = d := by
            rw [show s.awaiting_approval.filter (fun e => e.1 == rid2)
                = (idView rid2 s).app from rfl, happ] at hmem
            simpa using hmem
          subst hd2
          have hview2 : idView rid2
              ({ s with awaiting_approval := s.awaiting_approval.eraseIdx i }
                : RequestManager)
              = { idView rid2 s with app := [] } :=
            view_eraseIdx_hit rid2 i dir2 s hgi happ
          have hbare : Bare dir2 (idView rid2
              ({ s with awaiting_approval := s.awaiting_approval.eraseIdx i }
                : RequestManager)) := by
            rw [hview2]
            exact ⟨hst, rfl, hrule, hconn, hinf⟩
          obtain ⟨ph', δ, hI', htr', hseg', _⟩ := handle_hit rid2 dir2 b _ hbare
          refine ⟨ph', hI', ?_⟩
          rw [htr']
          have htr2 : (idView rid2
              ({ s with awaiting_approval := s.awaiting_approval.eraseIdx i }
                : RequestManager)).tr = (idView rid2 s).tr := by rw [hview2]
          rw [htr2]
          exact SegTrace_trans rid2 0 0 _ _ _ hT hseg'
      · have hrid2' : rid2 ≠ id := by rw [hrid2]; exact hid
        refine Tracked_of_view id s _ ?_ ⟨ph, hI, hT⟩
        exact (view_handle_frame id rid2 dir2 b
            { s with awaiting_approval := s.awaiting_approval.eraseIdx i } hrid2').trans
          (view_eraseIdx_ne id i rid2 dir2 s hgi hrid2')

theorem closeActions_filter (id : RequestId) (p : PeerId) (q : ActionQueue)
    (o : Option PendingResponses) :
    (closeActions p q o).items.filter (isTerminalFor id)
      = q.items.filter (isTerminalFor id)
        ++ (match o with
          | none => []
          | some pr =>
            (pr.outbound_requests.filter (fun r => r == id)).map
              (fun r => BehaviourAction.outboundFailure p r .connectionClosed)
            ++ (pr.inbound_requests.filter (fun r => r == id)).map
              (fun r => BehaviourAction.inboundFailure p r .connectionClosed)) := by
  rcases o with _ | pr
  · simp [closeActions]
  · simp only [closeActions, pushAll_items, List.filter_append, List.append_assoc]
    rw [filter_map_comm, filter_map_comm]
    have ho : (fun r => isTerminalFor id (BehaviourAction.outboundFailure p r .connectionClosed))
        = (fun r : RequestId => r == id) := by
      funext r
      simp [isTerminalFor, isFailureFor, isReadyFor]
    have hi : (fun r => isTerminalFor id (BehaviourAction.inboundFailure p r .connectionClosed))
        = (fun r : RequestId => r == id) := by
      funext r
      simp [isTerminalFor, isFailureFor, isReadyFor]
    rw [ho, hi]

theorem view_closeActions_zero (id : RequestId) (p : PeerId) (o : Option PendingResponses)
    (s : RequestManager)
    (ho : ∀ pr, o = some pr →
      pr.outbound_requests.count id = 0 ∧ pr.inbound_requests.count id = 0) :
    idView id { s with actions := closeActions p s.actions o } = idView id s := by
  apply IdView.ext' <;> simp [idView, closeActions_filter]
  rcases o with _ | pr
  · simp
  · obtain ⟨h1, h2⟩ := ho pr rfl
    simp [filter_beq_of_count_zero id _ h1, filter_beq_of_count_zero id _ h2]

theorem view_closeActions_hit_out (id : RequestId) (p : PeerId) (pr : PendingResponses)
    (s : RequestManager) (h1 : pr.outbound_requests.count id = 1)
    (h2 : pr.inbound_requests.count id = 0) :
    idView id { s with actions := closeActions p s.actions (some pr) }
      = { idView id s with
          tr := (idView id s).tr ++ [.outboundFailure p id .connectionClosed] } := by
  apply IdView.ext' <;> simp [idView, closeActions_filter]
  simp [filter_beq_of_count_one id _ h1, filter_beq_of_count_zero id _ h2]

theorem view_closeActions_hit_in (id : RequestId) (p : PeerId) (pr : PendingResponses)
    (s : RequestManager) (h1 : pr.outbound_requests.count id = 0)
    (h2 : pr.inbound_requests.count id = 1) :
    idView id { s with actions := closeActions p s.actions (some pr) }
      = { idView id s with
          tr := (idView id s).tr ++ [.inboundFailure p id .connectionClosed] } := by
  apply IdView.ext' <;> simp [idView, closeActions_filter]
  simp [filter_beq_of_count_zero id _ h1, filter_beq_of_count_one id _ h2]

theorem view_pend_remove_zero (id : RequestId) (c : ConnectionId)
    (pcs' : List (PeerId × List ConnectionId)) (s : RequestManager)
    (htot : (idView id s).inflightTotal = 0) :
    idView id { s with
      connections := ⟨pcs', mapRemove s.connections.pending_responses c⟩ }
      = idView id s := by
  simp only [idView] at htot
  apply IdView.ext' <;> simp [idView]
  · intro c'
    by_cases hc : c' = c
    · subst hc
      rw [mapGet_mapRemove_self]
      rcases hg : mapGet s.connections.pending_responses c' with _ | pr
      · simp
      · have h1 : occPend id pr
            ≤ (s.connections.pending_responses.map (fun e => occPend id e.2)).sum :=
          mapGet_le_sum (occPend id) s.connections.pending_responses c' pr hg
        have hz : occPend id { outbound_requests := [], inbound_requests := [] } = 0 := rfl
        simp only [Option.getD_none, Option.getD_some]
        omega
    · rw [mapGet_mapRemove_ne _ _ _ hc]
  · have h1 : ((mapRemove s.connections.pending_responses c).map
          (fun e => occPend id e.2)).sum
        ≤ (s.connections.pending_responses.map (fun e => occPend id e.2)).sum :=
      sum_mapRemove_le (occPend id) s.connections.pending_responses c
    omega

theorem view_pend_remove_other (id : RequestId) (c c₀ : ConnectionId)
    (pcs' : List (PeerId × List ConnectionId)) (s : RequestManager) (hne : c₀ ≠ c)
    (h1 : (idView id s).inflightTotal = 1) (h0 : (idView id s).inflightAt c = 0)
    (hc0 : (idView id s).inflightAt c₀ = 1) :
    idView id { s with
      connections := ⟨pcs', mapRemove s.connections.pending_responses c⟩ }
      = idView id s := by
  simp only [idView] at h1 h0 hc0
  apply IdView.ext' <;> simp [idView]
  · intro c'
    by_cases hc : c' = c
    · subst hc
      rw [mapGet_mapRemove_self]
      simp only [Option.getD_none]
      rw [h0]
      rfl
    · rw [mapGet_mapRemove_ne _ _ _ hc]
  · have hub : ((mapRemove s.connections.pending_responses c).map
          (fun e => occPend id e.2)).sum
        ≤ (s.connections.pending_responses.map (fun e => occPend id e.2)).sum :=
      sum_mapRemove_le (occPend id) s.connections.pending_responses c
    rcases hg : mapGet s.connections.pending_responses c₀ with _ | pr₀
    · rw [hg] at hc0
      simp [occPend] at hc0
    · have hg' : mapGet (mapRemove s.connections.pending_responses c) c₀ = some pr₀ := by
        rw [mapGet_mapRemove_ne _ _ _ hne, hg]
      have hlb : occPend id pr₀
          ≤ ((mapRemove s.connections.pending_responses c).map
            (fun e => occPend id e.2)).sum :=
        mapGet_le_sum (occPend id) (mapRemove s.connections.pending_responses c) c₀ pr₀ hg'
      rw [hg] at hc0
      simp only [Option.getD_some] at hc0
      omega

theorem view_pend_remove_hit (id : RequestId) (c : ConnectionId)
    (pcs' : List (PeerId × List ConnectionId)) (s : RequestManager)
    (h1 : (idView id s).inflightTotal = 1) (hc : (idView id s).inflightAt c = 1) :
    idView id { s with
      connections := ⟨pcs', mapRemove s.connections.pending_responses c⟩ }
      = { idView id s with
          inflightAt := fun c' => if c' = c then 0 else (idView id s).inflightAt c',
          inflightTotal := 0 } := by
  simp only [idView] at h1 hc
  apply IdView.ext' <;> simp [idView]
  · intro c'
    by_cases hcc : c' = c
    · subst hcc
      rw [mapGet_mapRemove_self]
      simp [occPend]
    · rw [mapGet_mapRemove_ne _ _ _ hcc]
      simp [hcc]
  · rcases hg : mapGet s.connections.pending_responses c with _ | pr
    · rw [hg] at hc
      simp [occPend] at hc
    · have hcontrib : occPend id pr + ((mapRemove s.connections.pending_responses c).map
            (fun e => occPend id e.2)).sum
          ≤ (s.connections.pending_responses.map (fun e => occPend id e.2)).sum :=
        mapGet_contrib (occPend id) s.connections.pending_responses c pr hg
      rw [hg] at hc
      simp only [Option.getD_some] at hc
      omega

theorem closed_frame_of_total_zero (id : RequestId) (p : PeerId) (c : ConnectionId)
    (s : RequestManager) (h : (idView id s).inflightTotal = 0) :
    idView id (on_connection_closed s p c) = idView id s := by
  have hz : ∀ pr, mapGet s.connections.pending_responses c = some pr →
      pr.outbound_requests.count id = 0 ∧ pr.inbound_requests.count id = 0 := by
    intro pr hg
    have h1 : occPend id pr
        ≤ (s.connections.pending_responses.map (fun e => occPend id e.2)).sum :=
      mapGet_le_sum (occPend id) s.connections.pending_responses c pr hg
    have h2 : (s.connections.pending_responses.map (fun e => occPend id e.2)).sum = 0 := h
    have h1' : pr.outbound_requests.count id + pr.inbound_requests.count id
        ≤ (s.connections.pending_responses.map (fun e => occPend id e.2)).sum := h1
    omega
  have e0 : idView id ({ s with actions := closeActions p s.actions (mapGet s.connections.pending_responses c) } : RequestManager) = idView id s :=
    view_closeActions_zero id p _ s hz
  have htot1 : (idView id ({ s with actions := closeActions p s.actions (mapGet s.connections.pending_responses c) } : RequestManager)).inflightTotal = 0 := by
    rw [e0]
    exact h
  rw [on_connection_closed_eq]
  exact (view_pend_remove_zero id c
      (pcsUpdate s.connections.peer_connections p c)
      { s with actions := closeActions p s.actions (mapGet s.connections.pending_responses c) }
      htot1).trans e0

theorem step_connectionClosed (id : RequestId) (p : PeerId) (c : ConnectionId)
    (s : RequestManager) (ht : Tracked id s) :
    Tracked id (on_connection_closed s p c) := by
  obtain ⟨ph, hI, hT⟩ := ht
  cases ph with
  | inRule p0 d0 =>
    exact Tracked_of_view id s _ (closed_frame_of_total_zero id p c s hI.2.2.2.2.2)
      ⟨.inRule p0 d0, hI, hT⟩
  | inApproval d0 =>
    exact Tracked_of_view id s _ (closed_frame_of_total_zero id p c s hI.2.2.2.2)
      ⟨.inApproval d0, hI, hT⟩
  | inConn p0 =>
    exact Tracked_of_view id s _ (closed_frame_of_total_zero id p c s hI.2.2.2.2.2)
      ⟨.inConn p0, hI, hT⟩
  | closed =>
    exact Tracked_of_view id s _ (closed_frame_of_total_zero id p c s hI.1)
      ⟨.closed, hI, hT⟩
  | inflight =>
    obtain ⟨htot, ⟨c₀, hc₀⟩, hin, hout, hrule, happ, hconn⟩ := hI
    by_cases hcc : (idView id s).inflightAt c = 1
    · rcases hg : mapGet s.connections.pending_responses c with _ | pr
      · exfalso
        rw [show (idView id s).inflightAt c
            = occPend id ((mapGet s.connections.pending_responses c).getD ⟨[], []⟩) from rfl,
          hg] at hcc
        simp [occPend] at hcc
      · have hocc : occPend id pr = 1 := by
          rw [show (idView id s).inflightAt c
              = occPend id ((mapGet s.connections.pending_responses c).getD ⟨[], []⟩) from rfl,
            hg] at hcc
          exact hcc
        have hsplit : (pr.outbound_requests.count id = 1 ∧ pr.inbound_requests.count id = 0)
            ∨ (pr.outbound_requests.count id = 0 ∧ pr.inbound_requests.count id = 1) := by
          simp only [occPend] at hocc
          omega
        rcases hsplit with ⟨ho1, ho2⟩ | ⟨ho1, ho2⟩
        · have e0 : idView id ({ s with actions := closeActions p s.actions (mapGet s.connections.pending_responses c) } : RequestManager)
              = { idView id s with
                  tr := (idView id s).tr ++ [.outboundFailure p id .connectionClosed] } := by
            rw [hg]
            exact view_closeActions_hit_out id p pr s ho1 ho2
          have htot1 : (idView id ({ s with actions := closeActions p s.actions (mapGet s.connections.pending_responses c) } : RequestManager)).inflightTotal
              = 1 := by
            rw [e0]
            exact htot
          have hcc1 : (idView id ({ s with actions := closeActions p s.actions (mapGet s.connections.pending_responses c) } : RequestManager)).inflightAt c
              = 1 := by
            rw [e0]
            exact hcc
          have e1 := view_pend_remove_hit id c
            (pcsUpdate s.connections.peer_connections p c)
            { s with actions := closeActions p s.actions (mapGet s.connections.pending_responses c) }
            htot1 hcc1
          have hres : idView id (on_connection_closed s p c)
              = { idView id s with
                  inflightAt := fun c' => if c' = c then 0
                    else (idView id ({ s with actions := closeActions p s.actions (mapGet s.connections.pending_responses c) }
                        : RequestManager)).inflightAt c',
                  inflightTotal := 0,
                  tr := (idView id s).tr ++ [.outboundFailure p id .connectionClosed] } := by
            rw [on_connection_closed_eq]
            refine e1.trans ?_
            rw [e0]
          refine ⟨.closed, ?_, ?_⟩
          · simp only [InvC1]
            rw [hres]
            exact ⟨rfl, hin, hout, hrule, happ, hconn⟩
          · rw [show (idView id (on_connection_closed s p c)).tr
                = (idView id s).tr ++ [.outboundFailure p id .connectionClosed] from
              by rw [hres]]
            exact SegTrace_trans id 0 1 2 _ _ hT ⟨_, rfl, by simp [isFailureFor]⟩
        · have e0 : idView id ({ s with actions := closeActions p s.actions (mapGet s.connections.pending_responses c) } : RequestManager)
              = { idView id s with
                  tr := (idView id s).tr ++ [.inboundFailure p id .connectionClosed] } := by
            rw [hg]
            exact view_closeActions_hit_in id p pr s ho1 ho2
          have htot1 : (idView id ({ s with actions := closeActions p s.actions (mapGet s.connections.pending_responses c) } : RequestManager)).inflightTotal
              = 1 := by
            rw [e0]
            exact htot
          have hcc1 : (idView id ({ s with actions := closeActions p s.actions (mapGet s.connections.pending_responses c) } : RequestManager)).inflightAt c
              = 1 := by
            rw [e0]
            exact hcc
          have e1 := view_pend_remove_hit id c
            (pcsUpdate s.connections.peer_connections p c)
            { s with actions := closeActions p s.actions (mapGet s.connections.pending_responses c) }
            htot1 hcc1
          have hres : idView id (on_connection_closed s p c)
              = { idView id s with
                  inflightAt := fun c' => if c' = c then 0
                    else (idView id ({ s with actions := closeActions p s.actions (mapGet s.connections.pending_responses c) }
                        : RequestManager)).inflightAt c',
                  inflightTotal := 0,
                  tr := (idView id s).tr ++ [.inboundFailure p id .connectionClosed] } := by
            rw [on_connection_closed_eq]
            refine e1.trans ?_
            rw [e0]
          refine ⟨.closed, ?_, ?_⟩
          · simp only [InvC1]
            rw [hres]
            exact ⟨rfl, hin, hout, hrule, happ, hconn⟩
          · rw [show (idView id (on_connection_closed s p c)).tr
                = (idView id s).tr ++ [.inboundFailure p id .connectionClosed] from
              by rw [hres]]
            exact SegTrace_trans id 0 1 2 _ _ hT ⟨_, rfl, by simp [isFailureFor]⟩
    · have hle := view_inflightAt_le id s c
      rw [htot] at hle
      have h0 : (idView id s).inflightAt c = 0 := by omega
      have hne : c₀ ≠ c := by
        intro hEq
        rw [hEq, h0] at hc₀
        cases hc₀
      have hz : ∀ pr, mapGet s.connections.pending_responses c = some pr →
          pr.outbound_requests.count id = 0 ∧ pr.inbound_requests.count id = 0 := by
        intro pr hg
        rw [show (idView id s).inflightAt c
            = occPend id ((mapGet s.connections.pending_responses c).getD ⟨[], []⟩) from rfl,
          hg] at h0
        simp only [occPend, Option.getD_some] at h0
        omega
      have e0 : idView id ({ s with actions := closeActions p s.actions (mapGet s.connections.pending_responses c) } : RequestManager) = idView id s :=
        view_closeActions_zero id p _ s hz
      have htot1 : (idView id ({ s with actions := closeActions p s.actions (mapGet s.connections.pending_responses c) } : RequestManager)).inflightTotal
          = 1 := by
        rw [e0]
        exact htot
      have h01 : (idView id ({ s with actions := closeActions p s.actions (mapGet s.connections.pending_responses c) } : RequestManager)).inflightAt c
          = 0 := by
        rw [e0]
        exact h0
      have hc01 : (idView id ({ s with actions := closeActions p s.actions (mapGet s.connections.pending_responses c) } : RequestManager)).inflightAt c₀
          = 1 := by
        rw [e0]
        exact hc₀
      have hview : idView id (on_connection_closed s p c) = idView id s := by
        rw [on_connection_closed_eq]
        exact (view_pend_remove_other id c c₀
            (pcsUpdate s.connections.peer_connections p c)
            { s with actions := closeActions p s.actions (mapGet s.connections.pending_responses c) }
            hne htot1 h01 hc01).trans e0
      exact Tracked_of_view id s _ hview
        ⟨.inflight, ⟨htot, ⟨c₀, hc₀⟩, hin, hout, hrule, happ, hconn⟩, hT⟩

theorem mapGet_two_keys {κ β : Type} [DecidableEq κ] (f : β → Nat) (m : List (κ × β))
    (k k' : κ) (v v' : β) (hk : mapGet m k = some v) (hk' : mapGet m k' = some v')
    (hne : k ≠ k') : f v + f v' ≤ (m.map (fun e => f e.2)).sum := by
  have h1 := mapGet_contrib f m k v hk
  have h2 : mapGet (mapRemove m k) k' = some v' := by
    rw [mapGet_mapRemove_ne _ _ _ (Ne.symm hne)]
    exact hk'
  have h3 := mapGet_le_sum f (mapRemove m k) k' v' h2
  omega

theorem view_conn_remove_other (id : RequestId) (p p₀ : PeerId) (s : RequestManager)
    (hne : p₀ ≠ p) (h1 : (idView id s).connTotal = 1) (h0 : (idView id s).connAt p = 0)
    (hp0 : (idView id s).connAt p₀ = 1) :
    idView id { s with awaiting_connection := mapRemove s.awaiting_connection p }
      = idView id s := by
  simp only [idView] at h1 h0 hp0
  apply IdView.ext' <;> simp [idView]
  · intro q
    by_cases hq : q = p
    · subst hq
      rw [mapGet_mapRemove_self]
      simp only [Option.getD_none, List.count_nil]
      omega
    · rw [mapGet_mapRemove_ne _ _ _ hq]
  · have hub : ((mapRemove s.awaiting_connection p).map (fun e => e.2.count id)).sum
        ≤ (s.awaiting_connection.map (fun e => e.2.count id)).sum :=
      sum_mapRemove_le (fun l => l.count id) s.awaiting_connection p
    rcases hg : mapGet s.awaiting_connection p₀ with _ | l₀
    · rw [hg] at hp0
      simp at hp0
    · have hg' : mapGet (mapRemove s.awaiting_connection p) p₀ = some l₀ := by
        rw [mapGet_mapRemove_ne _ _ _ hne, hg]
      have hlb : l₀.count id
          ≤ ((mapRemove s.awaiting_connection p).map (fun e => e.2.count id)).sum :=
        mapGet_le_sum (fun l => l.count id) (mapRemove s.awaiting_connection p) p₀ l₀ hg'
      rw [hg] at hp0
      simp only [Option.getD_some] at hp0
      omega

theorem foldl_fail_hit (id : RequestId) (F : RequestManager → RequestId → RequestManager)
    (upd : IdView → IdView)
    (hFrame : ∀ s rid, rid ≠ id → idView id (F s rid) = idView id s)
    (hHit : ∀ s, idView id (F s id) = upd (idView id s)) :
    ∀ (l : List RequestId) (s : RequestManager), l.count id = 1 →
      idView id (l.foldl F s) = upd (idView id s) := by
  intro l s hc
  obtain ⟨l₁, l₂, hl, h1, h2⟩ := count_one_split id l hc
  subst hl
  rw [List.foldl_append, List.foldl_cons]
  rw [foldl_view_frame id F hFrame l₂ _ h2, hHit, foldl_view_frame id F hFrame l₁ s h1]

theorem step_dialFailure (id : RequestId) (p : PeerId) (s : RequestManager)
    (ht : Tracked id s) : Tracked id (on_dial_failure s p) := by
  obtain ⟨ph, hI, hT⟩ := ht
  rw [on_dial_failure]
  rcases hg : mapGet s.awaiting_connection p with _ | requests
  · exact ⟨ph, hI, hT⟩
  · dsimp only
    have hcnt : (idView id s).connAt p = requests.count id := by
      rw [show (idView id s).connAt p
          = ((mapGet s.awaiting_connection p).getD []).count id from rfl, hg]
      rfl
    cases ph with
    | inRule p0 d0 =>
      obtain ⟨hr1, hr2, hst, happ, hconn, hinf⟩ := hI
      have hle := view_connAt_le id s p
      rw [hconn] at hle
      have hc0 : requests.count id = 0 := by omega
      have hview : idView id (requests.foldl (failDialStep p)
          { s with awaiting_connection := mapRemove s.awaiting_connection p })
          = idView id s :=
        (foldl_view_frame id (failDialStep p) (fun s2 rid h => failDialStep_frame id rid p s2 h)
            requests _ hc0).trans
          (view_conn_remove_zero id p s hconn)
      exact Tracked_of_view id s _ hview ⟨.inRule p0 d0, ⟨hr1, hr2, hst, happ, hconn, hinf⟩, hT⟩
    | inApproval d0 =>
      obtain ⟨happ, hst, hrule, hconn, hinf⟩ := hI
      have hle := view_connAt_le id s p
      rw [hconn] at hle
      have hc0 : requests.count id = 0 := by omega
      have hview : idView id (requests.foldl (failDialStep p)
          { s with awaiting_connection := mapRemove s.awaiting_connection p })
          = idView id s :=
        (foldl_view_frame id (failDialStep p) (fun s2 rid h => failDialStep_frame id rid p s2 h)
            requests _ hc0).trans
          (view_conn_remove_zero id p s hconn)
      exact Tracked_of_view id s _ hview ⟨.inApproval d0, ⟨happ, hst, hrule, hconn, hinf⟩, hT⟩
    | inflight =>
      obtain ⟨htot, hex, hin, hout, hrule, happ, hconn⟩ := hI
      have hle := view_connAt_le id s p
      rw [hconn] at hle
      have hc0 : requests.count id = 0 := by omega
      have hview : idView id (requests.foldl (failDialStep p)
          { s with awaiting_connection := mapRemove s.awaiting_connection p })
          = idView id s :=
        (foldl_view_frame id (failDialStep p) (fun s2 rid h => failDialStep_frame id rid p s2 h)
            requests _ hc0).trans
          (view_conn_remove_zero id p s hconn)
      exact Tracked_of_view id s _ hview
        ⟨.inflight, ⟨htot, hex, hin, hout, hrule, happ, hconn⟩, hT⟩
    | closed =>
      obtain ⟨hinf, hin, hout, hrule, happ, hconn⟩ := hI
      have hle := view_connAt_le id s p
      rw [hconn] at hle
      have hc0 : requests.count id = 0 := by omega
      have hview : idView id (requests.foldl (failDialStep p)
          { s with awaiting_connection := mapRemove s.awaiting_connection p })
          = idView id s :=
        (foldl_view_frame id (failDialStep p) (fun s2 rid h => failDialStep_frame id rid p s2 h)
            requests _ hc0).trans
          (view_conn_remove_zero id p s hconn)
      exact Tracked_of_view id s _ hview
        ⟨.closed, ⟨hinf, hin, hout, hrule, happ, hconn⟩, hT⟩
    | inConn p0 =>
      obtain ⟨htot, hat, hst, hrule, happ, hinf⟩ := hI
      obtain ⟨houts, hins⟩ := hst
      by_cases hpp : p0 = p
      · subst hpp
        have hc1 : requests.count id = 1 := by rw [← hcnt]; exact hat
        have e2 : idView id ({ s with
            awaiting_connection := mapRemove s.awaiting_connection p0 } : RequestManager)
            = { idView id s with
                connAt := fun q => if q = p0 then 0 else (idView id s).connAt q,
                connTotal := 0 } :=
          view_conn_remove_hit id p0 s htot hat
        have e3 := foldl_fail_hit id (failDialStep p0)
          (fun v => { v with
            outStore := none,
            tr := v.tr ++ [.outboundFailure p0 id .dialFailure] })
          (fun s2 rid h => failDialStep_frame id rid p0 s2 h)
          (fun s2 => failDialStep_hit id p0 s2)
          requests
          { s with awaiting_connection := mapRemove s.awaiting_connection p0 }
          hc1
        rw [e2] at e3
        refine ⟨.closed, ?_, ?_⟩
        · simp only [InvC1]
          rw [e3]
          exact ⟨hinf, hins, rfl, hrule, happ, rfl⟩
        · rw [show (idView id (requests.foldl (failDialStep p0)
              { s with awaiting_connection := mapRemove s.awaiting_connection p0 })).tr
              = (idView id s).tr ++ [.outboundFailure p0 id .dialFailure] from by rw [e3]]
          exact SegTrace_trans id 0 0 2 _ _ hT (Or.inl ⟨_, rfl, by simp [isFailureFor]⟩)
      · have hp0g : ∃ l₀, mapGet s.awaiting_connection p0 = some l₀ := by
          rcases hgx : mapGet s.awaiting_connection p0 with _ | l₀
          · exfalso
            rw [show (idView id s).connAt p0
                = ((mapGet s.awaiting_connection p0).getD []).count id from rfl, hgx] at hat
            simp at hat
          · exact ⟨l₀, rfl⟩
        obtain ⟨l₀, hgx⟩ := hp0g
        have hl₀ : l₀.count id = 1 := by
          rw [show (idView id s).connAt p0
              = ((mapGet s.awaiting_connection p0).getD []).count id from rfl, hgx] at hat
          exact hat
        have htwo : l₀.count id + requests.count id
            ≤ (s.awaiting_connection.map (fun e => e.2.count id)).sum :=
          mapGet_two_keys (fun l => l.count id) s.awaiting_connection p0 p l₀ requests
            hgx hg hpp
        have htot' : (s.awaiting_connection.map (fun e => e.2.count id)).sum = 1 := htot
        have hc0 : requests.count id = 0 := by omega
        have h0 : (idView id s).connAt p = 0 := by rw [hcnt]; exact hc0
        have hview : idView id (requests.foldl (failDialStep p)
            { s with awaiting_connection := mapRemove s.awaiting_connection p })
            = idView id s :=
          (foldl_view_frame id (failDialStep p)
              (fun s2 rid h => failDialStep_frame id rid p s2 h) requests _ hc0).trans
            (view_conn_remove_other id p p0 s hpp htot h0 hat)
        exact Tracked_of_view id s _ hview
          ⟨.inConn p0, ⟨htot, hat, ⟨houts, hins⟩, hrule, happ, hinf⟩, hT⟩

theorem step_peerConnected (id : RequestId) (p : PeerId) (s s' : RequestManager)
    (h : on_peer_connectedCore s p = some s') (ht : Tracked id s) : Tracked id s' := by
  obtain ⟨ph, hI, hT⟩ := ht
  rw [on_peer_connectedCore] at h
  by_cases hcon : (!s.connections.is_connected p) = true
  · rw [if_pos hcon] at h
    cases h
    exact ⟨ph, hI, hT⟩
  · rw [if_neg hcon] at h
    rcases hg : mapGet s.awaiting_connection p with _ | requests <;> rw [hg] at h
    · cases h
      exact ⟨ph, hI, hT⟩
    · have hcnt : (idView id s).connAt p = requests.count id := by
        rw [show (idView id s).connAt p
            = ((mapGet s.awaiting_connection p).getD []).count id from rfl, hg]
        rfl
      cases ph with
      | inRule p0 d0 =>
        obtain ⟨hr1, hr2, hst, happ, hconn, hinf⟩ := hI
        have hle := view_connAt_le id s p
        rw [hconn] at hle
        have hc0 : requests.count id = 0 := by omega
        have hview : idView id s' = idView id s :=
          (flushPending_frame id requests _ s' hc0 h).trans
            (view_conn_remove_zero id p s hconn)
        exact Tracked_of_view id s s' hview
          ⟨.inRule p0 d0, ⟨hr1, hr2, hst, happ, hconn, hinf⟩, hT⟩
      | inApproval d0 =>
        obtain ⟨happ, hst, hrule, hconn, hinf⟩ := hI
        have hle := view_connAt_le id s p
        rw [hconn] at hle
        have hc0 : requests.count id = 0 := by omega
        have hview : idView id s' = idView id s :=
          (flushPending_frame id requests _ s' hc0 h).trans
            (view_conn_remove_zero id p s hconn)
        exact Tracked_of_view id s s' hview
          ⟨.inApproval d0, ⟨happ, hst, hrule, hconn, hinf⟩, hT⟩
      | inflight =>
        obtain ⟨htot, hex, hin, hout, hrule, happ, hconn⟩ := hI
        have hle := view_connAt_le id s p
        rw [hconn] at hle
        have hc0 : requests.count id = 0 := by omega
        have hview : idView id s' = idView id s :=
          (flushPending_frame id requests _ s' hc0 h).trans
            (view_conn_remove_zero id p s hconn)
        exact Tracked_of_view id s s' hview
          ⟨.inflight, ⟨htot, hex, hin, hout, hrule, happ, hconn⟩, hT⟩
      | closed =>
        obtain ⟨hinf, hin, hout, hrule, happ, hconn⟩ := hI
        have hle := view_connAt_le id s p
        rw [hconn] at hle
        have hc0 : requests.count id = 0 := by omega
        have hview : idView id s' = idView id s :=
          (flushPending_frame id requests _ s' hc0 h).trans
            (view_conn_remove_zero id p s hconn)
        exact Tracked_of_view id s s' hview
          ⟨.closed, ⟨hinf, hin, hout, hrule, happ, hconn⟩, hT⟩
      | inConn p0 =>
        obtain ⟨htot, hat, hst, hrule, happ, hinf⟩ := hI
        obtain ⟨houts, hins⟩ := hst
        by_cases hpp : p0 = p
        · subst hpp
          have hc1 : requests.count id = 1 := by
            rw [← hcnt]
            exact hat
          obtain ⟨l₁, l₂, hl, hcl1, hcl2⟩ := count_one_split id requests hc1
          subst hl
          dsimp only at h
          rw [flushPending_append] at h
          rcases hfl : flushPending
              ({ s with awaiting_connection := mapRemove s.awaiting_connection p0 }
                : RequestManager) l₁ with _ | t <;> rw [hfl] at h
          · cases h
          · have et : idView id t
                = { idView id s with
                    connAt := fun q => if q = p0 then 0 else (idView id s).connAt q,
                    connTotal := 0 } :=
              (flushPending_frame id l₁ _ t hcl1 hfl).trans
                (view_conn_remove_hit id p0 s htot hat)
            rcases hmo : mapGet t.outbound_request_store id with _ | pr
            · exfalso
              have h1 : (idView id t).outStore = mapGet t.outbound_request_store id := rfl
              rw [et] at h1
              dsimp only at h1
              rw [hmo] at h1
              rw [h1] at houts
              simp at houts
            · rcases pr with ⟨peer2, req⟩
              simp only [flushPending, take_stored_request_outbound] at h
              rw [hmo] at h
              dsimp only at h
              rcases hatt : t.connections.add_request peer2 id .outbound
                  with _ | ⟨conn, conns'⟩ <;> rw [hatt] at h
              · cases h
              · have e_take : idView id
                    ({ t with outbound_request_store := mapRemove t.outbound_request_store id }
                      : RequestManager)
                    = { idView id t with outStore := none } :=
                  view_take_stored_hit id .outbound t
                have hfin : idView id s'
                    = { idView id s with
                        outStore := none,
                        connAt := fun q => if q = p0 then 0 else (idView id s).connAt q,
                        connTotal := 0,
                        inflightAt := fun c' =>
                          if c' = conn then (idView id s).inflightAt c' + 1
                          else (idView id s).inflightAt c',
                        inflightTotal := (idView id s).inflightTotal + 1,
                        tr := (idView id s).tr ++ [.outboundReady id peer2 conn req] } := by
                  refine (flushPending_frame id l₂ _ s' hcl2 h).trans ?_
                  refine (view_push_hit id (.outboundReady id peer2 conn req)
                      { ({ t with
                          outbound_request_store := mapRemove t.outbound_request_store id }
                        : RequestManager) with connections := conns' }
                      (by simp [isTerminalFor, isReadyFor])).trans ?_
                  rw [view_attach_hit id peer2 .outbound
                      { t with outbound_request_store := mapRemove t.outbound_request_store id }
                      conn conns' hatt]
                  rw [e_take, et]
                refine ⟨.inflight, ?_, ?_⟩
                · simp only [InvC1]
                  rw [hfin]
                  refine ⟨by rw [hinf], ⟨conn, ?_⟩, hins, rfl, hrule, happ, rfl⟩
                  have hle := view_inflightAt_le id s conn
                  rw [hinf] at hle
                  show (if conn = conn then (idView id s).inflightAt conn + 1
                    else (idView id s).inflightAt conn) = 1
                  rw [if_pos rfl]
                  omega
                · rw [show (idView id s').tr
                      = (idView id s).tr ++ [.outboundReady id peer2 conn req] from
                    by rw [hfin]]
                  exact SegTrace_trans id 0 0 1 _ _ hT ⟨_, rfl, by simp [isReadyFor]⟩
        · have hp0some : ∃ l₀, mapGet s.awaiting_connection p0 = some l₀ := by
            rcases hgx : mapGet s.awaiting_connection p0 with _ | l₀
            · exfalso
              rw [show (idView id s).connAt p0
                  = ((mapGet s.awaiting_connection p0).getD []).count id from rfl, hgx] at hat
              simp at hat
            · exact ⟨l₀, rfl⟩
          obtain ⟨l₀, hgx⟩ := hp0some
          have hl₀ : l₀.count id = 1 := by
            rw [show (idView id s).connAt p0
                = ((mapGet s.awaiting_connection p0).getD []).count id from rfl, hgx] at hat
            exact hat
          have htwo : l₀.count id + requests.count id
              ≤ (s.awaiting_connection.map (fun e => e.2.count id)).sum :=
            mapGet_two_keys (fun l => l.count id) s.awaiting_connection p0 p l₀ requests
              hgx hg hpp
          have htot' : (s.awaiting_connection.map (fun e => e.2.count id)).sum = 1 := htot
          have hc0 : requests.count id = 0 := by omega
          have h0 : (idView id s).connAt p = 0 := by
            rw [hcnt]
            exact hc0
          have hat' : (idView id s).connAt p0 = 1 := by
            rw [show (idView id s).connAt p0
                = ((mapGet s.awaiting_connection p0).getD []).count id from rfl, hgx]
            exact hl₀
          have hview : idView id s' = idView id s :=
            (flushPending_frame id requests _ s' hc0 h).trans
              (view_conn_remove_other id p p0 s hpp htot h0 hat')
          exact Tracked_of_view id s s' hview
            ⟨.inConn p0, ⟨htot, hat', ⟨houts, hins⟩, hrule, happ, hinf⟩, hT⟩

theorem failNoRuleStep_apr (peer : PeerId) (d : RequestDirection) (s : RequestManager)
    (rid : RequestId) :
    (failNoRuleStep peer d s rid).awaiting_peer_rule = s.awaiting_peer_rule := by
  cases d <;> rfl

theorem foldl_apr (F : RequestManager → RequestId → RequestManager)
    (hF : ∀ s rid, (F s rid).awaiting_peer_rule = s.awaiting_peer_rule) :
    ∀ (l : List RequestId) (s : RequestManager),
      (l.foldl F s).awaiting_peer_rule = s.awaiting_peer_rule := by
  intro l
  induction l with
  | nil => intro s; rfl
  | cons a t ih =>
    intro s
    rw [List.foldl_cons, ih, hF]

theorem occRuleInner_mapRemove_le (id : RequestId)
    (m : List (RequestDirection × List RequestId)) (d : RequestDirection) :
    occRuleInner id (mapRemove m d) ≤ occRuleInner id m := by
  exact sum_mapRemove_le (fun l : List RequestId => l.count id) m d

theorem view_rule_remove_other (id : RequestId) (p p₀ : PeerId) (s : RequestManager)
    (hne : p₀ ≠ p) (h1 : (idView id s).ruleTotal = 1)
    (ar₀ : List (RequestDirection × List RequestId))
    (hg0 : mapGet s.awaiting_peer_rule p₀ = some ar₀) (ho : occRuleInner id ar₀ = 1) :
    idView id { s with awaiting_peer_rule := mapRemove s.awaiting_peer_rule p }
      = idView id s := by
  simp only [idView] at h1
  apply IdView.ext' <;> simp [idView]
  · intro q d
    by_cases hq : q = p
    · subst hq
      rw [mapGet_mapRemove_self]
      simp only [Option.getD_none, mapGet, List.count_nil]
      rcases hg : mapGet s.awaiting_peer_rule q with _ | ar
      · simp [mapGet]
      · have htwo : occRuleInner id ar + occRuleInner id ar₀
            ≤ (s.awaiting_peer_rule.map (fun e => occRuleInner id e.2)).sum :=
          mapGet_two_keys (occRuleInner id) s.awaiting_peer_rule q p₀ ar ar₀ hg hg0
            (fun hEq => hne hEq.symm)
        have hocc : occRuleInner id ar = 0 := by omega
        rcases hd : mapGet ar d with _ | l
        · simp [hd]
        · have h2 : l.count id ≤ (ar.map (fun e => e.2.count id)).sum :=
            mapGet_le_sum (fun l => l.count id) ar d l hd
          have h3 : (ar.map (fun e => e.2.count id)).sum = occRuleInner id ar := rfl
          simp only [hd, Option.getD_some]
          omega
    · rw [mapGet_mapRemove_ne _ _ _ hq]
  · have hub : ((mapRemove s.awaiting_peer_rule p).map (fun e => occRuleInner id e.2)).sum
        ≤ (s.awaiting_peer_rule.map (fun e => occRuleInner id e.2)).sum :=
      sum_mapRemove_le (occRuleInner id) s.awaiting_peer_rule p
    have hg0' : mapGet (mapRemove s.awaiting_peer_rule p) p₀ = some ar₀ := by
      rw [mapGet_mapRemove_ne _ _ _ hne, hg0]
    have hlb : occRuleInner id ar₀
        ≤ ((mapRemove s.awaiting_peer_rule p).map (fun e => occRuleInner id e.2)).sum :=
      mapGet_le_sum (occRuleInner id) (mapRemove s.awaiting_peer_rule p) p₀ ar₀ hg0'
    omega

theorem view_rule_insert_zero (id : RequestId) (p : PeerId)
    (ar : List (RequestDirection × List RequestId)) (s : RequestManager)
    (hnone : mapGet s.awaiting_peer_rule p = none)
    (hocc : occRuleInner id ar = 0) (hAt : ∀ d, (idView id s).ruleAt p d = 0) :
    idView id { s with awaiting_peer_rule := mapInsert s.awaiting_peer_rule p ar }
      = idView id s := by
  rw [view_rule_insert id p ar s hnone]
  have hcnt : ∀ d, ((mapGet ar d).getD []).count id = 0 := by
    intro d
    rcases hd : mapGet ar d with _ | l
    · simp
    · have h2 : l.count id ≤ (ar.map (fun e => e.2.count id)).sum :=
        mapGet_le_sum (fun l => l.count id) ar d l hd
      have h3 : (ar.map (fun e => e.2.count id)).sum = occRuleInner id ar := rfl
      simp only [Option.getD_some]
      omega
  refine IdView.ext' _ _ rfl rfl rfl (fun q => rfl) rfl ?_ ?_ (fun c => rfl) rfl rfl
  · intro q d
    by_cases hq : q = p
    · subst hq
      show (if q = q then ((mapGet ar d).getD []).count id else (idView id s).ruleAt q d)
        = (idView id s).ruleAt q d
      rw [if_pos rfl, hcnt d, hAt d]
    · show (if q = p then ((mapGet ar d).getD []).count id else (idView id s).ruleAt q d)
        = (idView id s).ruleAt q d
      rw [if_neg hq]
  · show (idView id s).ruleTotal + occRuleInner id ar = (idView id s).ruleTotal
    rw [hocc]
    omega

theorem map_fst_ne (id : RequestId) (l : List RequestId) (d : RequestDirection)
    (h : l.count id = 0) :
    ∀ e ∈ l.map (fun rq => ((rq, d) : RequestId × RequestDirection)), e.1 ≠ id := by
  intro e he
  obtain ⟨rq, hrq, hEq⟩ := List.mem_map.mp he
  subst hEq
  intro hEq1
  rw [List.count_eq_zero] at h
  exact h (hEq1 ▸ hrq)

theorem isEmpty_false_of_mapGet {κ β : Type} [DecidableEq κ] (m : List (κ × β)) (k : κ)
    (v : β) (h : mapGet m k = some v) : m.isEmpty = false := by
  cases m with
  | nil => cases h
  | cons e t => rfl

/-- One direction's drain loop of `on_no_peer_rule`. -/
def noRuleDrain (p : PeerId) (d : RequestDirection) (o : Option (List RequestId))
    (s : RequestManager) : RequestManager :=
  match o with
  | some reqs => reqs.foldl (failNoRuleStep p d) s
  | none => s

/-- The reinsertion of the undrained directions at the end of `on_peer_rule`
and `on_no_peer_rule`. -/
def ruleReinsert (p : PeerId) (ar : List (RequestDirection × List RequestId))
    (s : RequestManager) : RequestManager :=
  if ar.isEmpty then s
  else { s with awaiting_peer_rule := mapInsert s.awaiting_peer_rule p ar }

theorem on_no_peer_rule_eq (s : RequestManager) (p : PeerId) (rdir : RuleDirection)
    (ar0 : List (RequestDirection × List RequestId))
    (hg : mapGet s.awaiting_peer_rule p = some ar0) :
    on_no_peer_rule s p rdir
      = ruleReinsert p
          (if rdir.is_outbound then
            mapRemove (if rdir.is_inbound then mapRemove ar0 .inbound else ar0) .outbound
          else if rdir.is_inbound then mapRemove ar0 .inbound else ar0)
          (noRuleDrain p .outbound
            (if rdir.is_outbound then
              mapGet (if rdir.is_inbound then mapRemove ar0 .inbound else ar0) .outbound
            else none)
            (noRuleDrain p .inbound
              (if rdir.is_inbound then mapGet ar0 .inbound else none)
              { s with awaiting_peer_rule := mapRemove s.awaiting_peer_rule p })) := by
  rw [on_no_peer_rule, hg]
  rcases hbi : rdir.is_inbound with _ | _ <;>
    rcases hbo : rdir.is_outbound with _ | _ <;>
      rfl

theorem count_inner_le (id : RequestId) (ar : List (RequestDirection × List RequestId))
    (d : RequestDirection) : ((mapGet ar d).getD []).count id ≤ occRuleInner id ar := by
  rcases hd : mapGet ar d with _ | l
  · simp
  · have h2 : l.count id ≤ (ar.map (fun e => e.2.count id)).sum :=
      mapGet_le_sum (fun l => l.count id) ar d l hd
    have h3 : (ar.map (fun e => e.2.count id)).sum = occRuleInner id ar := rfl
    simp only [Option.getD_some]
    omega

theorem mapRemove_comm {κ β : Type} [DecidableEq κ] :
    ∀ (m : List (κ × β)) (a b : κ), mapRemove (mapRemove m a) b = mapRemove (mapRemove m b) a := by
  intro m a b
  induction m with
  | nil => rfl
  | cons e t ih =>
    by_cases ha : e.1 = a <;> by_cases hb : e.1 = b
    · have hab : a = b := ha.symm.trans hb
      subst hab
      rfl
    · rw [show mapRemove (e :: t) a = mapRemove t a from by rw [mapRemove, if_pos ha],
        show mapRemove (e :: t) b = e :: mapRemove t b from by rw [mapRemove, if_neg hb],
        show mapRemove (e :: mapRemove t b) a = mapRemove (mapRemove t b) a from by
          rw [mapRemove, if_pos ha],
        ih]
    · rw [show mapRemove (e :: t) a = e :: mapRemove t a from by rw [mapRemove, if_neg ha],
        show mapRemove (e :: t) b = mapRemove t b from by rw [mapRemove, if_pos hb],
        show mapRemove (e :: mapRemove t a) b = mapRemove (mapRemove t a) b from by
          rw [mapRemove, if_pos hb],
        ih]
    · rw [show mapRemove (e :: t) a = e :: mapRemove t a from by rw [mapRemove, if_neg ha],
        show mapRemove (e :: t) b = e :: mapRemove t b from by rw [mapRemove, if_neg hb],
        show mapRemove (e :: mapRemove t a) b = e :: mapRemove (mapRemove t a) b from by
          rw [mapRemove, if_neg hb],
        show mapRemove (e :: mapRemove t b) a = e :: mapRemove (mapRemove t b) a from by
          rw [mapRemove, if_neg ha],
        ih]

theorem noRuleDrain_frame (id : RequestId) (p : PeerId) (d : RequestDirection)
    (o : Option (List RequestId)) (s : RequestManager)
    (ho : ∀ l, o = some l → l.count id = 0) :
    idView id (noRuleDrain p d o s) = idView id s := by
  rcases o with _ | l
  · rfl
  · exact foldl_view_frame id (failNoRuleStep p d)
      (fun s2 rid h => failNoRuleStep_frame id rid p d s2 h) l s (ho l rfl)

theorem noRuleDrain_apr (p : PeerId) (d : RequestDirection) (o : Option (List RequestId))
    (s : RequestManager) :
    (noRuleDrain p d o s).awaiting_peer_rule = s.awaiting_peer_rule := by
  rcases o with _ | l
  · rfl
  · exact foldl_apr (failNoRuleStep p d) (fun s2 rid => failNoRuleStep_apr p d s2 rid) l s

theorem ruleReinsert_frame (id : RequestId) (p : PeerId)
    (ar : List (RequestDirection × List RequestId)) (s : RequestManager)
    (hnone : mapGet s.awaiting_peer_rule p = none)
    (hocc : occRuleInner id ar = 0) (hAt : ∀ d, (idView id s).ruleAt p d = 0) :
    idView id (ruleReinsert p ar s) = idView id s := by
  rw [ruleReinsert]
  by_cases he : ar.isEmpty
  · rw [if_pos he]
  · rw [if_neg he]
    exact view_rule_insert_zero id p ar s hnone hocc hAt

theorem noPeerRule_frame (id : RequestId) (p : PeerId) (rdir : RuleDirection)
    (s : RequestManager) (ar0 : List (RequestDirection × List RequestId))
    (hg : mapGet s.awaiting_peer_rule p = some ar0)
    (hocc0 : occRuleInner id ar0 = 0)
    (hrm : idView id { s with awaiting_peer_rule := mapRemove s.awaiting_peer_rule p }
      = idView id s) :
    idView id (on_no_peer_rule s p rdir) = idView id s := by
  rw [on_no_peer_rule_eq s p rdir ar0 hg]
  have hin0 : ∀ l, (if rdir.is_inbound then mapGet ar0 .inbound else none) = some l →
      l.count id = 0 := by
    intro l hl
    by_cases hb : rdir.is_inbound = true
    · rw [if_pos hb] at hl
      have h2 := count_inner_le id ar0 .inbound
      rw [hl, hocc0] at h2
      simpa using h2
    · rw [if_neg hb] at hl
      cases hl
  have hA1 : occRuleInner id (if rdir.is_inbound then mapRemove ar0 .inbound else ar0)
      = 0 := by
    by_cases hb : rdir.is_inbound = true
    · rw [if_pos hb]
      have := occRuleInner_mapRemove_le id ar0 .inbound
      omega
    · rw [if_neg hb]
      exact hocc0
  have hout0 : ∀ l, (if rdir.is_outbound then
      mapGet (if rdir.is_inbound then mapRemove ar0 .inbound else ar0) .outbound
      else none) = some l → l.count id = 0 := by
    intro l hl
    by_cases hb : rdir.is_outbound = true
    · rw [if_pos hb] at hl
      have h2 := count_inner_le id (if rdir.is_inbound then mapRemove ar0 .inbound else ar0)
        .outbound
      rw [hl, hA1] at h2
      simpa using h2
    · rw [if_neg hb] at hl
      cases hl
  have hA2 : occRuleInner id (if rdir.is_outbound then
      mapRemove (if rdir.is_inbound then mapRemove ar0 .inbound else ar0) .outbound
      else if rdir.is_inbound then mapRemove ar0 .inbound else ar0) = 0 := by
    by_cases hb : rdir.is_outbound = true
    · rw [if_pos hb]
      have := occRuleInner_mapRemove_le id
        (if rdir.is_inbound then mapRemove ar0 .inbound else ar0) .outbound
      omega
    · rw [if_neg hb]
      exact hA1
  have e2 : idView id (noRuleDrain p .inbound
      (if rdir.is_inbound then mapGet ar0 .inbound else none)
      { s with awaiting_peer_rule := mapRemove s.awaiting_peer_rule p }) = idView id s :=
    (noRuleDrain_frame id p .inbound _ _ hin0).trans hrm
  have e3 : idView id (noRuleDrain p .outbound
      (if rdir.is_outbound then
        mapGet (if rdir.is_inbound then mapRemove ar0 .inbound else ar0) .outbound
      else none)
      (noRuleDrain p .inbound
        (if rdir.is_inbound then mapGet ar0 .inbound else none)
        { s with awaiting_peer_rule := mapRemove s.awaiting_peer_rule p })) = idView id s :=
    (noRuleDrain_frame id p .outbound _ _ hout0).trans e2
  refine (ruleReinsert_frame id p _ _ ?_ hA2 ?_).trans e3
  · rw [noRuleDrain_apr, noRuleDrain_apr]
    exact mapGet_mapRemove_self _ _
  · intro d
    rw [e3]
    rw [show (idView id s).ruleAt p d
        = ((mapGet ((mapGet s.awaiting_peer_rule p).getD []) d).getD []).count id from rfl,
      hg]
    have h2 := count_inner_le id ar0 d
    simp only [Option.getD_some]
    omega

theorem step_noPeerRule (id : RequestId) (p : PeerId) (rdir : RuleDirection)
    (s : RequestManager) (ht : Tracked id s) : Tracked id (on_no_peer_rule s p rdir) := by
  obtain ⟨ph, hI, hT⟩ := ht
  rcases hg : mapGet s.awaiting_peer_rule p with _ | ar0
  · have hid : on_no_peer_rule s p rdir = s := by
      rw [on_no_peer_rule, hg]
    rw [hid]
    exact ⟨ph, hI, hT⟩
  · have hocc_le : occRuleInner id ar0
        ≤ (s.awaiting_peer_rule.map (fun e => occRuleInner id e.2)).sum :=
      mapGet_le_sum (occRuleInner id) s.awaiting_peer_rule p ar0 hg
    cases ph with
    | inApproval d0 =>
      obtain ⟨happ, hst, hrule, hconn, hinf⟩ := hI
      have hrt' : (s.awaiting_peer_rule.map (fun e => occRuleInner id e.2)).sum = 0 := hrule
      have hocc0 : occRuleInner id ar0 = 0 := by omega
      exact Tracked_of_view id s _ (noPeerRule_frame id p rdir s ar0 hg hocc0
          (view_rule_remove_zero id p s hrule))
        ⟨.inApproval d0, ⟨happ, hst, hrule, hconn, hinf⟩, hT⟩
    | inConn p0 =>
      obtain ⟨hc1, hc2, hst, hrule, happ, hinf⟩ := hI
      have hrt' : (s.awaiting_peer_rule.map (fun e => occRuleInner id e.2)).sum = 0 := hrule
      have hocc0 : occRuleInner id ar0 = 0 := by omega
      exact Tracked_of_view id s _ (noPeerRule_frame id p rdir s ar0 hg hocc0
          (view_rule_remove_zero id p s hrule))
        ⟨.inConn p0, ⟨hc1, hc2, hst, hrule, happ, hinf⟩, hT⟩
    | inflight =>
      obtain ⟨h1, h2, h3, h4, hrule, h6, h7⟩ := hI
      have hrt' : (s.awaiting_peer_rule.map (fun e => occRuleInner id e.2)).sum = 0 := hrule
      have hocc0 : occRuleInner id ar0 = 0 := by omega
      exact Tracked_of_view id s _ (noPeerRule_frame id p rdir s ar0 hg hocc0
          (view_rule_remove_zero id p s hrule))
        ⟨.inflight, ⟨h1, h2, h3, h4, hrule, h6, h7⟩, hT⟩
    | closed =>
      obtain ⟨h1, h2, h3, hrule, h5, h6⟩ := hI
      have hrt' : (s.awaiting_peer_rule.map (fun e => occRuleInner id e.2)).sum = 0 := hrule
      have hocc0 : occRuleInner id ar0 = 0 := by omega
      exact Tracked_of_view id s _ (noPeerRule_frame id p rdir s ar0 hg hocc0
          (view_rule_remove_zero id p s hrule))
        ⟨.closed, ⟨h1, h2, h3, hrule, h5, h6⟩, hT⟩
    | inRule p0 d0 =>
      obtain ⟨hrt, hra, hst, happ, hconn, hinf⟩ := hI
      by_cases hpp : p0 = p
      · subst hpp
        have hcnt1 : ((mapGet ar0 d0).getD []).count id = 1 := by
          have h0 : (idView id s).ruleAt p0 d0 = ((mapGet ar0 d0).getD []).count id := by
            show ((mapGet ((mapGet s.awaiting_peer_rule p0).getD []) d0).getD []).count id = _
            rw [hg]
            rfl
          rw [← h0]
          exact hra
        have hld0 : ∃ l, mapGet ar0 d0 = some l := by
          rcases hmd : mapGet ar0 d0 with _ | l
          · rw [hmd] at hcnt1
            simp at hcnt1
          · exact ⟨l, rfl⟩
        obtain ⟨ld0, hld0⟩ := hld0
        have hcnt1' : ld0.count id = 1 := by
          rw [hld0] at hcnt1
          simpa using hcnt1
        have hrt' : (s.awaiting_peer_rule.map (fun e => occRuleInner id e.2)).sum = 1 := hrt
        have hocc1 : occRuleInner id ar0 = 1 := by
          have hge1 := count_inner_le id ar0 d0
          rw [hld0] at hge1
          simp only [Option.getD_some] at hge1
          omega
        have hoccRem : occRuleInner id (mapRemove ar0 d0) = 0 := by
          have hco : ld0.count id + occRuleInner id (mapRemove ar0 d0)
              ≤ occRuleInner id ar0 :=
            mapGet_contrib (fun l => l.count id) ar0 d0 ld0 hld0
          omega
        have hrm := view_rule_remove_hit id p0 s ar0 hg hrt hocc1
        rw [on_no_peer_rule_eq s p0 rdir ar0 hg]
        cases d0 with
        | inbound =>
          rcases hbi : rdir.is_inbound with _ | _
          · simp only [Bool.false_eq_true, if_false]
            have hout0 : ∀ l, (if rdir.is_outbound then mapGet ar0 .outbound else none)
                = some l → l.count id = 0 := by
              intro l hl
              by_cases hb : rdir.is_outbound = true
              · rw [if_pos hb] at hl
                have h2 : ((mapGet (mapRemove ar0 .inbound) .outbound).getD []).count id
                    ≤ occRuleInner id (mapRemove ar0 .inbound) :=
                  count_inner_le id (mapRemove ar0 .inbound) .outbound
                rw [mapGet_mapRemove_ne _ _ _ (by simp), hl, hoccRem] at h2
                simpa using h2
              · rw [if_neg hb] at hl
                cases hl
            have e3 : idView id (noRuleDrain p0 .outbound
                (if rdir.is_outbound then mapGet ar0 .outbound else none)
                (noRuleDrain p0 .inbound none
                  { s with awaiting_peer_rule := mapRemove s.awaiting_peer_rule p0 }))
                = { idView id s with
                    ruleAt := fun q d => if q = p0 then 0 else (idView id s).ruleAt q d,
                    ruleTotal := 0 } :=
              (noRuleDrain_frame id p0 .outbound _ _ hout0).trans hrm
            have hA2get : mapGet (if rdir.is_outbound then mapRemove ar0 .outbound else ar0)
                .inbound = some ld0 := by
              by_cases hb : rdir.is_outbound = true
              · rw [if_pos hb, mapGet_mapRemove_ne _ _ _ (by simp), hld0]
              · rw [if_neg hb, hld0]
            have hA2occ : occRuleInner id
                (if rdir.is_outbound then mapRemove ar0 .outbound else ar0) = 1 := by
              have hub : occRuleInner id
                  (if rdir.is_outbound then mapRemove ar0 .outbound else ar0)
                  ≤ occRuleInner id ar0 := by
                by_cases hb : rdir.is_outbound = true
                · rw [if_pos hb]
                  exact occRuleInner_mapRemove_le id ar0 .outbound
                · rw [if_neg hb]
              have hlb := count_inner_le id
                (if rdir.is_outbound then mapRemove ar0 .outbound else ar0) .inbound
              rw [hA2get] at hlb
              simp only [Option.getD_some] at hlb
              omega
            have hemp : (if rdir.is_outbound then mapRemove ar0 .outbound else ar0).isEmpty
                = false := isEmpty_false_of_mapGet _ _ _ hA2get
            rw [ruleReinsert, hemp]
            simp only [Bool.false_eq_true, if_false]
            have hnone : mapGet (noRuleDrain p0 .outbound
                (if rdir.is_outbound then mapGet ar0 .outbound else none)
                (noRuleDrain p0 .inbound none
                  { s with
                    awaiting_peer_rule :=
                      mapRemove s.awaiting_peer_rule p0 })).awaiting_peer_rule p0
                = none := by
              rw [noRuleDrain_apr, noRuleDrain_apr]
              exact mapGet_mapRemove_self _ _
            have eIns := view_rule_insert id p0
              (if rdir.is_outbound then mapRemove ar0 .outbound else ar0) _ hnone
            rw [e3] at eIns
            refine ⟨.inRule p0 .inbound, ?_, ?_⟩
            · simp only [InvC1]
              rw [eIns]
              refine ⟨?_, ?_, hst, happ, hconn, hinf⟩
              · show (0 : Nat) + occRuleInner id
                    (if rdir.is_outbound then mapRemove ar0 .outbound else ar0) = 1
                rw [hA2occ]
              · show (if p0 = p0 then
                    ((mapGet (if rdir.is_outbound then mapRemove ar0 .outbound else ar0)
                      .inbound).getD []).count id
                  else (if p0 = p0 then 0 else (idView id s).ruleAt p0 .inbound)) = 1
                rw [if_pos rfl, hA2get]
                simpa using hcnt1'
            · rw [eIns]
              exact hT
          · simp only [reduceIte]
            rw [hld0]
            have e2 : idView id (noRuleDrain p0 .inbound (some ld0)
                { s with awaiting_peer_rule := mapRemove s.awaiting_peer_rule p0 })
                = { ({ idView id s with
                      ruleAt := fun q d => if q = p0 then 0 else (idView id s).ruleAt q d,
                      ruleTotal := 0 } : IdView) with
                    inStore := none,
                    tr := (idView id s).tr
                      ++ [.inboundFailure p0 id .notPermitted] } := by
              show idView id (ld0.foldl (failNoRuleStep p0 .inbound)
                  { s with awaiting_peer_rule := mapRemove s.awaiting_peer_rule p0 }) = _
              rw [foldl_fail_hit id (failNoRuleStep p0 .inbound)
                  (fun v => { v with
                    inStore := none,
                    tr := v.tr ++ [.inboundFailure p0 id .notPermitted] })
                  (fun s2 rid h => failNoRuleStep_frame id rid p0 .inbound s2 h)
                  (fun s2 => failNoRuleStep_hit id p0 .inbound s2)
                  ld0 _ hcnt1']
              rw [hrm]
            have hout0 : ∀ l, (if rdir.is_outbound then
                mapGet (mapRemove ar0 .inbound) .outbound else none) = some l →
                l.count id = 0 := by
              intro l hl
              by_cases hb : rdir.is_outbound = true
              · rw [if_pos hb] at hl
                have h2 := count_inner_le id (mapRemove ar0 .inbound) .outbound
                rw [hl, hoccRem] at h2
                simpa using h2
              · rw [if_neg hb] at hl
                cases hl
            have e3 : idView id (noRuleDrain p0 .outbound
                (if rdir.is_outbound then mapGet (mapRemove ar0 .inbound) .outbound
                  else none)
                (noRuleDrain p0 .inbound (some ld0)
                  { s with awaiting_peer_rule := mapRemove s.awaiting_peer_rule p0 }))
                = { ({ idView id s with
                      ruleAt := fun q d => if q = p0 then 0 else (idView id s).ruleAt q d,
                      ruleTotal := 0 } : IdView) with
                    inStore := none,
                    tr := (idView id s).tr
                      ++ [.inboundFailure p0 id .notPermitted] } :=
              (noRuleDrain_frame id p0 .outbound _ _ hout0).trans e2
            have hA2occ : occRuleInner id (if rdir.is_outbound then
                mapRemove (mapRemove ar0 .inbound) .outbound
                else mapRemove ar0 .inbound) = 0 := by
              by_cases hb : rdir.is_outbound = true
              · rw [if_pos hb]
                have := occRuleInner_mapRemove_le id (mapRemove ar0 .inbound) .outbound
                omega
              · rw [if_neg hb]
                exact hoccRem
            have hview := ruleReinsert_frame id p0
              (if rdir.is_outbound then mapRemove (mapRemove ar0 .inbound) .outbound
                else mapRemove ar0 .inbound)
              (noRuleDrain p0 .outbound
                (if rdir.is_outbound then mapGet (mapRemove ar0 .inbound) .outbound
                  else none)
                (noRuleDrain p0 .inbound (some ld0)
                  { s with awaiting_peer_rule := mapRemove s.awaiting_peer_rule p0 }))
              (by
                rw [noRuleDrain_apr, noRuleDrain_apr]
                exact mapGet_mapRemove_self _ _)
              hA2occ
              (by
                intro d
                rw [e3]
                show (if p0 = p0 then 0 else (idView id s).ruleAt p0 d) = 0
                rw [if_pos rfl])
            rw [e3] at hview
            refine ⟨.closed, ?_, ?_⟩
            · simp only [InvC1]
              rw [hview]
              obtain ⟨hins, houts⟩ := hst
              exact ⟨hinf, rfl, houts, rfl, happ, hconn⟩
            · rw [hview]
              exact SegTrace_trans id 0 0 2 _ _ hT
                (Or.inl ⟨_, rfl, by simp [isFailureFor]⟩)
        | outbound =>
          rcases hbo : rdir.is_outbound with _ | _
          · simp only [Bool.false_eq_true, if_false]
            have hin0 : ∀ l, (if rdir.is_inbound then mapGet ar0 .inbound else none)
                = some l → l.count id = 0 := by
              intro l hl
              by_cases hb : rdir.is_inbound = true
              · rw [if_pos hb] at hl
                have h2 : ((mapGet (mapRemove ar0 .outbound) .inbound).getD []).count id
                    ≤ occRuleInner id (mapRemove ar0 .outbound) :=
                  count_inner_le id (mapRemove ar0 .outbound) .inbound
                rw [mapGet_mapRemove_ne _ _ _ (by simp), hl, hoccRem] at h2
                simpa using h2
              · rw [if_neg hb] at hl
                cases hl
            have e3 : idView id (noRuleDrain p0 .outbound none
                (noRuleDrain p0 .inbound
                  (if rdir.is_inbound then mapGet ar0 .inbound else none)
                  { s with awaiting_peer_rule := mapRemove s.awaiting_peer_rule p0 }))
                = { idView id s with
                    ruleAt := fun q d => if q = p0 then 0 else (idView id s).ruleAt q d,
                    ruleTotal := 0 } :=
              (noRuleDrain_frame id p0 .outbound _ _ (by intro l hl; cases hl)).trans
                ((noRuleDrain_frame id p0 .inbound _ _ hin0).trans hrm)
            have hA2get : mapGet (if rdir.is_inbound then mapRemove ar0 .inbound else ar0)
                .outbound = some ld0 := by
              by_cases hb : rdir.is_inbound = true
              · rw [if_pos hb, mapGet_mapRemove_ne _ _ _ (by simp), hld0]
              · rw [if_neg hb, hld0]
            have hA2occ : occRuleInner id
                (if rdir.is_inbound then mapRemove ar0 .inbound else ar0) = 1 := by
              have hub : occRuleInner id
                  (if rdir.is_inbound then mapRemove ar0 .inbound else ar0)
                  ≤ occRuleInner id ar0 := by
                by_cases hb : rdir.is_inbound = true
                · rw [if_pos hb]
                  exact occRuleInner_mapRemove_le id ar0 .inbound
                · rw [if_neg hb]
              have hlb := count_inner_le id
                (if rdir.is_inbound then mapRemove ar0 .inbound else ar0) .outbound
              rw [hA2get] at hlb
              simp only [Option.getD_some] at hlb
              omega
            have hemp : (if rdir.is_inbound then mapRemove ar0 .inbound else ar0).isEmpty
                = false := isEmpty_false_of_mapGet _ _ _ hA2get
            rw [ruleReinsert, hemp]
            simp only [Bool.false_eq_true, if_false]
            have hnone : mapGet (noRuleDrain p0 .outbound none
                (noRuleDrain p0 .inbound
                  (if rdir.is_inbound then mapGet ar0 .inbound else none)
                  { s with
                    awaiting_peer_rule :=
                      mapRemove s.awaiting_peer_rule p0 })).awaiting_peer_rule p0
                = none := by
              rw [noRuleDrain_apr, noRuleDrain_apr]
              exact mapGet_mapRemove_self _ _
            have eIns := view_rule_insert id p0
              (if rdir.is_inbound then mapRemove ar0 .inbound else ar0) _ hnone
            rw [e3] at eIns
            refine ⟨.inRule p0 .outbound, ?_, ?_⟩
            · simp only [InvC1]
              rw [eIns]
              refine ⟨?_, ?_, hst, happ, hconn, hinf⟩
              · show (0 : Nat) + occRuleInner id
                    (if rdir.is_inbound then mapRemove ar0 .inbound else ar0) = 1
                rw [hA2occ]
              · show (if p0 = p0 then
                    ((mapGet (if rdir.is_inbound then mapRemove ar0 .inbound else ar0)
                      .outbound).getD []).count id
                  else (if p0 = p0 then 0 else (idView id s).ruleAt p0 .outbound)) = 1
                rw [if_pos rfl, hA2get]
                simpa using hcnt1'
            · rw [eIns]
              exact hT
          · simp only [reduceIte]
            have hin0 : ∀ l, (if rdir.is_inbound then mapGet ar0 .inbound else none)
                = some l → l.count id = 0 := by
              intro l hl
              by_cases hb : rdir.is_inbound = true
              · rw [if_pos hb] at hl
                have h2 : ((mapGet (mapRemove ar0 .outbound) .inbound).getD []).count id
                    ≤ occRuleInner id (mapRemove ar0 .outbound) :=
                  count_inner_le id (mapRemove ar0 .outbound) .inbound
                rw [mapGet_mapRemove_ne _ _ _ (by simp), hl, hoccRem] at h2
                simpa using h2
              · rw [if_neg hb] at hl
                cases hl
            have e2 : idView id (noRuleDrain p0 .inbound
                (if rdir.is_inbound then mapGet ar0 .inbound else none)
                { s with awaiting_peer_rule := mapRemove s.awaiting_peer_rule p0 })
                = { idView id s with
                    ruleAt := fun q d => if q = p0 then 0 else (idView id s).ruleAt q d,
                    ruleTotal := 0 } :=
              (noRuleDrain_frame id p0 .inbound _ _ hin0).trans hrm
            have hA1out : mapGet (if rdir.is_inbound then mapRemove ar0 .inbound else ar0)
                .outbound = some ld0 := by
              by_cases hb : rdir.is_inbound = true
              · rw [if_pos hb, mapGet_mapRemove_ne _ _ _ (by simp), hld0]
              · rw [if_neg hb, hld0]
            rw [hA1out]
            have e3 : idView id (noRuleDrain p0 .outbound (some ld0)
                (noRuleDrain p0 .inbound
                  (if rdir.is_inbound then mapGet ar0 .inbound else none)
                  { s with awaiting_peer_rule := mapRemove s.awaiting_peer_rule p0 }))
                = { ({ idView id s with
                      ruleAt := fun q d => if q = p0 then 0 else (idView id s).ruleAt q d,
                      ruleTotal := 0 } : IdView) with
                    outStore := none,
                    tr := (idView id s).tr
                      ++ [.outboundFailure p0 id .notPermitted] } := by
              show idView id (ld0.foldl (failNoRuleStep p0 .outbound) _) = _
              rw [foldl_fail_hit id (failNoRuleStep p0 .outbound)
                  (fun v => { v with
                    outStore := none,
                    tr := v.tr ++ [.outboundFailure p0 id .notPermitted] })
                  (fun s2 rid h => failNoRuleStep_frame id rid p0 .outbound s2 h)
                  (fun s2 => failNoRuleStep_hit id p0 .outbound s2)
                  ld0 _ hcnt1']
              rw [e2]
            have hA2occ : occRuleInner id (mapRemove
                (if rdir.is_inbound then mapRemove ar0 .inbound else ar0) .outbound)
                = 0 := by
              by_cases hb : rdir.is_inbound = true
              · rw [if_pos hb, mapRemove_comm]
                have := occRuleInner_mapRemove_le id (mapRemove ar0 .outbound) .inbound
                omega
              · rw [if_neg hb]
                exact hoccRem
            have hview := ruleReinsert_frame id p0
              (mapRemove (if rdir.is_inbound then mapRemove ar0 .inbound else ar0)
                .outbound)
              (noRuleDrain p0 .outbound (some ld0)
                (noRuleDrain p0 .inbound
                  (if rdir.is_inbound then mapGet ar0 .inbound else none)
                  { s with awaiting_peer_rule := mapRemove s.awaiting_peer_rule p0 }))
              (by
                rw [noRuleDrain_apr, noRuleDrain_apr]
                exact mapGet_mapRemove_self _ _)
              hA2occ
              (by
                intro d
                rw [e3]
                show (if p0 = p0 then 0 else (idView id s).ruleAt p0 d) = 0
                rw [if_pos rfl])
            rw [e3] at hview
            refine ⟨.closed, ?_, ?_⟩
            · simp only [InvC1]
              rw [hview]
              obtain ⟨houts, hins⟩ := hst
              exact ⟨hinf, hins, rfl, rfl, happ, hconn⟩
            · rw [hview]
              exact SegTrace_trans id 0 0 2 _ _ hT
                (Or.inl ⟨_, rfl, by simp [isFailureFor]⟩)
      · have hga : ∃ ar₀', mapGet s.awaiting_peer_rule p0 = some ar₀' := by
          rcases hgx : mapGet s.awaiting_peer_rule p0 with _ | a
          · exfalso
            have h0 : (idView id s).ruleAt p0 d0 = 0 := by
              show ((mapGet ((mapGet s.awaiting_peer_rule p0).getD []) d0).getD []).count id
                = 0
              rw [hgx]
              simp [mapGet]
            rw [h0] at hra
            cases hra
          · exact ⟨a, rfl⟩
        obtain ⟨ar₀', hg0⟩ := hga
        have hcnt1 : ((mapGet ar₀' d0).getD []).count id = 1 := by
          have h0 : (idView id s).ruleAt p0 d0 = ((mapGet ar₀' d0).getD []).count id := by
            show ((mapGet ((mapGet s.awaiting_peer_rule p0).getD []) d0).getD []).count id = _
            rw [hg0]
            rfl
          rw [← h0]
          exact hra
        have hrt' : (s.awaiting_peer_rule.map (fun e => occRuleInner id e.2)).sum = 1 := hrt
        have ho' : occRuleInner id ar₀' = 1 := by
          have hge1 := count_inner_le id ar₀' d0
          have hle1 : occRuleInner id ar₀'
              ≤ (s.awaiting_peer_rule.map (fun e => occRuleInner id e.2)).sum :=
            mapGet_le_sum (occRuleInner id) s.awaiting_peer_rule p0 ar₀' hg0
          omega
        have htwo : occRuleInner id ar0 + occRuleInner id ar₀'
            ≤ (s.awaiting_peer_rule.map (fun e => occRuleInner id e.2)).sum :=
          mapGet_two_keys (occRuleInner id) s.awaiting_peer_rule p p0 ar0 ar₀' hg hg0
            (fun hEq => hpp hEq.symm)
        have hocc0 : occRuleInner id ar0 = 0 := by omega
        exact Tracked_of_view id s _ (noPeerRule_frame id p rdir s ar0 hg hocc0
            (view_rule_remove_other id p p0 s hpp hrt ar₀' hg0 ho'))
          ⟨.inRule p0 d0, ⟨hrt, hra, hst, happ, hconn, hinf⟩, hT⟩

theorem on_peer_rule_eq (s : RequestManager) (p : PeerId) (rules : FirewallRules)
    (rdir : RuleDirection) (ar0 : List (RequestDirection × List RequestId))
    (hg : mapGet s.awaiting_peer_rule p = some ar0) :
    (on_peer_rule s p rules rdir).1
      = ruleReinsert p
          (if rdir.is_outbound then
            mapRemove (if rdir.is_inbound then mapRemove ar0 .inbound else ar0) .outbound
          else if rdir.is_inbound then mapRemove ar0 .inbound else ar0)
          (processRequests
            { s with awaiting_peer_rule := mapRemove s.awaiting_peer_rule p }
            rules
            ((if rdir.is_inbound then (mapGet ar0 .inbound).getD [] else []).map
                (fun rq => (rq, RequestDirection.inbound))
              ++ (if rdir.is_outbound then
                  (mapGet (if rdir.is_inbound then mapRemove ar0 .inbound else ar0)
                    .outbound).getD []
                else []).map (fun rq => (rq, RequestDirection.outbound)))).1 := by
  rw [on_peer_rule, hg]
  rcases hbi : rdir.is_inbound with _ | _ <;>
    rcases hbo : rdir.is_outbound with _ | _ <;>
      rfl

theorem peerRule_frame (id : RequestId) (p : PeerId) (rules : FirewallRules)
    (rdir : RuleDirection) (s : RequestManager)
    (ar0 : List (RequestDirection × List RequestId))
    (hg : mapGet s.awaiting_peer_rule p = some ar0)
    (hocc0 : occRuleInner id ar0 = 0)
    (hrm : idView id { s with awaiting_peer_rule := mapRemove s.awaiting_peer_rule p }
      = idView id s) :
    idView id (on_peer_rule s p rules rdir).1 = idView id s := by
  rw [on_peer_rule_eq s p rules rdir ar0 hg]
  have hA1 : occRuleInner id (if rdir.is_inbound then mapRemove ar0 .inbound else ar0)
      = 0 := by
    by_cases hb : rdir.is_inbound = true
    · rw [if_pos hb]
      have := occRuleInner_mapRemove_le id ar0 .inbound
      omega
    · rw [if_neg hb]
      exact hocc0
  have hA2 : occRuleInner id (if rdir.is_outbound then
      mapRemove (if rdir.is_inbound then mapRemove ar0 .inbound else ar0) .outbound
      else if rdir.is_inbound then mapRemove ar0 .inbound else ar0) = 0 := by
    by_cases hb : rdir.is_outbound = true
    · rw [if_pos hb]
      have := occRuleInner_mapRemove_le id
        (if rdir.is_inbound then mapRemove ar0 .inbound else ar0) .outbound
      omega
    · rw [if_neg hb]
      exact hA1
  have hin0 : (if rdir.is_inbound then (mapGet ar0 .inbound).getD [] else []).count id
      = 0 := by
    by_cases hb : rdir.is_inbound = true
    · rw [if_pos hb]
      have := count_inner_le id ar0 .inbound
      omega
    · rw [if_neg hb]
      rfl
  have hout0 : (if rdir.is_outbound then
      (mapGet (if rdir.is_inbound then mapRemove ar0 .inbound else ar0)
        .outbound).getD [] else []).count id = 0 := by
    by_cases hb : rdir.is_outbound = true
    · rw [if_pos hb]
      have := count_inner_le id
        (if rdir.is_inbound then mapRemove ar0 .inbound else ar0) .outbound
      omega
    · rw [if_neg hb]
      rfl
  have hreq : ∀ e ∈ ((if rdir.is_inbound then (mapGet ar0 .inbound).getD [] else []).map
      (fun rq => ((rq, RequestDirection.inbound) : RequestId × RequestDirection))
      ++ (if rdir.is_outbound then
          (mapGet (if rdir.is_inbound then mapRemove ar0 .inbound else ar0)
            .outbound).getD []
        else []).map (fun rq => (rq, RequestDirection.outbound))), e.1 ≠ id := by
    intro e he
    rcases List.mem_append.mp he with h1 | h1
    · exact map_fst_ne id _ .inbound hin0 e h1
    · exact map_fst_ne id _ .outbound hout0 e h1
  have e3 : idView id (processRequests
      { s with awaiting_peer_rule := mapRemove s.awaiting_peer_rule p } rules
      ((if rdir.is_inbound then (mapGet ar0 .inbound).getD [] else []).map
          (fun rq => (rq, RequestDirection.inbound))
        ++ (if rdir.is_outbound then
            (mapGet (if rdir.is_inbound then mapRemove ar0 .inbound else ar0)
              .outbound).getD []
          else []).map (fun rq => (rq, RequestDirection.outbound)))).1 = idView id s :=
    (processRequests_frame id rules _ _ hreq).trans hrm
  refine (ruleReinsert_frame id p _ _ ?_ hA2 ?_).trans e3
  · rw [processRequests_apr]
    exact mapGet_mapRemove_self _ _
  · intro d
    rw [e3]
    rw [show (idView id s).ruleAt p d
        = ((mapGet ((mapGet s.awaiting_peer_rule p).getD []) d).getD []).count id from rfl,
      hg]
    have h2 := count_inner_le id ar0 d
    simp only [Option.getD_some]
    omega

theorem value_ref_of_bare (id : RequestId) (d : RequestDirection) (t : RequestManager)
    (hb : Bare d (idView id t)) :
    ∃ rq, get_request_value_ref t id = some rq := by
  obtain ⟨hst, _, _, _, _⟩ := hb
  cases d
  · obtain ⟨hin, hout⟩ := hst
    rcases hm : mapGet t.inbound_request_store id with _ | pr
    · exfalso
      rw [show (idView id t).inStore = mapGet t.inbound_request_store id from rfl, hm] at hin
      cases hin
    · exact ⟨pr.2.data, by simp [get_request_value_ref, hm]⟩
  · obtain ⟨hout, hin⟩ := hst
    rcases hm : mapGet t.outbound_request_store id with _ | pr
    · exfalso
      rw [show (idView id t).outStore = mapGet t.outbound_request_store id from rfl, hm]
        at hout
      cases hout
    · have hmin : mapGet t.inbound_request_store id = none := hin
      exact ⟨pr.2.data, by simp [get_request_value_ref, hmin, hm]⟩

theorem processRequests_hit (id : RequestId) (rules : FirewallRules) (d : RequestDirection)
    (r₂ : List (RequestId × RequestDirection)) (t₁ : RequestManager)
    (hb : Bare d (idView id t₁)) (hr₂ : ∀ e ∈ r₂, e.1 ≠ id) :
    ∃ ph δ, InvC1 id ph (processRequests t₁ rules ((id, d) :: r₂)).1
      ∧ (idView id (processRequests t₁ rules ((id, d) :: r₂)).1).tr
        = (idView id t₁).tr ++ δ
      ∧ SegTrace id 0 (phaseClass ph) δ
      ∧ (idView id (processRequests t₁ rules ((id, d) :: r₂)).1).ruleTotal = 0 := by
  obtain ⟨rq0, hrq0⟩ := value_ref_of_bare id d t₁ hb
  simp only [processRequests]
  rcases hrule : (match d with
      | RequestDirection.inbound => rules.inbound
      | RequestDirection.outbound => rules.outbound) with _ | r
  · simp only [hrule]
    obtain ⟨ph', δ, hI', htr', hseg', hrt'⟩ := handle_hit id d false t₁ hb
    have hframe := processRequests_frame id rules r₂
      (handle_request_approval t₁ id d false).1 hr₂
    refine ⟨ph', δ, InvC1_of_view id ph' _ _ hframe hI', ?_, hseg', ?_⟩
    · rw [hframe]
      exact htr'
    · rw [hframe]
      exact hrt'
  · rcases r with _ | mask
    · simp only [hrule]
      rw [hrq0]
      simp only
      obtain ⟨hst, happ, hrl, hcn, hin⟩ := hb
      have hframe := processRequests_frame id rules r₂
        { t₁ with awaiting_approval := t₁.awaiting_approval ++ [(id, d)] } hr₂
      have happv : idView id
          ({ t₁ with awaiting_approval := t₁.awaiting_approval ++ [(id, d)] }
            : RequestManager)
          = { idView id t₁ with app := (idView id t₁).app ++ [(id, d)] } := by
        have h1 := view_app_append id id d t₁
        rw [if_pos rfl] at h1
        exact h1
      refine ⟨.inApproval d, [], ?_, ?_, rfl, ?_⟩
      · refine InvC1_of_view id _ _ _ hframe ?_
        simp only [InvC1]
        rw [happv]
        refine ⟨?_, hst, hrl, hcn, hin⟩
        show (idView id t₁).app ++ [(id, d)] = [(id, d)]
        rw [happ]
        rfl
      · rw [hframe, happv]
        simp
      · rw [hframe, happv]
        exact hrl
    · simp only [hrule]
      rw [hrq0]
      simp only
      obtain ⟨ph', δ, hI', htr', hseg', hrt'⟩ := handle_hit id d (permits mask rq0) t₁ hb
      have hframe := processRequests_frame id rules r₂
        (handle_request_approval t₁ id d (permits mask rq0)).1 hr₂
      refine ⟨ph', δ, InvC1_of_view id ph' _ _ hframe hI', ?_, hseg', ?_⟩
      · rw [hframe]
        exact htr'
      · rw [hframe]
        exact hrt'

theorem step_peerRule (id : RequestId) (p : PeerId) (rules : FirewallRules)
    (rdir : RuleDirection) (s : RequestManager) (ht : Tracked id s) :
    Tracked id (on_peer_rule s p rules rdir).1 := by
  obtain ⟨ph, hI, hT⟩ := ht
  rcases hg : mapGet s.awaiting_peer_rule p with _ | ar0
  · have hid : (on_peer_rule s p rules rdir).1 = s := by
      rw [on_peer_rule, hg]
    rw [hid]
    exact ⟨ph, hI, hT⟩
  · have hocc_le : occRuleInner id ar0
        ≤ (s.awaiting_peer_rule.map (fun e => occRuleInner id e.2)).sum :=
      mapGet_le_sum (occRuleInner id) s.awaiting_peer_rule p ar0 hg
    cases ph with
    | inApproval d0 =>
      obtain ⟨happ, hst, hrule, hconn, hinf⟩ := hI
      have hrt' : (s.awaiting_peer_rule.map (fun e => occRuleInner id e.2)).sum = 0 := hrule
      have hocc0 : occRuleInner id ar0 = 0 := by omega
      exact Tracked_of_view id s _ (peerRule_frame id p rules rdir s ar0 hg hocc0
          (view_rule_remove_zero id p s hrule))
        ⟨.inApproval d0, ⟨happ, hst, hrule, hconn, hinf⟩, hT⟩
    | inConn p0 =>
      obtain ⟨hc1, hc2, hst, hrule, happ, hinf⟩ := hI
      have hrt' : (s.awaiting_peer_rule.map (fun e => occRuleInner id e.2)).sum = 0 := hrule
      have hocc0 : occRuleInner id ar0 = 0 := by omega
      exact Tracked_of_view id s _ (peerRule_frame id p rules rdir s ar0 hg hocc0
          (view_rule_remove_zero id p s hrule))
        ⟨.inConn p0, ⟨hc1, hc2, hst, hrule, happ, hinf⟩, hT⟩
    | inflight =>
      obtain ⟨h1, h2, h3, h4, hrule, h6, h7⟩ := hI
      have hrt' : (s.awaiting_peer_rule.map (fun e => occRuleInner id e.2)).sum = 0 := hrule
      have hocc0 : occRuleInner id ar0 = 0 := by omega
      exact Tracked_of_view id s _ (peerRule_frame id p rules rdir s ar0 hg hocc0
          (view_rule_remove_zero id p s hrule))
        ⟨.inflight, ⟨h1, h2, h3, h4, hrule, h6, h7⟩, hT⟩
    | closed =>
      obtain ⟨h1, h2, h3, hrule, h5, h6⟩ := hI
      have hrt' : (s.awaiting_peer_rule.map (fun e => occRuleInner id e.2)).sum = 0 := hrule
      have hocc0 : occRuleInner id ar0 = 0 := by omega
      exact Tracked_of_view id s _ (peerRule_frame id p rules rdir s ar0 hg hocc0
          (view_rule_remove_zero id p s hrule))
        ⟨.closed, ⟨h1, h2, h3, hrule, h5, h6⟩, hT⟩
    | inRule p0 d0 =>
      obtain ⟨hrt, hra, hst, happ, hconn, hinf⟩ := hI
      by_cases hpp : p0 = p
      · subst hpp
        have hcnt1 : ((mapGet ar0 d0).getD []).count id = 1 := by
          have h0 : (idView id s).ruleAt p0 d0 = ((mapGet ar0 d0).getD []).count id := by
            show ((mapGet ((mapGet s.awaiting_peer_rule p0).getD []) d0).getD []).count id = _
            rw [hg]
            rfl
          rw [← h0]
          exact hra
        have hld0 : ∃ l, mapGet ar0 d0 = some l := by
          rcases hmd : mapGet ar0 d0 with _ | l
          · rw [hmd] at hcnt1
            simp at hcnt1
          · exact ⟨l, rfl⟩
        obtain ⟨ld0, hld0⟩ := hld0
        have hcnt1' : ld0.count id = 1 := by
          rw [hld0] at hcnt1
          simpa using hcnt1
        have hrt' : (s.awaiting_peer_rule.map (fun e => occRuleInner id e.2)).sum = 1 := hrt
        have hocc1 : occRuleInner id ar0 = 1 := by
          have hge1 := count_inner_le id ar0 d0
          rw [hld0] at hge1
          simp only [Option.getD_some] at hge1
          omega
        have hoccRem : occRuleInner id (mapRemove ar0 d0) = 0 := by
          have hco : ld0.count id + occRuleInner id (mapRemove ar0 d0)
              ≤ occRuleInner id ar0 :=
            mapGet_contrib (fun l => l.count id) ar0 d0 ld0 hld0
          omega
        have hrm := view_rule_remove_hit id p0 s ar0 hg hrt hocc1
        rw [on_peer_rule_eq s p0 rules rdir ar0 hg]
        cases d0 with
        | inbound =>
          rcases hbi : rdir.is_inbound with _ | _
          · simp only [Bool.false_eq_true, if_false]
            have hout0 : (if rdir.is_outbound then (mapGet ar0 .outbound).getD []
                else []).count id = 0 := by
              by_cases hb : rdir.is_outbound = true
              · rw [if_pos hb]
                have h2 : ((mapGet (mapRemove ar0 .inbound) .outbound).getD []).count id
                    ≤ occRuleInner id (mapRemove ar0 .inbound) :=
                  count_inner_le id (mapRemove ar0 .inbound) .outbound
                rw [mapGet_mapRemove_ne _ _ _ (by simp)] at h2
                omega
              · rw [if_neg hb]
                rfl
            have hreq : ∀ e ∈ (([] : List RequestId).map
                (fun rq => ((rq, RequestDirection.inbound) : RequestId × RequestDirection))
                ++ (if rdir.is_outbound then (mapGet ar0 .outbound).getD [] else []).map
                  (fun rq => (rq, RequestDirection.outbound))), e.1 ≠ id := by
              intro e he
              rcases List.mem_append.mp he with h1 | h1
              · cases h1
              · exact map_fst_ne id _ .outbound hout0 e h1
            have e3 : idView id (processRequests
                { s with awaiting_peer_rule := mapRemove s.awaiting_peer_rule p0 } rules
                (([] : List RequestId).map (fun rq => (rq, RequestDirection.inbound))
                  ++ (if rdir.is_outbound then (mapGet ar0 .outbound).getD [] else []).map
                    (fun rq => (rq, RequestDirection.outbound)))).1
                = { idView id s with
                    ruleAt := fun q d => if q = p0 then 0 else (idView id s).ruleAt q d,
                    ruleTotal := 0 } :=
              (processRequests_frame id rules _ _ hreq).trans hrm
            have hA2get : mapGet (if rdir.is_outbound then mapRemove ar0 .outbound else ar0)
                .inbound = some ld0 := by
              by_cases hb : rdir.is_outbound = true
              · rw [if_pos hb, mapGet_mapRemove_ne _ _ _ (by simp), hld0]
              · rw [if_neg hb, hld0]
            have hA2occ : occRuleInner id
                (if rdir.is_outbound then mapRemove ar0 .outbound else ar0) = 1 := by
              have hub : occRuleInner id
                  (if rdir.is_outbound then mapRemove ar0 .outbound else ar0)
                  ≤ occRuleInner id ar0 := by
                by_cases hb : rdir.is_outbound = true
                · rw [if_pos hb]
                  exact occRuleInner_mapRemove_le id ar0 .outbound
                · rw [if_neg hb]
              have hlb := count_inner_le id
                (if rdir.is_outbound then mapRemove ar0 .outbound else ar0) .inbound
              rw [hA2get] at hlb
              simp only [Option.getD_some] at hlb
              omega
            have hemp : (if rdir.is_outbound then mapRemove ar0 .outbound else ar0).isEmpty
                = false := isEmpty_false_of_mapGet _ _ _ hA2get
            rw [ruleReinsert, hemp]
            simp only [Bool.false_eq_true, if_false]
            have hnone : mapGet (processRequests
                { s with awaiting_peer_rule := mapRemove s.awaiting_peer_rule p0 } rules
                (([] : List RequestId).map (fun rq => (rq, RequestDirection.inbound))
                  ++ (if rdir.is_outbound then (mapGet ar0 .outbound).getD [] else []).map
                    (fun rq =>
                      (rq, RequestDirection.outbound)))).1.awaiting_peer_rule p0
                = none := by
              rw [processRequests_apr]
              exact mapGet_mapRemove_self _ _
            have eIns := view_rule_insert id p0
              (if rdir.is_outbound then mapRemove ar0 .outbound else ar0) _ hnone
            rw [e3] at eIns
            refine ⟨.inRule p0 .inbound, ?_, ?_⟩
            · simp only [InvC1]
              rw [eIns]
              refine ⟨?_, ?_, hst, happ, hconn, hinf⟩
              · show (0 : Nat) + occRuleInner id
                    (if rdir.is_outbound then mapRemove ar0 .outbound else ar0) = 1
                rw [hA2occ]
              · show (if p0 = p0 then
                    ((mapGet (if rdir.is_outbound then mapRemove ar0 .outbound else ar0)
                      .inbound).getD []).count id
                  else (if p0 = p0 then 0 else (idView id s).ruleAt p0 .inbound)) = 1
                rw [if_pos rfl, hA2get]
                simpa using hcnt1'
            · rw [eIns]
              exact hT
          · simp only [reduceIte]
            rw [hld0]
            simp only [Option.getD_some]
            obtain ⟨a, b, hl, ha, hb2⟩ := count_one_split id ld0 hcnt1'
            subst hl
            simp only [List.map_append, List.map_cons, List.append_assoc, List.cons_append]
            rw [processRequests_append]
            have hl₁ : ∀ e ∈ a.map
                (fun rq => ((rq, RequestDirection.inbound) : RequestId × RequestDirection)),
                e.1 ≠ id := map_fst_ne id a .inbound ha
            have et₁ : idView id (processRequests
                { s with awaiting_peer_rule := mapRemove s.awaiting_peer_rule p0 } rules
                (a.map (fun rq => (rq, RequestDirection.inbound)))).1
                = { idView id s with
                    ruleAt := fun q d => if q = p0 then 0 else (idView id s).ruleAt q d,
                    ruleTotal := 0 } :=
              (processRequests_frame id rules _ _ hl₁).trans hrm
            have hbare : Bare .inbound (idView id (processRequests
                { s with awaiting_peer_rule := mapRemove s.awaiting_peer_rule p0 } rules
                (a.map (fun rq => (rq, RequestDirection.inbound)))).1) := by
              rw [et₁]
              exact ⟨hst, happ, rfl, hconn, hinf⟩
            have hout0 : (if rdir.is_outbound then
                (mapGet (mapRemove ar0 .inbound) .outbound).getD [] else []).count id
                = 0 := by
              by_cases hb : rdir.is_outbound = true
              · rw [if_pos hb]
                have h2 := count_inner_le id (mapRemove ar0 .inbound) .outbound
                omega
              · rw [if_neg hb]
                rfl
            have hr₂ : ∀ e ∈ (b.map
                (fun rq => ((rq, RequestDirection.inbound) : RequestId × RequestDirection))
                ++ (if rdir.is_outbound then
                    (mapGet (mapRemove ar0 .inbound) .outbound).getD []
                  else []).map (fun rq => (rq, RequestDirection.outbound))), e.1 ≠ id := by
              intro e he
              rcases List.mem_append.mp he with h1 | h1
              · exact map_fst_ne id b .inbound hb2 e h1
              · exact map_fst_ne id _ .outbound hout0 e h1
            obtain ⟨ph', δ, hI', htr', hseg', hrtz⟩ :=
              processRequests_hit id rules .inbound _ _ hbare hr₂
            have hnone : mapGet (processRequests (processRequests
                { s with awaiting_peer_rule := mapRemove s.awaiting_peer_rule p0 } rules
                (a.map (fun rq => (rq, RequestDirection.inbound)))).1 rules
                ((id, RequestDirection.inbound) :: (b.map
                    (fun rq => (rq, RequestDirection.inbound))
                  ++ (if rdir.is_outbound then
                      (mapGet (mapRemove ar0 .inbound) .outbound).getD []
                    else []).map
                    (fun rq => (rq, RequestDirection.outbound))))).1.awaiting_peer_rule p0
                = none := by
              rw [processRequests_apr, processRequests_apr]
              exact mapGet_mapRemove_self _ _
            have hA2occ : occRuleInner id (if rdir.is_outbound then
                mapRemove (mapRemove ar0 .inbound) .outbound
                else mapRemove ar0 .inbound) = 0 := by
              by_cases hb : rdir.is_outbound = true
              · rw [if_pos hb]
                have := occRuleInner_mapRemove_le id (mapRemove ar0 .inbound) .outbound
                omega
              · rw [if_neg hb]
                exact hoccRem
            have hAt : ∀ d, (idView id (processRequests (processRequests
                { s with awaiting_peer_rule := mapRemove s.awaiting_peer_rule p0 } rules
                (a.map (fun rq => (rq, RequestDirection.inbound)))).1 rules
                ((id, RequestDirection.inbound) :: (b.map
                    (fun rq => (rq, RequestDirection.inbound))
                  ++ (if rdir.is_outbound then
                      (mapGet (mapRemove ar0 .inbound) .outbound).getD []
                    else []).map
                    (fun rq => (rq, RequestDirection.outbound))))).1).ruleAt p0 d
                = 0 := by
              intro d
              have hle := view_ruleAt_le id (processRequests (processRequests
                { s with awaiting_peer_rule := mapRemove s.awaiting_peer_rule p0 } rules
                (a.map (fun rq => (rq, RequestDirection.inbound)))).1 rules
                ((id, RequestDirection.inbound) :: (b.map
                    (fun rq => (rq, RequestDirection.inbound))
                  ++ (if rdir.is_outbound then
                      (mapGet (mapRemove ar0 .inbound) .outbound).getD []
                    else []).map
                    (fun rq => (rq, RequestDirection.outbound))))).1 p0 d
              omega
            have hview := ruleReinsert_frame id p0
              (if rdir.is_outbound then mapRemove (mapRemove ar0 .inbound) .outbound
                else mapRemove ar0 .inbound)
              (processRequests (processRequests
                { s with awaiting_peer_rule := mapRemove s.awaiting_peer_rule p0 } rules
                (a.map (fun rq => (rq, RequestDirection.inbound)))).1 rules
                ((id, RequestDirection.inbound) :: (b.map
                    (fun rq => (rq, RequestDirection.inbound))
                  ++ (if rdir.is_outbound then
                      (mapGet (mapRemove ar0 .inbound) .outbound).getD []
                    else []).map
                    (fun rq => (rq, RequestDirection.outbound))))).1
              hnone hA2occ hAt
            refine ⟨ph', InvC1_of_view id ph' _ _ hview hI', ?_⟩
            rw [hview, htr', et₁]
            exact SegTrace_trans id 0 0 _ _ _ hT hseg'
        | outbound =>
          rcases hbo : rdir.is_outbound with _ | _
          · simp only [Bool.false_eq_true, if_false]
            have hin0 : (if rdir.is_inbound then (mapGet ar0 .inbound).getD []
                else []).count id = 0 := by
              by_cases hb : rdir.is_inbound = true
              · rw [if_pos hb]
                have h2 : ((mapGet (mapRemove ar0 .outbound) .inbound).getD []).count id
                    ≤ occRuleInner id (mapRemove ar0 .outbound) :=
                  count_inner_le id (mapRemove ar0 .outbound) .inbound
                rw [mapGet_mapRemove_ne _ _ _ (by simp)] at h2
                omega
              · rw [if_neg hb]
                rfl
            have hreq : ∀ e ∈ ((if rdir.is_inbound then (mapGet ar0 .inbound).getD []
                else []).map
                (fun rq => ((rq, RequestDirection.inbound) : RequestId × RequestDirection))
                ++ ([] : List RequestId).map
                  (fun rq => (rq, RequestDirection.outbound))), e.1 ≠ id := by
              intro e he
              rcases List.mem_append.mp he with h1 | h1
              · exact map_fst_ne id _ .inbound hin0 e h1
              · cases h1
            have e3 : idView id (processRequests
                { s with awaiting_peer_rule := mapRemove s.awaiting_peer_rule p0 } rules
                ((if rdir.is_inbound then (mapGet ar0 .inbound).getD [] else []).map
                    (fun rq => (rq, RequestDirection.inbound))
                  ++ ([] : List RequestId).map
                    (fun rq => (rq, RequestDirection.outbound)))).1
                = { idView id s with
                    ruleAt := fun q d => if q = p0 then 0 else (idView id s).ruleAt q d,
                    ruleTotal := 0 } :=
              (processRequests_frame id rules _ _ hreq).trans hrm
            have hA2get : mapGet (if rdir.is_inbound then mapRemove ar0 .inbound else ar0)
                .outbound = some ld0 := by
              by_cases hb : rdir.is_inbound = true
              · rw [if_pos hb, mapGet_mapRemove_ne _ _ _ (by simp), hld0]
              · rw [if_neg hb, hld0]
            have hA2occ : occRuleInner id
                (if rdir.is_inbound then mapRemove ar0 .inbound else ar0) = 1 := by
              have hub : occRuleInner id
                  (if rdir.is_inbound then mapRemove ar0 .inbound else ar0)
                  ≤ occRuleInner id ar0 := by
                by_cases hb : rdir.is_inbound = true
                · rw [if_pos hb]
                  exact occRuleInner_mapRemove_le id ar0 .inbound
                · rw [if_neg hb]
              have hlb := count_inner_le id
                (if rdir.is_inbound then mapRemove ar0 .inbound else ar0) .outbound
              rw [hA2get] at hlb
              simp only [Option.getD_some] at hlb
              omega
            have hemp : (if rdir.is_inbound then mapRemove ar0 .inbound else ar0).isEmpty
                = false := isEmpty_false_of_mapGet _ _ _ hA2get
            rw [ruleReinsert, hemp]
            simp only [Bool.false_eq_true, if_false]
            have hnone : mapGet (processRequests
                { s with awaiting_peer_rule := mapRemove s.awaiting_peer_rule p0 } rules
                ((if rdir.is_inbound then (mapGet ar0 .inbound).getD [] else []).map
                    (fun rq => (rq, RequestDirection.inbound))
                  ++ ([] : List RequestId).map
                    (fun rq =>
                      (rq, RequestDirection.outbound)))).1.awaiting_peer_rule p0
                = none := by
              rw [processRequests_apr]
              exact mapGet_mapRemove_self _ _
            have eIns := view_rule_insert id p0
              (if rdir.is_inbound then mapRemove ar0 .inbound else ar0) _ hnone
            rw [e3] at eIns
            refine ⟨.inRule p0 .outbound, ?_, ?_⟩
            · simp only [InvC1]
              rw [eIns]
              refine ⟨?_, ?_, hst, happ, hconn, hinf⟩
              · show (0 : Nat) + occRuleInner id
                    (if rdir.is_inbound then mapRemove ar0 .inbound else ar0) = 1
                rw [hA2occ]
              · show (if p0 = p0 then
                    ((mapGet (if rdir.is_inbound then mapRemove ar0 .inbound else ar0)
                      .outbound).getD []).count id
                  else (if p0 = p0 then 0 else (idView id s).ruleAt p0 .outbound)) = 1
                rw [if_pos rfl, hA2get]
                simpa using hcnt1'
            · rw [eIns]
              exact hT
          · simp only [reduceIte]
            have hA1out : mapGet (if rdir.is_inbound then mapRemove ar0 .inbound else ar0)
                .outbound = some ld0 := by
              by_cases hb : rdir.is_inbound = true
              · rw [if_pos hb, mapGet_mapRemove_ne _ _ _ (by simp), hld0]
              · rw [if_neg hb, hld0]
            rw [hA1out]
            simp only [Option.getD_some]
            obtain ⟨a, b, hl, ha, hb2⟩ := count_one_split id ld0 hcnt1'
            subst hl
            simp only [List.map_append, List.map_cons, List.append_assoc, List.cons_append]
            rw [← List.append_assoc, processRequests_append]
            have hin0 : (if rdir.is_inbound then (mapGet ar0 .inbound).getD []
                else []).count id = 0 := by
              by_cases hb : rdir.is_inbound = true
              · rw [if_pos hb]
                have h2 : ((mapGet (mapRemove ar0 .outbound) .inbound).getD []).count id
                    ≤ occRuleInner id (mapRemove ar0 .outbound) :=
                  count_inner_le id (mapRemove ar0 .outbound) .inbound
                rw [mapGet_mapRemove_ne _ _ _ (by simp)] at h2
                omega
              · rw [if_neg hb]
                rfl
            have hl₁ : ∀ e ∈ ((if rdir.is_inbound then (mapGet ar0 .inbound).getD []
                else []).map
                (fun rq => ((rq, RequestDirection.inbound) : RequestId × RequestDirection))
                ++ a.map (fun rq => (rq, RequestDirection.outbound))), e.1 ≠ id := by
              intro e he
              rcases List.mem_append.mp he with h1 | h1
              · exact map_fst_ne id _ .inbound hin0 e h1
              · exact map_fst_ne id a .outbound ha e h1
            have et₁ : idView id (processRequests
                { s with awaiting_peer_rule := mapRemove s.awaiting_peer_rule p0 } rules
                ((if rdir.is_inbound then (mapGet ar0 .inbound).getD [] else []).map
                    (fun rq => (rq, RequestDirection.inbound))
                  ++ a.map (fun rq => (rq, RequestDirection.outbound)))).1
                = { idView id s with
                    ruleAt := fun q d => if q = p0 then 0 else (idView id s).ruleAt q d,
                    ruleTotal := 0 } :=
              (processRequests_frame id rules _ _ hl₁).trans hrm
            have hbare : Bare .outbound (idView id (processRequests
                { s with awaiting_peer_rule := mapRemove s.awaiting_peer_rule p0 } rules
                ((if rdir.is_inbound then (mapGet ar0 .inbound).getD [] else []).map
                    (fun rq => (rq, RequestDirection.inbound))
                  ++ a.map (fun rq => (rq, RequestDirection.outbound)))).1) := by
              rw [et₁]
              exact ⟨hst, happ, rfl, hconn, hinf⟩
            have hr₂ : ∀ e ∈ b.map
                (fun rq => ((rq, RequestDirection.outbound) : RequestId × RequestDirection)),
                e.1 ≠ id := map_fst_ne id b .outbound hb2
            obtain ⟨ph', δ, hI', htr', hseg', hrtz⟩ :=
              processRequests_hit id rules .outbound _ _ hbare hr₂
            have hnone : mapGet (processRequests (processRequests
                { s with awaiting_peer_rule := mapRemove s.awaiting_peer_rule p0 } rules
                ((if rdir.is_inbound then (mapGet ar0 .inbound).getD [] else []).map
                    (fun rq => (rq, RequestDirection.inbound))
                  ++ a.map (fun rq => (rq, RequestDirection.outbound)))).1 rules
                ((id, RequestDirection.outbound) :: b.map
                  (fun rq => (rq, RequestDirection.outbound)))).1.awaiting_peer_rule p0
                = none := by
              rw [processRequests_apr, processRequests_apr]
              exact mapGet_mapRemove_self _ _
            have hA2occ : occRuleInner id (mapRemove
                (if rdir.is_inbound then mapRemove ar0 .inbound else ar0) .outbound)
                = 0 := by
              by_cases hb : rdir.is_inbound = true
              · rw [if_pos hb, mapRemove_comm]
                have := occRuleInner_mapRemove_le id (mapRemove ar0 .outbound) .inbound
                omega
              · rw [if_neg hb]
                exact hoccRem
            have hAt : ∀ d, (idView id (processRequests (processRequests
                { s with awaiting_peer_rule := mapRemove s.awaiting_peer_rule p0 } rules
                ((if rdir.is_inbound then (mapGet ar0 .inbound).getD [] else []).map
                    (fun rq => (rq, RequestDirection.inbound))
                  ++ a.map (fun rq => (rq, RequestDirection.outbound)))).1 rules
                ((id, RequestDirection.outbound) :: b.map
                  (fun rq => (rq, RequestDirection.outbound)))).1).ruleAt p0 d = 0 := by
              intro d
              have hle := view_ruleAt_le id (processRequests (processRequests
                { s with awaiting_peer_rule := mapRemove s.awaiting_peer_rule p0 } rules
                ((if rdir.is_inbound then (mapGet ar0 .inbound).getD [] else []).map
                    (fun rq => (rq, RequestDirection.inbound))
                  ++ a.map (fun rq => (rq, RequestDirection.outbound)))).1 rules
                ((id, RequestDirection.outbound) :: b.map
                  (fun rq => (rq, RequestDirection.outbound)))).1 p0 d
              omega
            have hview := ruleReinsert_frame id p0
              (mapRemove (if rdir.is_inbound then mapRemove ar0 .inbound else ar0)
                .outbound)
              (processRequests (processRequests
                { s with awaiting_peer_rule := mapRemove s.awaiting_peer_rule p0 } rules
                ((if rdir.is_inbound then (mapGet ar0 .inbound).getD [] else []).map
                    (fun rq => (rq, RequestDirection.inbound))
                  ++ a.map (fun rq => (rq, RequestDirection.outbound)))).1 rules
                ((id, RequestDirection.outbound) :: b.map
                  (fun rq => (rq, RequestDirection.outbound)))).1
              hnone hA2occ hAt
            refine ⟨ph', InvC1_of_view id ph' _ _ hview hI', ?_⟩
            rw [hview, htr', et₁]
            exact SegTrace_trans id 0 0 _ _ _ hT hseg'
      · have hga : ∃ ar₀', mapGet s.awaiting_peer_rule p0 = some ar₀' := by
          rcases hgx : mapGet s.awaiting_peer_rule p0 with _ | aa
          · exfalso
            have h0 : (idView id s).ruleAt p0 d0 = 0 := by
              show ((mapGet ((mapGet s.awaiting_peer_rule p0).getD []) d0).getD []).count id
                = 0
              rw [hgx]
              simp [mapGet]
            rw [h0] at hra
            cases hra
          · exact ⟨aa, rfl⟩
        obtain ⟨ar₀', hg0⟩ := hga
        have hcnt1 : ((mapGet ar₀' d0).getD []).count id = 1 := by
          have h0 : (idView id s).ruleAt p0 d0 = ((mapGet ar₀' d0).getD []).count id := by
            show ((mapGet ((mapGet s.awaiting_peer_rule p0).getD []) d0).getD []).count id = _
            rw [hg0]
            rfl
          rw [← h0]
          exact hra
        have hrt' : (s.awaiting_peer_rule.map (fun e => occRuleInner id e.2)).sum = 1 := hrt
        have ho' : occRuleInner id ar₀' = 1 := by
          have hge1 := count_inner_le id ar₀' d0
          have hle1 : occRuleInner id ar₀'
              ≤ (s.awaiting_peer_rule.map (fun e => occRuleInner id e.2)).sum :=
            mapGet_le_sum (occRuleInner id) s.awaiting_peer_rule p0 ar₀' hg0
          omega
        have htwo : occRuleInner id ar0 + occRuleInner id ar₀'
            ≤ (s.awaiting_peer_rule.map (fun e => occRuleInner id e.2)).sum :=
          mapGet_two_keys (occRuleInner id) s.awaiting_peer_rule p p0 ar0 ar₀' hg hg0
            (fun hEq => hpp hEq.symm)
        have hocc0 : occRuleInner id ar0 = 0 := by omega
        exact Tracked_of_view id s _ (peerRule_frame id p rules rdir s ar0 hg hocc0
            (view_rule_remove_other id p p0 s hpp hrt ar₀' hg0 ho'))
          ⟨.inRule p0 d0, ⟨hrt, hra, hst, happ, hconn, hinf⟩, hT⟩

theorem view_store_request (id : RequestId) (peer : PeerId) (req : RequestMessage)
    (dir : RequestDirection) (s : RequestManager) :
    idView id (store_request s peer id req dir)
      = (match dir with
        | .inbound => { idView id s with inStore := some (peer, req) }
        | .outbound => { idView id s with outStore := some (peer, req) }) := by
  cases dir <;>
    · apply IdView.ext' <;>
        simp [idView, store_request, mapGet_mapInsert_self,
          fun k' h => mapGet_mapInsert_ne s.inbound_request_store id k' (peer, req) h,
          fun k' h => mapGet_mapInsert_ne s.outbound_request_store id k' (peer, req) h]

theorem occRuleInner_enqueue (id : RequestId) (dir : RequestDirection)
    (ar : List (RequestDirection × List RequestId)) :
    occRuleInner id (mapModify ar dir [] (· ++ [id])) = occRuleInner id ar + 1 := by
  exact sum_mapModify (fun l : List RequestId => l.count id) (· ++ [id]) 1
    (by intro b; simp [List.count_append]) ar dir [] rfl

theorem view_rule_enqueue (id : RequestId) (peer : PeerId) (dir : RequestDirection)
    (s : RequestManager) :
    idView id { s with
      awaiting_peer_rule :=
        mapModify s.awaiting_peer_rule peer [] (fun ar => mapModify ar dir [] (· ++ [id])) }
      = { idView id s with
          ruleAt := fun q d =>
            if q = peer then
              (if d = dir then (idView id s).ruleAt q d + 1 else (idView id s).ruleAt q d)
            else (idView id s).ruleAt q d,
          ruleTotal := (idView id s).ruleTotal + 1 } := by
  apply IdView.ext' <;> simp [idView]
  · intro q d
    by_cases hq : q = peer
    · subst hq
      rw [mapGet_mapModify_self]
      simp only [Option.getD_some, if_pos rfl]
      by_cases hd : d = dir
      · subst hd
        rw [mapGet_mapModify_self]
        simp [List.count_append]
      · rw [mapGet_mapModify_ne _ _ _ _ _ hd]
        simp [hd]
    · rw [mapGet_mapModify_ne _ _ _ _ _ hq]
      simp [hq]
  · rw [sum_mapModify (occRuleInner id) (fun ar => mapModify ar dir [] (· ++ [id])) 1
      (fun b => occRuleInner_enqueue id dir b) s.awaiting_peer_rule peer [] rfl]

theorem fresh_view (id : RequestId) (s : RequestManager) (h : freshId id s = true) :
    (idView id s).inStore = none ∧ (idView id s).outStore = none
    ∧ (idView id s).app = [] ∧ (idView id s).connTotal = 0
    ∧ (idView id s).ruleTotal = 0 ∧ (idView id s).inflightTotal = 0
    ∧ (idView id s).tr = [] := by
  rw [freshId] at h
  simp only [Bool.and_eq_true, beq_iff_eq, Option.isNone_iff_eq_none,
    List.all_eq_true] at h
  obtain ⟨⟨⟨⟨⟨⟨h1, h2⟩, h3⟩, h4⟩, h5⟩, h6⟩, h7⟩ := h
  refine ⟨h1, h2, ?_, h4, h5, h6, ?_⟩
  · show s.awaiting_approval.filter (fun e => e.1 == id) = []
    rw [List.filter_eq_nil_iff]
    intro e he
    have := h3 e he
    simpa using this
  · show s.actions.items.filter (isTerminalFor id) = []
    rw [List.filter_eq_nil_iff]
    intro a ha
    have := h7 a ha
    simpa using this

theorem admit_tracked (id : RequestId) (peer : PeerId) (req : RequestMessage)
    (status : ApprovalStatus) (dir : RequestDirection) (s : RequestManager)
    (h : freshId id s = true) :
    Tracked id (on_new_request s peer id req status dir) := by
  obtain ⟨hin, hout, happ, hconn, hrule, hinf, htr⟩ := fresh_view id s h
  cases status with
  | missingRule =>
    have hv : idView id (on_new_request s peer id req .missingRule dir)
        = { (match dir with
            | .inbound => { idView id s with inStore := some (peer, req) }
            | .outbound => { idView id s with outStore := some (peer, req) }) with
            ruleAt := fun q d =>
              if q = peer then
                (if d = dir then
                  (match dir with
                    | .inbound => { idView id s with inStore := some (peer, req) }
                    | .outbound =>
                      { idView id s with outStore := some (peer, req) }).ruleAt q d + 1
                else (match dir with
                  | .inbound => { idView id s with inStore := some (peer, req) }
                  | .outbound =>
                    { idView id s with outStore := some (peer, req) }).ruleAt q d)
              else (match dir with
                | .inbound => { idView id s with inStore := some (peer, req) }
                | .outbound =>
                  { idView id s with outStore := some (peer, req) }).ruleAt q d,
            ruleTotal := (match dir with
              | .inbound => { idView id s with inStore := some (peer, req) }
              | .outbound =>
                { idView id s with outStore := some (peer, req) }).ruleTotal + 1 } := by
      rw [show on_new_request s peer id req .missingRule dir
          = { store_request s peer id req dir with
              awaiting_peer_rule := mapModify
                (store_request s peer id req dir).awaiting_peer_rule peer []
                (fun ar => mapModify ar dir [] (· ++ [id])) } from by
        cases dir <;> rfl]
      rw [view_rule_enqueue, view_store_request]
    refine ⟨.inRule peer dir, ?_, ?_⟩
    · simp only [InvC1]
      rw [hv]
      have hAtle := view_ruleAt_le id s peer dir
      rw [hrule] at hAtle
      cases dir
      · refine ⟨?_, ?_, ⟨rfl, hout⟩, happ, hconn, hinf⟩
        · show (idView id s).ruleTotal + 1 = 1
          rw [hrule]
        · show (if peer = peer then
              (if RequestDirection.inbound = RequestDirection.inbound then
                (idView id s).ruleAt peer RequestDirection.inbound + 1
              else (idView id s).ruleAt peer RequestDirection.inbound)
            else (idView id s).ruleAt peer RequestDirection.inbound) = 1
          rw [if_pos rfl, if_pos rfl]
          omega
      · refine ⟨?_, ?_, ⟨rfl, hin⟩, happ, hconn, hinf⟩
        · show (idView id s).ruleTotal + 1 = 1
          rw [hrule]
        · show (if peer = peer then
              (if RequestDirection.outbound = RequestDirection.outbound then
                (idView id s).ruleAt peer RequestDirection.outbound + 1
              else (idView id s).ruleAt peer RequestDirection.outbound)
            else (idView id s).ruleAt peer RequestDirection.outbound) = 1
          rw [if_pos rfl, if_pos rfl]
          omega
    · rw [hv]
      cases dir <;>
        · show SegTrace id 0 0 (idView id s).tr
          rw [htr]
          rfl
  | missingApproval =>
    have hv : idView id (on_new_request s peer id req .missingApproval dir)
        = { (match dir with
            | .inbound => { idView id s with inStore := some (peer, req) }
            | .outbound => { idView id s with outStore := some (peer, req) }) with
            app := (idView id s).app ++ [(id, dir)] } := by
      rw [show on_new_request s peer id req .missingApproval dir
          = { store_request s peer id req dir with
              awaiting_approval :=
                (store_request s peer id req dir).awaiting_approval ++ [(id, dir)] }
          from by cases dir <;> rfl]
      have h1 := view_app_append id id dir (store_request s peer id req dir)
      rw [if_pos rfl] at h1
      rw [h1, view_store_request]
      cases dir <;> rfl
    refine ⟨.inApproval dir, ?_, ?_⟩
    · simp only [InvC1]
      rw [hv]
      cases dir
      · refine ⟨?_, ⟨rfl, hout⟩, hrule, hconn, hinf⟩
        show (idView id s).app ++ [(id, RequestDirection.inbound)]
          = [(id, RequestDirection.inbound)]
        rw [happ]
        rfl
      · refine ⟨?_, ⟨rfl, hin⟩, hrule, hconn, hinf⟩
        show (idView id s).app ++ [(id, RequestDirection.outbound)]
          = [(id, RequestDirection.outbound)]
        rw [happ]
        rfl
    · rw [hv]
      cases dir <;>
        · show SegTrace id 0 0 (idView id s).tr
          rw [htr]
          rfl
  | approved =>
    simp only [on_new_request]
    rcases hatt : s.connections.add_request peer id dir with _ | ⟨conn, conns'⟩
    · cases dir
      · have hv : idView id { s with
            actions := s.actions.push_back (.inboundFailure peer id .connectionClosed) }
            = { idView id s with
                tr := (idView id s).tr ++ [.inboundFailure peer id .connectionClosed] } :=
          view_push_hit id _ s (by simp [isTerminalFor, isFailureFor])
        refine ⟨.closed, ?_, ?_⟩
        · simp only [InvC1]
          rw [hv]
          exact ⟨hinf, hin, hout, hrule, happ, hconn⟩
        · rw [hv, htr]
          exact Or.inl ⟨_, rfl, by simp [isFailureFor]⟩
      · have hv : idView id (add_dial_attempt (store_request s peer id req .outbound)
            peer id)
            = { ({ idView id s with outStore := some (peer, req) } : IdView) with
                connAt := fun q =>
                  if q = peer then (idView id s).connAt q + 1 else (idView id s).connAt q,
                connTotal := (idView id s).connTotal + 1 } := by
          rw [view_add_dial_hit, view_store_request]
        refine ⟨.inConn peer, ?_, ?_⟩
        · simp only [InvC1]
          rw [hv]
          have hle := view_connAt_le id s peer
          rw [hconn] at hle
          refine ⟨?_, ?_, ⟨rfl, hin⟩, hrule, happ, hinf⟩
          · show (idView id s).connTotal + 1 = 1
            rw [hconn]
          · show (if peer = peer then (idView id s).connAt peer + 1
              else (idView id s).connAt peer) = 1
            rw [if_pos rfl]
            omega
        · rw [hv]
          show SegTrace id 0 0 (idView id s).tr
          rw [htr]
          rfl
    · have hv : idView id (add_ready_request { s with connections := conns' } peer id conn
          req dir)
          = { ({ idView id s with
              inflightAt := fun c' =>
                if c' = conn then (idView id s).inflightAt c' + 1
                else (idView id s).inflightAt c',
              inflightTotal := (idView id s).inflightTotal + 1 } : IdView) with
              tr := (idView id s).tr
                ++ [match dir with
                  | .inbound => .inboundReady id peer req
                  | .outbound => .outboundReady id peer conn req] } := by
        have e1 := view_attach_hit id peer dir s conn conns' hatt
        cases dir
        · rw [show add_ready_request { s with connections := conns' } peer id conn req
              .inbound
              = { ({ s with connections := conns' } : RequestManager) with
                  actions := ({ s with connections := conns' }
                    : RequestManager).actions.push_back (.inboundReady id peer req) }
            from rfl]
          rw [view_push_hit id _ _ (by simp [isTerminalFor, isReadyFor]), e1]
        · rw [show add_ready_request { s with connections := conns' } peer id conn req
              .outbound
              = { ({ s with connections := conns' } : RequestManager) with
                  actions := ({ s with connections := conns' }
                    : RequestManager).actions.push_back
                    (.outboundReady id peer conn req) }
            from rfl]
          rw [view_push_hit id _ _ (by simp [isTerminalFor, isReadyFor]), e1]
      refine ⟨.inflight, ?_, ?_⟩
      · simp only [InvC1]
        rw [hv]
        have hle := view_inflightAt_le id s conn
        rw [hinf] at hle
        refine ⟨?_, ⟨conn, ?_⟩, hin, hout, hrule, happ, hconn⟩
        · show (idView id s).inflightTotal + 1 = 1
          rw [hinf]
        · show (if conn = conn then (idView id s).inflightAt conn + 1
            else (idView id s).inflightAt conn) = 1
          rw [if_pos rfl]
          omega
      · rw [hv, htr]
        cases dir
        · exact ⟨_, rfl, by simp [isReadyFor]⟩
        · exact ⟨_, rfl, by simp [isReadyFor]⟩
  | rejected =>
    cases dir
    · have hv : idView id (on_new_request s peer id req .rejected .inbound)
          = { idView id s with
              tr := (idView id s).tr ++ [.inboundFailure peer id .notPermitted] } :=
        view_push_hit id _ s (by simp [isTerminalFor, isFailureFor])
      refine ⟨.closed, ?_, ?_⟩
      · simp only [InvC1]
        rw [hv]
        exact ⟨hinf, hin, hout, hrule, happ, hconn⟩
      · rw [hv, htr]
        exact Or.inl ⟨_, rfl, by simp [isFailureFor]⟩
    · have hv : idView id (on_new_request s peer id req .rejected .outbound)
          = { idView id s with
              tr := (idView id s).tr ++ [.outboundFailure peer id .notPermitted] } :=
        view_push_hit id _ s (by simp [isTerminalFor, isFailureFor])
      refine ⟨.closed, ?_, ?_⟩
      · simp only [InvC1]
        rw [hv]
        exact ⟨hinf, hin, hout, hrule, happ, hconn⟩
      · rw [hv, htr]
        exact Or.inl ⟨_, rfl, by simp [isFailureFor]⟩

theorem step_tracked (id : RequestId) (op : Op) (s s' : RequestManager)
    (h : stepOp s op = some s') (ht : Tracked id s) : Tracked id s' := by
  cases op with
  | peerRule p r d =>
    cases h
    exact step_peerRule id p r d s ht
  | noPeerRule p d =>
    cases h
    exact step_noPeerRule id p d s ht
  | requestApproval rid b =>
    cases h
    exact step_requestApproval id rid b s ht
  | peerConnected p =>
    exact step_peerConnected id p s s' h ht
  | dialFailure p =>
    cases h
    exact step_dialFailure id p s ht
  | connectionClosed p c =>
    cases h
    exact step_connectionClosed id p c s ht

theorem run_tracked (id : RequestId) :
    ∀ (ops : List Op) (s s' : RequestManager), runOps s ops = some s' →
      Tracked id s → Tracked id s' := by
  intro ops
  induction ops with
  | nil =>
    intro s s' h ht
    cases h
    exact ht
  | cons op rest ih =>
    intro s s' h ht
    simp only [runOps] at h
    rcases hs : stepOp s op with _ | t <;> rw [hs] at h
    · cases h
    · exact ih t s' h (step_tracked id op s t hs ht)

/-- C1 counterexample to "exactly one terminal outcome action — never zero and
never two": (a) a request admitted as approved over a live connection gets its
`OutboundReady` action and then, when that connection closes, also an
`OutboundFailure(ConnectionClosed)` — two terminal actions for one id; (b) a
request admitted as `MissingApproval` on which no further operation is run has
zero terminal actions queued. -/
theorem c1_counterexample :
    (((runOps (on_new_request (on_connection_established RequestManager.new 1 5) 1 0
        ⟨9⟩ .approved .outbound) [Op.connectionClosed 1 5]).getD
        RequestManager.new).actions.items.filter (isTerminalFor 0)).length = 2
    ∧ ((on_new_request RequestManager.new 1 0 ⟨9⟩ .missingApproval
        .outbound).actions.items.filter (isTerminalFor 0)).length = 0 := by
  constructor
  · rfl
  · rfl

/-- C1 (corrected): for every request admitted via `on_new_request` under an
id fresh to the manager, and every sequence of subsequent manager operations
(`on_peer_rule`, `on_no_peer_rule`, `on_request_approval`,
`on_peer_connected`, `on_dial_failure`, `on_connection_closed`) that completes
without hitting the `on_peer_connected` panic, the terminal actions queued for
that id form one of exactly four shapes: none yet, one `*Ready`, one
`*Failure`, or one `*Ready` followed by one `*Failure` (the failure after a
`Ready` reports the later closing of the connection, the spec's completion
report) — never two `Ready`s, never two `Failure`s, never a `Failure` before a
`Ready`. The original "exactly one — never zero and never two" is refuted by
`c1_counterexample`. -/
theorem c1_amended (id : RequestId) (peer : PeerId) (req : RequestMessage)
    (status : ApprovalStatus) (dir : RequestDirection) (s s' : RequestManager)
    (hfresh : freshId id s = true) (ops : List Op)
    (hrun : runOps (on_new_request s peer id req status dir) ops = some s') :
    TraceShape id (s'.actions.items.filter (isTerminalFor id)) := by
  have ht := run_tracked id ops _ s' hrun (admit_tracked id peer req status dir s hfresh)
  obtain ⟨ph, hI, hT⟩ := ht
  exact SegTrace_shape id (phaseClass ph) _ hT

/-- C1 witness: admit request 0 for peer 1 as approved outbound on the fresh
manager (queuing a dial attempt) and let the dial fail; the theorem applies
with every hypothesis discharged by evaluation. -/
theorem c1_witness :
    TraceShape 0 (((runOps (on_new_request RequestManager.new 1 0 ⟨9⟩
        ApprovalStatus.approved RequestDirection.outbound)
        [Op.dialFailure 1]).getD RequestManager.new).actions.items.filter
      (isTerminalFor 0)) :=
  c1_amended 0 1 ⟨9⟩ .approved .outbound RequestManager.new
    ((runOps (on_new_request RequestManager.new 1 0 ⟨9⟩ .approved .outbound)
      [Op.dialFailure 1]).getD RequestManager.new)
    (by decide) [Op.dialFailure 1] (by rfl)
